import Mathlib

/-!
# Shallow embedding of the KiVar variant engine

This file embeds the core of `kivar_engine.py` (tokenizers, property
specifier parser, choice model builder and finalizer, ambiguity checker,
selection resolver, apply/diff engine and variant lookup table validation)
into Lean and proves properties of the embedding.

Modelling conventions:
* Python dictionaries become insertion-ordered association lists
  (`List (String × α)`); assignment updates the first matching key in place
  and appends new keys at the end, mirroring Python `dict` semantics.
* The raw solder paste margin ratio (a Python float) is modelled as an
  exact rational (`ℚ`); the engine only compares ratios against constants
  and adds/subtracts a fixed offset.
* Python exceptions that a function raises become `Except` results;
  exceptions that a function catches and converts into error-list entries
  become explicit error values.
* Formatted error/change message strings become inductive values carrying
  the same data that the message interpolates.
-/

set_option maxHeartbeats 1000000

namespace KiVar

/-- Association-list lookup; the first matching key wins (Python `d[k]` /
`k in d`, where keys are unique). -/
def alookup {α : Type} : List (String × α) → String → Option α
  | [], _ => none
  | (k, v) :: rest, key => if k = key then some v else alookup rest key

/-- Association-list write (Python `d[k] = v`): an existing key keeps its
position, a new key is appended at the end. -/
def aset {α : Type} : List (String × α) → String → α → List (String × α)
  | [], key, v => [(key, v)]
  | (k, w) :: rest, key, v =>
    if k = key then (k, v) :: rest else (k, w) :: aset rest key v

/-- Association-list key removal (Python `d.pop(k, None)`). -/
def adrop {α : Type} : List (String × α) → String → List (String × α)
  | [], _ => []
  | (k, w) :: rest, key => if k = key then rest else (k, w) :: adrop rest key

/-- The keys of an association list, in order. -/
def akeys {α : Type} (m : List (String × α)) : List String := m.map Prod.fst

theorem alookup_aset {α : Type} (m : List (String × α)) (k : String) (v : α) :
    alookup (aset m k v) k = some v := by
  induction m with
  | nil => simp [aset, alookup]
  | cons p rest ih =>
    obtain ⟨k', w⟩ := p
    by_cases h : k' = k <;> simp [aset, alookup, h, ih]

theorem alookup_aset_ne {α : Type} (m : List (String × α)) (k k' : String) (v : α)
    (h : k ≠ k') : alookup (aset m k v) k' = alookup m k' := by
  induction m with
  | nil => simp [aset, alookup, h]
  | cons p rest ih =>
    obtain ⟨k'', w⟩ := p
    by_cases h2 : k'' = k
    · subst h2
      simp [aset, alookup, h]
    · simp [aset, alookup, h2, ih]

theorem aset_aset {α : Type} (m : List (String × α)) (k : String) (v w : α) :
    aset (aset m k v) k w = aset m k w := by
  induction m with
  | nil => simp [aset]
  | cons p rest ih =>
    obtain ⟨k', x⟩ := p
    by_cases h : k' = k <;> simp [aset, h, ih]

theorem aset_self {α : Type} (m : List (String × α)) (k : String) (v : α)
    (h : alookup m k = some v) : aset m k v = m := by
  induction m with
  | nil => simp [alookup] at h
  | cons p rest ih =>
    obtain ⟨k', w⟩ := p
    by_cases h2 : k' = k
    · subst h2
      simp [alookup] at h
      simp [aset, h]
    · simp [alookup, h2] at h
      simp [aset, h2, ih h]

/-! ## Solder paste margin ratio bands (`PasteRatio`, `PasteMode`) -/

namespace PasteRatio

def OFFSET : ℚ := -42000
def TOLERANCE : ℚ := 100
def INHERIT : ℚ := -42420
def INHERIT_EPS : ℚ := 1/10

end PasteRatio

/-- The `PasteMode` enumeration of `kivar_engine.py`. -/
inductive PasteMode
  | invalid
  | onIsInherit
  | onWithRatio
  | offWasInherit
  | offWasRatio
deriving DecidableEq

/-- `paste_mode_from_ratio`: classify a raw margin-ratio (`None` or a number)
into one of the four recognized bands, else `INVALID`. -/
def paste_mode_from_ratio : Option ℚ → PasteMode
  | none => .onIsInherit
  | some p =>
    if p ≤ PasteRatio.TOLERANCE ∧ -PasteRatio.TOLERANCE ≤ p then .onWithRatio
    else if p ≤ PasteRatio.INHERIT + PasteRatio.INHERIT_EPS ∧
        PasteRatio.INHERIT - PasteRatio.INHERIT_EPS ≤ p then .offWasInherit
    else if p ≤ PasteRatio.OFFSET + PasteRatio.TOLERANCE ∧
        PasteRatio.OFFSET - PasteRatio.TOLERANCE ≤ p then .offWasRatio
    else .invalid

/-- `paste_state_from_ratio`: boolean solder-paste state from the band
(`None` when unclassifiable). -/
def paste_state_from_ratio (p : Option ℚ) : Option Bool :=
  match paste_mode_from_ratio p with
  | .onIsInherit => some true
  | .onWithRatio => some true
  | .offWasInherit => some false
  | .offWasRatio => some false
  | .invalid => none

/-! ## Tokenizer: `escape_str`, `quote_str`, `cook_raw_string`,
`split_parens`, `split_raw_str` -/

/-- The error kinds the tokenizers raise (`ValueError` messages). -/
inductive StrErr
  | unterminatedEscape
  | unmatchedSingleQuote
  | unmatchedDoubleQuote
  | unmatchedClosingParen
  | unmatchedOpeningParen
  | beyondClosingParen
deriving DecidableEq

/-- One step of `escape_str`: backslash-escape `\`, `'` and `"`. -/
def escapeChars (c : Char) : List Char :=
  if c = '\\' ∨ c = '\'' ∨ c = '"' then ['\\', c] else [c]

/-- `escape_str`. -/
def escape_str (s : String) : String := ⟨s.data.flatMap escapeChars⟩

/-- The characters that force `quote_str` to quote its input
(Python string `', -~\\[]()="\''`). -/
def specialChars : List Char :=
  [',', ' ', '-', '~', '\\', '[', ']', '(', ')', '=', '"', '\'']

def countChar (l : List Char) (c : Char) : Nat := l.countP (fun d => d = c)

/-- One step of the quoting loop in `quote_str`: escape `\` and the chosen
quote character. -/
def quoteChar (q c : Char) : List Char :=
  if c = '\\' ∨ c = q then ['\\', c] else [c]

/-- `quote_str`: quote a string if needed, preferring single quotes,
switching to double quotes when the string holds more single than double
quotes. -/
def quote_str (s : String) : String :=
  if s = "" then "''"
  else if s.data.any (fun c => specialChars.contains c) then
    let q := if countChar s.data '\'' > countChar s.data '"' then '"' else '\''
    ⟨q :: (s.data.flatMap (quoteChar q) ++ [q])⟩
  else s

/-- The state machine of `cook_raw_string` over the remaining input.
`acc` holds the output so far in reverse. -/
def cookAux (escaped qs qd : Bool) (acc : List Char) : List Char → Except StrErr (List Char)
  | [] =>
    if escaped then .error .unterminatedEscape
    else if qs then .error .unmatchedSingleQuote
    else if qd then .error .unmatchedDoubleQuote
    else .ok acc.reverse
  | c :: rest =>
    if escaped then cookAux false qs qd (c :: acc) rest
    else if c = '\\' then cookAux true qs qd acc rest
    else if c = '\'' ∧ ¬qd then cookAux false (!qs) qd acc rest
    else if c = '"' ∧ ¬qs then cookAux false qs (!qd) acc rest
    else cookAux false qs qd (c :: acc) rest

/-- `cook_raw_string`: remove one level of escaping/quoting. -/
def cook_raw_string (s : String) : Except StrErr String :=
  (cookAux false false false [] s.data).map fun l => ⟨l⟩

/-- The state machine of `split_parens` over the remaining input. -/
def splitParensAux (item : List Char) (outside inside : Option (List Char))
    (escaped qs qd : Bool) (parens : Nat) (endExpected : Bool) :
    List Char → Except StrErr (Option String × Option String)
  | [] =>
    if parens ≠ 0 then .error .unmatchedOpeningParen
    else if escaped then .error .unterminatedEscape
    else if qs then .error .unmatchedSingleQuote
    else if qd then .error .unmatchedDoubleQuote
    else
      let outside := if item ≠ [] then some item.reverse else outside
      .ok (outside.map fun l => (⟨l⟩ : String), inside.map fun l => (⟨l⟩ : String))
  | c :: rest =>
    if endExpected then .error .beyondClosingParen
    else if escaped then splitParensAux (c :: item) outside inside false qs qd parens false rest
    else if c = '\\' then splitParensAux (c :: item) outside inside true qs qd parens false rest
    else if c = '\'' ∧ ¬qd then splitParensAux (c :: item) outside inside false (!qs) qd parens false rest
    else if c = '"' ∧ ¬qs then splitParensAux (c :: item) outside inside false qs (!qd) parens false rest
    else if c = '(' ∧ ¬(qs ∨ qd) then
      if parens = 0 then
        -- first top-level opening paren: commit `outside`, start an empty group
        splitParensAux [] (some item.reverse) (some []) false qs qd 1 false rest
      else splitParensAux (c :: item) outside inside false qs qd (parens + 1) false rest
    else if c = ')' ∧ ¬(qs ∨ qd) then
      if parens = 0 then .error .unmatchedClosingParen
      else if parens = 1 then
        splitParensAux [] outside (some item.reverse) false qs qd 0 true rest
      else splitParensAux (c :: item) outside inside false qs qd (parens - 1) false rest
    else splitParensAux (c :: item) outside inside false qs qd parens false rest

/-- `split_parens`: split a string into the text outside and inside the first
top-level parenthesized group; `none` for `inside` means no group present. -/
def split_parens (s : String) : Except StrErr (Option String × Option String) :=
  splitParensAux [] none none false false false 0 false s.data

/-- The state machine of `split_raw_str` over the remaining input.
`result` holds the finished items, `item` the current one in reverse. -/
def splitRawAux (sep : Char) (multisep : Bool) (escaped qs qd : Bool) (parens : Nat)
    (item : List Char) (result : List String) : List Char → Except StrErr (List String)
  | [] =>
    if parens ≠ 0 then .error .unmatchedOpeningParen
    else if escaped then .error .unterminatedEscape
    else if qs then .error .unmatchedSingleQuote
    else if qd then .error .unmatchedDoubleQuote
    else if ¬multisep ∨ item ≠ [] then .ok (result ++ [⟨item.reverse⟩])
    else .ok result
  | c :: rest =>
    if escaped then splitRawAux sep multisep false qs qd parens (c :: item) result rest
    else if c = '\\' then splitRawAux sep multisep true qs qd parens (c :: item) result rest
    else if c = '\'' ∧ ¬qd then splitRawAux sep multisep false (!qs) qd parens (c :: item) result rest
    else if c = '"' ∧ ¬qs then splitRawAux sep multisep false qs (!qd) parens (c :: item) result rest
    else if c = '(' ∧ ¬(qs ∨ qd) then splitRawAux sep multisep false qs qd (parens + 1) (c :: item) result rest
    else if c = ')' ∧ ¬(qs ∨ qd) then
      if parens > 0 then splitRawAux sep multisep false qs qd (parens - 1) (c :: item) result rest
      else .error .unmatchedClosingParen
    else if c = sep ∧ ¬(qs ∨ qd) ∧ parens = 0 then
      if ¬multisep ∨ item ≠ [] then
        splitRawAux sep multisep false qs qd parens [] (result ++ [⟨item.reverse⟩]) rest
      else splitRawAux sep multisep false qs qd parens item result rest
    else splitRawAux sep multisep false qs qd parens (c :: item) result rest

/-- `split_raw_str`: split on a separator outside quotes and parentheses;
`multisep` collapses runs of separators (drops empty fields). -/
def split_raw_str (s : String) (sep : Char) (multisep : Bool) : Except StrErr (List String) :=
  splitRawAux sep multisep false false false 0 [] [] s.data

/-! ## Round trip of `quote_str` and `cook_raw_string` (C8) -/

theorem cookAux_plain (l : List Char)
    (h : ∀ c ∈ l, c ≠ '\\' ∧ c ≠ '\'' ∧ c ≠ '"') (acc : List Char) :
    cookAux false false false acc l = .ok (acc.reverse ++ l) := by
  induction l generalizing acc with
  | nil => simp [cookAux]
  | cons c rest ih =>
    obtain ⟨h1, h2, h3⟩ := h c (List.mem_cons_self c rest)
    rw [cookAux]
    simp only [if_neg, h1, h2, h3, Bool.not_false, and_true, if_false, ite_false,
      Bool.false_eq_true, false_and, and_false]
    rw [ih (fun d hd => h d (List.mem_cons_of_mem c hd)) (c :: acc)]
    simp

/-- Inside an open `q`-quote, `cook` consumes the `quote_str`-escaped form of
any character list verbatim. -/
theorem cookAux_quoted (q : Char) (qs qd : Bool)
    (hq : (q = '\'' ∧ qs = true ∧ qd = false) ∨ (q = '"' ∧ qs = false ∧ qd = true))
    (l : List Char) (acc rest : List Char) :
    cookAux false qs qd acc (l.flatMap (quoteChar q) ++ rest) =
      cookAux false qs qd (l.reverse ++ acc) rest := by
  induction l generalizing acc with
  | nil => simp
  | cons c t ih =>
    by_cases hc : c = '\\' ∨ c = q
    · have hstep : (c :: t).flatMap (quoteChar q) ++ rest =
          '\\' :: c :: (t.flatMap (quoteChar q) ++ rest) := by
        simp [quoteChar, hc]
      rw [hstep, cookAux]
      rw [if_neg (by decide : ¬((false : Bool) = true)), if_pos rfl, cookAux,
        if_pos (rfl : (true : Bool) = true)]
      rw [ih (c :: acc)]
      simp
    · push_neg at hc
      obtain ⟨hc1, hc2⟩ := hc
      have hstep : (c :: t).flatMap (quoteChar q) ++ rest =
          c :: (t.flatMap (quoteChar q) ++ rest) := by
        simp [quoteChar, hc1, hc2]
      rw [hstep, cookAux]
      rcases hq with ⟨hq1, hqs, hqd⟩ | ⟨hq1, hqs, hqd⟩ <;> subst hq1 <;> subst hqs <;> subst hqd
      · rw [if_neg (by decide : ¬((false : Bool) = true)), if_neg hc1,
          if_neg (fun h => hc2 h.1), if_neg (fun h => h.2 rfl)]
        rw [ih (c :: acc)]
        simp
      · rw [if_neg (by decide : ¬((false : Bool) = true)), if_neg hc1,
          if_neg (fun h => h.2 rfl), if_neg (fun h => hc2 h.1)]
        rw [ih (c :: acc)]
        simp

theorem cookAux_closeQuote (q : Char) (qs qd : Bool)
    (hq : (q = '\'' ∧ qs = true ∧ qd = false) ∨ (q = '"' ∧ qs = false ∧ qd = true))
    (acc : List Char) :
    cookAux false qs qd acc [q] = .ok acc.reverse := by
  rcases hq with ⟨hq1, hqs, hqd⟩ | ⟨hq1, hqs, hqd⟩ <;> subst hq1 <;> subst hqs <;> subst hqd <;>
    simp [cookAux]

/-- C8: for every string `s`, unescaping the quoted form returns the original:
`cook_raw_string (quote_str s) = s`, in particular when `s` contains commas,
spaces, parentheses, single or double quotes, or backslashes. -/
theorem cook_quote_roundtrip (s : String) : cook_raw_string (quote_str s) = .ok s := by
  obtain ⟨d⟩ := s
  rw [quote_str]
  by_cases he : (⟨d⟩ : String) = ""
  · rw [if_pos he, he]
    rfl
  · rw [if_neg he]
    by_cases hs : d.any (fun c => specialChars.contains c)
    · rw [if_pos hs]
      set q : Char := if countChar d '\'' > countChar d '"' then '"' else '\'' with hqdef
      have hq : q = '"' ∨ q = '\'' := by
        rw [hqdef]
        by_cases h : countChar d '\'' > countChar d '"' <;> simp [h]
      show (cookAux false false false [] (String.data ⟨_⟩)).map (fun l => (⟨l⟩ : String)) = _
      have hdata : String.data ⟨q :: (d.flatMap (quoteChar q) ++ [q])⟩ =
          q :: (d.flatMap (quoteChar q) ++ [q]) := rfl
      rw [hdata]
      rcases hq with hq | hq <;> rw [hq]
      · rw [cookAux]
        rw [if_neg (by decide : ¬((false : Bool) = true)), if_neg (by decide),
          if_neg (by decide), if_pos (by decide)]
        simp only [Bool.not_false]
        rw [cookAux_quoted '"' false true (Or.inr ⟨rfl, rfl, rfl⟩) d [] ['"']]
        rw [cookAux_closeQuote '"' false true (Or.inr ⟨rfl, rfl, rfl⟩)]
        simp only [List.append_nil, List.reverse_reverse]
        rfl
      · rw [cookAux]
        rw [if_neg (by decide : ¬((false : Bool) = true)), if_neg (by decide),
          if_pos (by decide)]
        simp only [Bool.not_false]
        rw [cookAux_quoted '\'' true false (Or.inl ⟨rfl, rfl, rfl⟩) d [] ['\'']]
        rw [cookAux_closeQuote '\'' true false (Or.inl ⟨rfl, rfl, rfl⟩)]
        simp only [List.append_nil, List.reverse_reverse]
        rfl
    · rw [if_neg hs]
      show (cookAux false false false [] d).map (fun l => (⟨l⟩ : String)) = _
      rw [cookAux_plain d ?plain []]
      · rfl
      case plain =>
        intro c hc
        refine ⟨?_, ?_, ?_⟩ <;> intro h <;> subst h <;>
          exact hs (List.any_eq_true.mpr ⟨_, hc, by decide⟩)

/-! ## `split_parens` behaviour (C9) -/

/-- C9: `split_parens` returns the text outside and inside the first
top-level parenthesized group, with an absent group (`none`) distinguished
from an empty one (`""`); any character following the closing parenthesis is
a syntax error, as are unbalanced parentheses, quotes and escapes. -/
theorem split_parens_spec :
    split_parens "Var(A,B)" = .ok (some "Var", some "A,B") ∧
    split_parens "Var" = .ok (some "Var", none) ∧
    split_parens "Var()" = .ok (some "Var", some "") ∧
    (∀ (c : Char) (rest : List Char),
      split_parens ⟨"Var(A,B)".data ++ c :: rest⟩ = .error .beyondClosingParen) ∧
    split_parens "Var(" = .error .unmatchedOpeningParen ∧
    split_parens "Var)" = .error .unmatchedClosingParen ∧
    split_parens "'Var" = .error .unmatchedSingleQuote ∧
    split_parens "Var\\" = .error .unterminatedEscape := by
  refine ⟨rfl, rfl, rfl, fun c rest => rfl, rfl, rfl, rfl, rfl⟩

/-! ## Property codes and the property specifier parser (`parse_prop_str`) -/

namespace PropCode

def FIT : Char := 'F'
def BOM : Char := 'B'
def POS : Char := 'P'
def SOLDER : Char := 'S'
def MODEL : Char := 'M'

end PropCode

namespace PropGroup

def ASSEMBLE : Char := '!'

end PropGroup

def base_prop_codes : List Char :=
  [PropCode.FIT, PropCode.BOM, PropCode.POS, PropCode.SOLDER, PropCode.MODEL]

def supported_prop_codes : List Char := base_prop_codes ++ [PropGroup.ASSEMBLE]

def inverted_prop_codes : List Char := [PropCode.FIT, PropCode.BOM, PropCode.POS]

def indexed_prop_codes : List Char := [PropCode.MODEL]

def group_assemble_prop_codes : List Char := [PropCode.FIT, PropCode.BOM, PropCode.POS]

/-- A property-id → tri-state map (Python dict with `True`/`False`/`None`
values). -/
abbrev PropMap := List (String × Option Bool)

/-- `apply_indexed_prop`: commit `state` under the id `<code>#<index>` when
both a code and an index are pending. -/
def apply_indexed_prop (prop_set : PropMap) (code : Option Char) (index : Option Nat)
    (state : Option Bool) : PropMap :=
  match code, index with
  | some c, some i => aset prop_set ((⟨[c]⟩ : String) ++ "#" ++ toString i) state
  | _, _ => prop_set

/-- The `ValueError`s raised by `parse_prop_str`. -/
inductive PropErr
  | modifierWhereCode
  | modifierWhereIndex
  | codeWhereIndex
  | undefinedModifier (c : Char)
  | unexpectedIndex
  | indexTooHigh (code : Char)
  | unsupportedCode (c : Char)
  | endWhereCode
  | endWhereIndex
deriving DecidableEq

/-- The character loop of `parse_prop_str` (the input is already
upper-cased). -/
def parsePropAux (prop_set : PropMap) (state : Option Bool) (expectCode expectIndex : Bool)
    (currentCode : Option Char) (currentIndex : Option Nat) :
    List Char → Except PropErr PropMap
  | [] =>
    let prop_set := apply_indexed_prop prop_set currentCode currentIndex state
    if expectCode then .error .endWhereCode
    else if expectIndex then .error .endWhereIndex
    else .ok prop_set
  | c :: rest =>
    if c = '+' ∨ c = '-' then
      if expectCode then .error .modifierWhereCode
      else if expectIndex then .error .modifierWhereIndex
      else
        let prop_set := apply_indexed_prop prop_set currentCode currentIndex state
        parsePropAux prop_set (some (decide (c = '+'))) true false none none rest
    else if c ∈ supported_prop_codes then
      if expectIndex then .error .codeWhereIndex
      else
        match state with
        | none => .error (.undefinedModifier c)
        | some st =>
          let prop_set := apply_indexed_prop prop_set currentCode currentIndex (some st)
          if c ∈ indexed_prop_codes then
            parsePropAux prop_set (some st) false true (some c) (some 0) rest
          else if c = PropGroup.ASSEMBLE then
            let prop_set :=
              group_assemble_prop_codes.foldl (fun ps g => aset ps (⟨[g]⟩ : String) (some st)) prop_set
            parsePropAux prop_set (some st) false false none none rest
          else
            parsePropAux (aset prop_set (⟨[c]⟩ : String) (some st)) (some st) false false none none rest
    else if c.isDigit then
      match currentCode, currentIndex with
      | some code, some idx =>
        let idx' := idx * 10 + (c.toNat - 48)
        if idx' > 99999 then .error (.indexTooHigh code)
        else parsePropAux prop_set state expectCode false (some code) (some idx') rest
      | _, _ => .error .unexpectedIndex
    else
      -- the final `else` of the Python chain always raises here: `c` cannot be
      -- a supported code, since the earlier branch already tested that
      .error (.unsupportedCode c)

/-- `parse_prop_str`: parse one `+`/`-` prefixed property specifier token into
a caller-owned property map. The input is upper-cased first. -/
def parse_prop_str (s : String) (prop_set : PropMap) : Except PropErr PropMap :=
  parsePropAux prop_set none false false none none (s.data.map Char.toUpper)

/-! ### C6: behaviour of the property specifier parser -/

theorem toUpper_of_isDigit (c : Char) (h : c.isDigit = true) : c.toUpper = c := by
  simp only [Char.isDigit, Bool.and_eq_true, decide_eq_true_eq] at h
  rw [Char.toUpper, if_neg]
  intro hc
  have h57 : c.toNat ≤ 57 := h.2
  omega

theorem isDigit_not_modifier (c : Char) (h : c.isDigit = true) : ¬(c = '+' ∨ c = '-') := by
  rintro (rfl | rfl) <;> exact absurd h (by decide)

theorem isDigit_not_supported (c : Char) (h : c.isDigit = true) :
    c ∉ supported_prop_codes := by
  intro hmem
  simp only [supported_prop_codes, base_prop_codes, PropCode.FIT, PropCode.BOM, PropCode.POS,
    PropCode.SOLDER, PropCode.MODEL, PropGroup.ASSEMBLE, List.cons_append, List.nil_append,
    List.mem_cons, List.not_mem_nil, or_false] at hmem
  rcases hmem with rfl | rfl | rfl | rfl | rfl | rfl <;> exact absurd h (by decide)

/-- The value a run of decimal digit characters denotes, folded onto an
initial accumulator the way the parser loop does. -/
def digitsVal (init : Nat) (ds : List Char) : Nat :=
  ds.foldl (fun a c => a * 10 + (c.toNat - 48)) init

/-- Once an indexed code is pending, a digit run whose accumulated value
exceeds 99999 always raises the index-too-high error. -/
theorem parsePropAux_digits_overflow (ds : List Char) (hds : ∀ c ∈ ds, c.isDigit = true)
    (ps : PropMap) (st : Bool) (b : Bool) (code : Char) (idx : Nat)
    (hidx : idx ≤ 99999) (hval : 99999 < digitsVal idx ds) :
    parsePropAux ps (some st) false b (some code) (some idx) ds =
      .error (.indexTooHigh code) := by
  induction ds generalizing b idx with
  | nil =>
    simp only [digitsVal, List.foldl_nil] at hval
    omega
  | cons c t ih =>
    have hd := hds c (List.mem_cons_self c t)
    rw [parsePropAux, if_neg (isDigit_not_modifier c hd),
      if_neg (isDigit_not_supported c hd), if_pos hd]
    by_cases hover : idx * 10 + (c.toNat - 48) > 99999
    · rw [if_pos hover]
    · rw [if_neg hover]
      exact ih (fun d hdt => hds d (List.mem_cons_of_mem c hdt)) false _ (by omega) hval

/-- C6: the property specifier parser on an empty map maps `"+F-B"` to
`{F ↦ true, B ↦ false}` and `"+M2"` to `{M#2 ↦ true}`; `"+M"` (indexed code
with no digits) fails, as does any index value above 99999. -/
theorem parse_prop_str_spec :
    parse_prop_str "+F-B" [] = .ok [("F", some true), ("B", some false)] ∧
    parse_prop_str "+M2" [] = .ok [("M#2", some true)] ∧
    parse_prop_str "+M" [] = .error .endWhereIndex ∧
    ∀ ds : List Char, (∀ c ∈ ds, c.isDigit = true) → 99999 < digitsVal 0 ds →
      parse_prop_str ⟨'+' :: 'M' :: ds⟩ [] = .error (.indexTooHigh 'M') := by
  refine ⟨rfl, rfl, rfl, ?_⟩
  intro ds hds hval
  have hmap : (('+' :: 'M' :: ds).map Char.toUpper) = '+' :: 'M' :: ds := by
    simp only [List.map_cons, List.cons.injEq]
    refine ⟨by decide, by decide, ?_⟩
    rw [List.map_congr_left (fun c hc => toUpper_of_isDigit c (hds c hc))]
    exact List.map_id' ds
  show parsePropAux [] none false false none none (('+' :: 'M' :: ds).map Char.toUpper) = _
  rw [hmap]
  have hstep : parsePropAux ([] : PropMap) none false false none none ('+' :: 'M' :: ds) =
      parsePropAux [] (some true) false true (some 'M') (some 0) ds := rfl
  rw [hstep]
  exact parsePropAux_digits_overflow ds hds [] true true 'M' 0 (by omega) hval

/-- Witness for C6's universally quantified part at the concrete input
`"+M100000"`. -/
theorem parse_prop_str_spec_witness :
    parse_prop_str "+M100000" [] = .error (.indexTooHigh 'M') :=
  parse_prop_str_spec.2.2.2 ['1', '0', '0', '0', '0', '0'] (by decide) (by decide)

/-! ## Data model: component snapshots and the choice table (`vardict`) -/

/-- One choice's data: an optional replacement value and a property map
(Python `{Key.VALUE: ..., Key.PROPS: ...}`). -/
structure ChoiceEntry where
  value : Option String
  props : PropMap
deriving DecidableEq

/-- A choice-name → entry table (one scope of the vardict). -/
abbrev Branch := List (String × ChoiceEntry)

/-- The per-component part of the vardict:
`{Key.ASPECT, Key.CMP, Key.FLD}`. -/
structure VarComp where
  aspect : String
  cmp : Branch
  fld : List (String × Branch)
deriving DecidableEq

/-- The per-component snapshot built by `build_fpdict`:
reference, value, fields, property states and the raw paste margin ratio. -/
structure FpState where
  ref : String
  value : String
  fields : List (String × String)
  props : PropMap
  pratio : Option ℚ
deriving DecidableEq

abbrev Vardict := List (String × VarComp)
abbrev Fpdict := List (String × FpState)

namespace Key

def DEFAULT : String := "*"
def STANDIN : String := "?"

end Key

/-- `prop_state`: look a property up in a map, `None` when absent. -/
def prop_state (props : PropMap) (prop : String) : Option Bool :=
  (alookup props prop).getD none

/-! ## `add_choice` (C7) -/

/-- The error-list entries `add_choice` can produce. -/
inductive AddErr
  | nameSplit (e : StrErr)
  | argSplit (e : StrErr)
  | emptyChoiceIdent
  | noPropInFieldScope
  | propParse (e : PropErr)
  | extraValue (value choice : String)
  | extraProp (propId choice : String)
deriving DecidableEq

/-- Cook the raw choice-name list; `none` models the early
`return ["Empty choice identifier"]`, and `.error` a propagated cook
exception. -/
def cookChoiceNames : List String → Except StrErr (Option (List String))
  | [] => .ok (some [])
  | n :: rest => do
    let c ← cook_raw_string n
    if c = "" then pure none
    else
      match ← cookChoiceNames rest with
      | none => pure none
      | some cs => pure (some (c :: cs))

/-- The `for raw_arg in raw_args` loop of `add_choice`: cook each argument,
route `+`/`-` tokens to the property parser (illegal in field scope), and
collect the remaining tokens as value fragments. -/
def processChoiceArgs (fieldScope : Bool) (errors : List AddErr) (values : List String)
    (prop_set : PropMap) : List String → Except StrErr (List AddErr × List String × PropMap)
  | [] => .ok (errors, values, prop_set)
  | rawArg :: rest => do
    let arg ← cook_raw_string rawArg
    match rawArg.data with
    | c :: _ =>
      if c = '-' ∨ c = '+' then
        if fieldScope then
          processChoiceArgs fieldScope (errors ++ [.noPropInFieldScope]) values prop_set rest
        else
          match parse_prop_str arg prop_set with
          | .error e => processChoiceArgs fieldScope (errors ++ [.propParse e]) values prop_set rest
          | .ok ps => processChoiceArgs fieldScope errors values ps rest
      else processChoiceArgs fieldScope errors (values ++ [arg]) prop_set rest
    | [] =>
      -- unreachable: `split_raw_str` with `multisep` never yields empty items
      processChoiceArgs fieldScope errors (values ++ [arg]) prop_set rest

/-- The `for choice in choices` body of `add_choice`: create the entry if
missing, then assign value and properties, flagging duplicate assignments. -/
def commitChoice (branch : Branch) (choice : String) (values : List String)
    (prop_set : PropMap) : List AddErr × Branch :=
  let branch := if (alookup branch choice).isNone then aset branch choice ⟨none, []⟩ else branch
  let valueStep : List AddErr × Branch :=
    if values ≠ [] then
      let value := String.intercalate " " values
      match alookup branch choice with
      | some e =>
        if e.value = none then ([], aset branch choice { e with value := some value })
        else ([.extraValue value choice], branch)
      | none => ([], branch)  -- unreachable: the entry was just created above
    else ([], branch)
  let (errs1, branch) := valueStep
  let (errs2, branch) := prop_set.foldl (fun (acc : List AddErr × Branch) p =>
    let (errs, branch) := acc
    match alookup branch choice with
    | some e =>
      let e := if (alookup e.props p.1).isNone then { e with props := aset e.props p.1 none } else e
      if (alookup e.props p.1).getD none = none then
        (errs, aset branch choice { e with props := aset e.props p.1 p.2 })
      else (errs ++ [.extraProp p.1 choice], branch)
    | none => (errs, branch)) ([], branch)
  (errs1 ++ errs2, branch)

/-- `add_choice`: add one choice-set definition (component scope when
`field = none`, else field scope) to the vardict. A `.error` result models a
cook exception propagating out of `add_choice` uncaught. -/
def addChoice (vardict : Vardict) (uuid : String) (raw_choice_name raw_choice_def : String)
    (field : Option String) : Except StrErr (List AddErr × Vardict) :=
  match split_raw_str raw_choice_name ',' false with
  | .error e => .ok ([.nameSplit e], vardict)
  | .ok raw_names =>
    match split_raw_str raw_choice_def ' ' true with
    | .error e => .ok ([.argSplit e], vardict)
    | .ok raw_args =>
      match cookChoiceNames raw_names with
      | .error e => .error e
      | .ok none => .ok ([.emptyChoiceIdent], vardict)
      | .ok (some choices) =>
        match processChoiceArgs field.isSome [] [] [] raw_args with
        | .error e => .error e
        | .ok (errors, values, prop_set) =>
          match alookup vardict uuid with
          | none => .ok (errors, vardict)  -- callers establish `uuid ∈ vardict` first
          | some vc =>
            match field with
            | none =>
              let (errs2, cmp) := choices.foldl (fun (acc : List AddErr × Branch) choice =>
                let (es, br) := acc
                let (es2, br) := commitChoice br choice values prop_set
                (es ++ es2, br)) ([], vc.cmp)
              .ok (errors ++ errs2, aset vardict uuid { vc with cmp := cmp })
            | some f =>
              let fld := if (alookup vc.fld f).isNone then aset vc.fld f [] else vc.fld
              let (errs2, fbr) := choices.foldl (fun (acc : List AddErr × Branch) choice =>
                let (es, br) := acc
                let (es2, br) := commitChoice br choice values prop_set
                (es ++ es2, br)) ([], (alookup fld f).getD [])
              .ok (errors ++ errs2, aset vardict uuid { vc with fld := aset fld f fbr })

/-! ### C7: duplicate property assignments -/

/-- C7 counterexample: two property-specifier tokens in one choice
definition's argument list both setting `F` raise **no** error at all — the
call succeeds with an empty error list, contradicting the claim that the
caller raises a duplicate-assignment error for this input. -/
theorem addChoice_dup_in_one_arglist_no_error :
    addChoice [("u1", ⟨"X", [], []⟩)] "u1" "A" "+F +F" none =
      .ok ([], [("u1", ⟨"X", [("A", ⟨none, [("F", some true)]⟩)], []⟩)]) := rfl

/-- C7 (amended): re-assigning a property id inside one argument list is
silently absorbed by the shared property map (the last sign wins, no error);
the caller's duplicate-assignment error arises exactly when the per-choice
assignment loop finds the property id already set for that choice — set by
a *separate* choice-definition record (a second `add_choice` call), or
within a *single* call whose choice-name list repeats the same choice
(e.g. names `A,A` with definition `+F`). -/
theorem addChoice_dup_assignment_spec :
    (∀ (vd : Vardict) (uuid : String) (vc : VarComp),
      alookup vd uuid = some vc → alookup vc.cmp "A" = none →
      addChoice vd uuid "A" "+F -F" none =
        .ok ([], aset vd uuid { vc with cmp := aset vc.cmp "A" ⟨none, [("F", some false)]⟩ })) ∧
    (∀ (vd : Vardict) (uuid : String) (vc : VarComp) (e : ChoiceEntry) (b : Bool),
      alookup vd uuid = some vc → alookup vc.cmp "A" = some e →
      alookup e.props "F" = some (some b) →
      addChoice vd uuid "A" "+F" none = .ok ([.extraProp "F" "A"], vd)) ∧
    (∀ (vd : Vardict) (uuid : String) (vc : VarComp),
      alookup vd uuid = some vc → alookup vc.cmp "A" = none →
      addChoice vd uuid "A,A" "+F" none =
        .ok ([.extraProp "F" "A"],
          aset vd uuid { vc with cmp := aset vc.cmp "A" ⟨none, [("F", some true)]⟩ })) := by
  refine ⟨?_, ?_, ?_⟩
  · intro vd uuid vc hvd hcmp
    have h1 : split_raw_str "A" ',' false = .ok ["A"] := rfl
    have h2 : split_raw_str "+F -F" ' ' true = .ok ["+F", "-F"] := rfl
    have h3 : cookChoiceNames ["A"] = .ok (some ["A"]) := rfl
    have h4 : processChoiceArgs false [] [] [] ["+F", "-F"] =
        .ok ([], [], [("F", some false)]) := rfl
    have hnone : (alookup vc.cmp "A").isNone = true := by rw [hcmp]; rfl
    simp only [addChoice, h1, h2, h3, h4, Option.isSome_none, hvd, commitChoice,
      List.foldl_cons, List.foldl_nil, hnone, if_pos, alookup_aset, Option.getD_some,
      List.nil_append, List.append_nil, hcmp]
    simp [alookup, aset, aset_aset, alookup_aset]
  · intro vd uuid vc e b hvd hcmp hprop
    have h1 : split_raw_str "A" ',' false = .ok ["A"] := rfl
    have h2 : split_raw_str "+F" ' ' true = .ok ["+F"] := rfl
    have h3 : cookChoiceNames ["A"] = .ok (some ["A"]) := rfl
    have h4 : processChoiceArgs false [] [] [] ["+F"] =
        .ok ([], [], [("F", some true)]) := rfl
    have hsome : (alookup vc.cmp "A").isNone = false := by rw [hcmp]; rfl
    have hpsome : (alookup e.props "F").isNone = false := by rw [hprop]; rfl
    simp only [addChoice, h1, h2, h3, hvd, Option.isSome_none]
    rw [h4]
    simp only [commitChoice, List.foldl_cons, List.foldl_nil, hsome, hcmp, hprop, hpsome,
      List.nil_append, List.append_nil]
    simp [hcmp, hprop, aset_self vd uuid vc hvd]
  · intro vd uuid vc hvd hcmp
    have h1 : split_raw_str "A,A" ',' false = .ok ["A", "A"] := rfl
    have h2 : split_raw_str "+F" ' ' true = .ok ["+F"] := rfl
    have h3 : cookChoiceNames ["A", "A"] = .ok (some ["A", "A"]) := rfl
    have h4 : processChoiceArgs false [] [] [] ["+F"] =
        .ok ([], [], [("F", some true)]) := rfl
    have hnone : (alookup vc.cmp "A").isNone = true := by rw [hcmp]; rfl
    simp only [addChoice, h1, h2, h3, h4, Option.isSome_none, hvd, commitChoice,
      List.foldl_cons, List.foldl_nil, hnone, if_pos, alookup_aset, Option.getD_some,
      List.nil_append, List.append_nil, hcmp]
    simp [alookup, aset, aset_aset, alookup_aset]

/-- Witness for C7's amended theorem at concrete inputs: the first call
absorbs `+F -F` silently (last sign wins), a second record assigning `F`
again for choice `A` yields the duplicate-assignment error, and so does a
single call whose choice-name list repeats `A`. -/
theorem addChoice_dup_assignment_spec_witness :
    addChoice [("u1", ⟨"X", [], []⟩)] "u1" "A" "+F -F" none =
      .ok ([], [("u1", ⟨"X", [("A", ⟨none, [("F", some false)]⟩)], []⟩)]) ∧
    addChoice [("u1", ⟨"X", [("A", ⟨none, [("F", some true)]⟩)], []⟩)] "u1" "A" "+F" none =
      .ok ([.extraProp "F" "A"], [("u1", ⟨"X", [("A", ⟨none, [("F", some true)]⟩)], []⟩)]) ∧
    addChoice [("u1", ⟨"X", [], []⟩)] "u1" "A,A" "+F" none =
      .ok ([.extraProp "F" "A"], [("u1", ⟨"X", [("A", ⟨none, [("F", some true)]⟩)], []⟩)]) := by
  refine ⟨?_, ?_, ?_⟩
  · exact addChoice_dup_assignment_spec.1 [("u1", ⟨"X", [], []⟩)] "u1" ⟨"X", [], []⟩ rfl rfl
  · exact addChoice_dup_assignment_spec.2.1 [("u1", ⟨"X", [("A", ⟨none, [("F", some true)]⟩)], []⟩)]
      "u1" ⟨"X", [("A", ⟨none, [("F", some true)]⟩)], []⟩ ⟨none, [("F", some true)]⟩ true rfl rfl rfl
  · exact addChoice_dup_assignment_spec.2.2 [("u1", ⟨"X", [], []⟩)] "u1" ⟨"X", [], []⟩ rfl rfl

/-! ## `finalize_vardict_branch` (C2)

Note on the Python original: the stand-in copy
`vardict_branch[choice][Key.PROPS] = vardict_branch[Key.STANDIN][Key.PROPS]`
aliases the stand-in's dict into the choice. All aliased copies are only ever
written with identical data afterwards (the backfill writes the same default
into every not-yet-defined choice), so copying by value is observationally
equivalent; the embedding copies by value. -/

/-- The validation errors `finalize_vardict_branch` appends
("Mixed choices with defined and undefined ..."). -/
inductive FinErr
  | mixedValue (defined undefined : Nat)
  | mixedProp (propId : String) (defined undefined : Nat)
deriving DecidableEq

/-- The value a branch defines for a choice (`none` when the choice is absent
or leaves the value undefined). -/
def branchValue (branch : Branch) (choice : String) : Option String :=
  (alookup branch choice).bind ChoiceEntry.value

/-- The state a branch defines for a choice's property (`none` when absent or
undefined). -/
def branchProp (branch : Branch) (choice prop : String) : Option Bool :=
  (alookup branch choice).bind fun e => (alookup e.props prop).getD none

/-- One step of the value-flattening loop of `finalize_vardict_branch`:
create a missing choice (from the stand-in when present), backfill an
undefined value from the explicit default, and count defined values. -/
def finalizeValueStep (branch : Branch) (cnt : Nat) (choice : String) : Branch × Nat :=
  let branch :=
    if (alookup branch choice).isNone then
      match alookup branch Key.STANDIN with
      | some st => aset branch choice ⟨st.value, st.props⟩
      | none => aset branch choice ⟨none, []⟩
    else branch
  let branch :=
    match alookup branch Key.DEFAULT with
    | some dflt =>
      match alookup branch choice with
      | some e => if e.value = none then aset branch choice { e with value := dflt.value } else branch
      | none => branch
    | none => branch
  let cnt := if (branchValue branch choice).isSome then cnt + 1 else cnt
  (branch, cnt)

/-- The default state `finalize_vardict_branch` uses for one property:
the explicit default's state when defined, else the inferred implicit
default (the opposite of the only polarity in use). -/
def propDefaultValue (branch : Branch) (all_aspect_choices : List String) (prop_code : String) :
    Option Bool :=
  let explicitDefault : Option Bool :=
    match alookup branch Key.DEFAULT with
    | some dflt => (alookup dflt.props prop_code).getD none
    | none => none
  match explicitDefault with
  | some v => some v
  | none =>
    let choices_with_true := (all_aspect_choices.filter
      (fun c => branchProp branch c prop_code = some true)).length
    let choices_with_false := (all_aspect_choices.filter
      (fun c => branchProp branch c prop_code = some false)).length
    if choices_with_false ≠ 0 ∧ choices_with_true = 0 then some true
    else if choices_with_false = 0 ∧ choices_with_true ≠ 0 then some false
    else none

/-- The value-flattening loop over all choices of the aspect. -/
def finalizeValueFold (all_aspect_choices : List String) (acc : Branch × Nat) : Branch × Nat :=
  all_aspect_choices.foldl (fun acc choice => finalizeValueStep acc.1 acc.2 choice) acc

/-- One step of the backfill-and-count loop of the per-property pass: write
the default into a choice whose state is missing or undefined, and count the
defined ones. -/
def propBackfillStep (prop_code : String) (dpv : Option Bool) (acc : Branch × Nat)
    (choice : String) : Branch × Nat :=
  let (br, cnt) := acc
  let br :=
    match alookup br choice with
    | some e =>
      if (alookup e.props prop_code).getD none = none then
        aset br choice { e with props := aset e.props prop_code dpv }
      else br
    | none => br  -- unreachable: the value pass created every choice
  let cnt := if (branchProp br choice prop_code).isSome then cnt + 1 else cnt
  (br, cnt)

/-- The backfill-and-count loop of the per-property pass. -/
def propBackfillFold (prop_code : String) (dpv : Option Bool) (all_aspect_choices : List String)
    (branch : Branch) : Branch × Nat :=
  all_aspect_choices.foldl (propBackfillStep prop_code dpv) (branch, 0)

/-- The per-property pass of `finalize_vardict_branch`. -/
def finalizePropStep (branch : Branch) (all_aspect_choices : List String) (prop_code : String) :
    Branch × List FinErr :=
  let dpv := propDefaultValue branch all_aspect_choices prop_code
  let (branch, defined) := propBackfillFold prop_code dpv all_aspect_choices branch
  let errs :=
    if ¬(defined = 0 ∨ defined = all_aspect_choices.length) then
      [FinErr.mixedProp prop_code defined (all_aspect_choices.length - defined)]
    else []
  (branch, errs)

/-- The loop over the footprint's property ids (component scope only). -/
def propPassFold (all_aspect_choices : List String) (acc : Branch × List FinErr)
    (codes : List String) : Branch × List FinErr :=
  codes.foldl (fun (acc : Branch × List FinErr) code =>
    let (br, errs) := acc
    let (br, errs2) := finalizePropStep br all_aspect_choices code
    (br, errs ++ errs2)) acc

/-- `finalize_vardict_branch`: flatten one branch of the vardict.
`fp_props` carries the footprint's property-id list for component scope and
is `none` for field scope. Returns the error list and the final branch (with
the `*`/`?` pseudo-choices stripped). -/
def finalize_vardict_branch (branch : Branch) (all_aspect_choices : List String)
    (fp_props : Option (List String)) : List FinErr × Branch :=
  let vstep := finalizeValueFold all_aspect_choices (branch, 0)
  let branch := vstep.1
  let cnt := vstep.2
  let valueErrs :=
    if ¬(cnt = 0 ∨ cnt = all_aspect_choices.length) then
      [FinErr.mixedValue cnt (all_aspect_choices.length - cnt)]
    else []
  let pstep :=
    match fp_props with
    | some codes => propPassFold all_aspect_choices (branch, []) codes
    | none => (branch, [])
  (valueErrs ++ pstep.2, adrop (adrop pstep.1 Key.DEFAULT) Key.STANDIN)

/-! ### C2: mixed-definition validation and default backfill -/

theorem alookup_adrop_ne {α : Type} (m : List (String × α)) (k k' : String) (h : k' ≠ k) :
    alookup (adrop m k) k' = alookup m k' := by
  induction m with
  | nil => rfl
  | cons p rest ih =>
    obtain ⟨k2, v⟩ := p
    by_cases h2 : k2 = k
    · rw [adrop, if_pos h2,
        show alookup ((k2, v) :: rest) k' = if k2 = k' then some v else alookup rest k' from rfl,
        if_neg (fun hh : k2 = k' => h (hh.symm.trans h2))]
    · rw [adrop, if_neg h2,
        show alookup ((k2, v) :: adrop rest k) k' =
          (if k2 = k' then some v else alookup (adrop rest k) k') from rfl,
        show alookup ((k2, v) :: rest) k' = if k2 = k' then some v else alookup rest k' from rfl,
        ih]

theorem finalizeValueFold_cons (c : String) (rest : List String) (acc : Branch × Nat) :
    finalizeValueFold (c :: rest) acc = finalizeValueFold rest (finalizeValueStep acc.1 acc.2 c) :=
  rfl

/-- Without a default or stand-in entry, one value step only creates a
missing entry with an undefined value and counts the defined values. -/
theorem finalizeValueStep_no_default (branch : Branch) (cnt : Nat) (c : String)
    (hD : alookup branch Key.DEFAULT = none) (hS : alookup branch Key.STANDIN = none)
    (hcD : c ≠ Key.DEFAULT) :
    (finalizeValueStep branch cnt c).1 =
      (if (alookup branch c).isNone then aset branch c ⟨none, []⟩ else branch) ∧
    (finalizeValueStep branch cnt c).2 =
      (if (branchValue branch c).isSome then cnt + 1 else cnt) := by
  by_cases hc : (alookup branch c).isNone
  · have hcnone : alookup branch c = none := Option.isNone_iff_eq_none.mp hc
    have h1 : alookup (aset branch c (⟨none, []⟩ : ChoiceEntry)) Key.DEFAULT = none := by
      rw [alookup_aset_ne _ _ _ _ hcD]
      exact hD
    have h2 : branchValue (aset branch c (⟨none, []⟩ : ChoiceEntry)) c = none := by
      simp [branchValue, alookup_aset]
    have h3 : branchValue branch c = none := by simp [branchValue, hcnone]
    simp only [finalizeValueStep, hc, if_true, hS, h1, h2, h3]
    simp
  · simp only [finalizeValueStep, hc, Bool.false_eq_true, if_false, hD]
    exact ⟨trivial, trivial⟩

/-- With an explicit default whose value is defined (and no stand-in), one
value step resolves the choice's value to its own value or the default's,
and always counts it as defined. -/
theorem finalizeValueStep_with_default (branch : Branch) (cnt : Nat) (c : String)
    (dflt : ChoiceEntry) (dv : String)
    (hD : alookup branch Key.DEFAULT = some dflt) (hdv : dflt.value = some dv)
    (hS : alookup branch Key.STANDIN = none) (hcD : c ≠ Key.DEFAULT)
    (hcS : c ≠ Key.STANDIN) :
    (finalizeValueStep branch cnt c).2 = cnt + 1 ∧
    branchValue (finalizeValueStep branch cnt c).1 c =
      some ((branchValue branch c).getD dv) ∧
    (∀ d, d ≠ c → branchValue (finalizeValueStep branch cnt c).1 d = branchValue branch d) ∧
    alookup (finalizeValueStep branch cnt c).1 Key.DEFAULT = some dflt ∧
    alookup (finalizeValueStep branch cnt c).1 Key.STANDIN = none := by
  by_cases hc : (alookup branch c).isNone
  · have hcnone : alookup branch c = none := Option.isNone_iff_eq_none.mp hc
    have hstep : finalizeValueStep branch cnt c = (aset branch c ⟨some dv, []⟩, cnt + 1) := by
      simp [finalizeValueStep, hc, hS, hD, hdv, aset_aset, alookup_aset, branchValue,
        alookup_aset_ne _ _ _ _ hcD]
    rw [hstep]
    refine ⟨rfl, ?_, ?_, ?_, ?_⟩
    · simp [branchValue, alookup_aset, hcnone]
    · intro d hd
      simp [branchValue, alookup_aset_ne _ _ _ _ (fun h => hd h.symm)]
    · rw [alookup_aset_ne _ _ _ _ hcD]
      exact hD
    · rw [alookup_aset_ne _ _ _ _ hcS]
      exact hS
  · rcases halt : alookup branch c with _ | e
    · rw [halt] at hc
      simp at hc
    by_cases hev : e.value = none
    · have hstep : finalizeValueStep branch cnt c =
          (aset branch c ⟨dflt.value, e.props⟩, cnt + 1) := by
        simp [finalizeValueStep, hc, hD, halt, hev, hdv, branchValue, alookup_aset]
      rw [hstep]
      refine ⟨rfl, ?_, ?_, ?_, ?_⟩
      · simp [branchValue, alookup_aset, hdv, halt, hev]
      · intro d hd
        simp [branchValue, alookup_aset_ne _ _ _ _ (fun h => hd h.symm)]
      · rw [alookup_aset_ne _ _ _ _ hcD]
        exact hD
      · rw [alookup_aset_ne _ _ _ _ hcS]
        exact hS
    · rcases hv : e.value with _ | v
      · exact absurd hv hev
      have hstep : finalizeValueStep branch cnt c = (branch, cnt + 1) := by
        simp [finalizeValueStep, hc, hD, halt, hev, branchValue, hv]
      rw [hstep]
      refine ⟨rfl, ?_, fun d _ => rfl, hD, hS⟩
      simp [branchValue, halt, hv]

/-- Without default and stand-in, the value pass counts exactly the choices
whose defined value the original branch provides. -/
theorem finalizeValueFold_count (all : List String) :
    ∀ (branch base : Branch) (cnt : Nat),
    Key.DEFAULT ∉ all → Key.STANDIN ∉ all →
    alookup branch Key.DEFAULT = none → alookup branch Key.STANDIN = none →
    (∀ c ∈ all, branchValue branch c = branchValue base c) →
    (finalizeValueFold all (branch, cnt)).2 =
      cnt + all.countP (fun c => (branchValue base c).isSome) := by
  induction all with
  | nil =>
    intro branch base cnt _ _ _ _ _
    simp [finalizeValueFold]
  | cons c rest ih =>
    intro branch base cnt hDc hSc hD hS hagree
    have hcD : c ≠ Key.DEFAULT := fun h => hDc (by rw [← h]; exact List.mem_cons_self c rest)
    have hcS : c ≠ Key.STANDIN := fun h => hSc (by rw [← h]; exact List.mem_cons_self c rest)
    have hDrest : Key.DEFAULT ∉ rest := fun h => hDc (List.mem_cons_of_mem c h)
    have hSrest : Key.STANDIN ∉ rest := fun h => hSc (List.mem_cons_of_mem c h)
    obtain ⟨hbr, hcnt⟩ := finalizeValueStep_no_default branch cnt c hD hS hcD
    rw [finalizeValueFold_cons,
      show finalizeValueStep branch cnt c =
        ((finalizeValueStep branch cnt c).1, (finalizeValueStep branch cnt c).2) from rfl,
      hbr, hcnt]
    have hbasec : branchValue branch c = branchValue base c :=
      hagree c (List.mem_cons_self c rest)
    by_cases hcc : (alookup branch c).isNone
    · have hcnone : alookup branch c = none := Option.isNone_iff_eq_none.mp hcc
      have hvnone : branchValue branch c = none := by simp [branchValue, hcnone]
      rw [if_pos hcc, if_neg (by simp [hvnone])]
      have hD' : alookup (aset branch c (⟨none, []⟩ : ChoiceEntry)) Key.DEFAULT = none := by
        rw [alookup_aset_ne _ _ _ _ hcD]; exact hD
      have hS' : alookup (aset branch c (⟨none, []⟩ : ChoiceEntry)) Key.STANDIN = none := by
        rw [alookup_aset_ne _ _ _ _ hcS]; exact hS
      have hagree' : ∀ d ∈ rest,
          branchValue (aset branch c (⟨none, []⟩ : ChoiceEntry)) d = branchValue base d := by
        intro d hd
        by_cases hdc : d = c
        · subst hdc
          rw [← hbasec, hvnone]
          simp [branchValue, alookup_aset]
        · rw [branchValue, alookup_aset_ne _ _ _ _ (fun h => hdc h.symm)]
          exact hagree d (List.mem_cons_of_mem c hd)
      rw [ih _ base cnt hDrest hSrest hD' hS' hagree']
      rw [List.countP_cons]
      have : (fun c => (branchValue base c).isSome) c = false := by
        show (branchValue base c).isSome = false
        rw [← hbasec, hvnone]
        rfl
      simp [this]
    · rw [if_neg hcc]
      have hagree' : ∀ d ∈ rest, branchValue branch d = branchValue base d :=
        fun d hd => hagree d (List.mem_cons_of_mem c hd)
      by_cases hv : (branchValue branch c).isSome
      · rw [if_pos hv, ih _ base (cnt + 1) hDrest hSrest hD hS hagree']
        rw [List.countP_cons]
        have : (fun c => (branchValue base c).isSome) c = true := by
          show (branchValue base c).isSome = true
          rw [← hbasec]
          exact hv
        simp [this]
        omega
      · rw [if_neg hv, ih _ base cnt hDrest hSrest hD hS hagree']
        rw [List.countP_cons]
        have : (fun c => (branchValue base c).isSome) c = false := by
          show (branchValue base c).isSome = false
          rw [← hbasec]
          simpa using hv
        simp [this]

/-- With an explicit default whose value is defined (and no stand-in), the
value pass resolves every choice's value — to its own when defined, else to
the default's — and counts every choice as defined. -/
theorem finalizeValueFold_default (all : List String) :
    ∀ (branch : Branch) (cnt : Nat) (dflt : ChoiceEntry) (dv : String),
    Key.DEFAULT ∉ all → Key.STANDIN ∉ all →
    alookup branch Key.DEFAULT = some dflt → dflt.value = some dv →
    alookup branch Key.STANDIN = none →
    (finalizeValueFold all (branch, cnt)).2 = cnt + all.length ∧
    alookup (finalizeValueFold all (branch, cnt)).1 Key.DEFAULT = some dflt ∧
    alookup (finalizeValueFold all (branch, cnt)).1 Key.STANDIN = none ∧
    (∀ c ∈ all, branchValue (finalizeValueFold all (branch, cnt)).1 c =
      some ((branchValue branch c).getD dv)) ∧
    (∀ c, c ∉ all →
      branchValue (finalizeValueFold all (branch, cnt)).1 c = branchValue branch c) := by
  induction all with
  | nil =>
    intro branch cnt dflt dv _ _ hD hdv hS
    exact ⟨rfl, hD, hS, by simp, fun c _ => rfl⟩
  | cons c rest ih =>
    intro branch cnt dflt dv hDc hSc hD hdv hS
    have hcD : c ≠ Key.DEFAULT := fun h => hDc (by rw [← h]; exact List.mem_cons_self c rest)
    have hcS : c ≠ Key.STANDIN := fun h => hSc (by rw [← h]; exact List.mem_cons_self c rest)
    have hDrest : Key.DEFAULT ∉ rest := fun h => hDc (List.mem_cons_of_mem c h)
    have hSrest : Key.STANDIN ∉ rest := fun h => hSc (List.mem_cons_of_mem c h)
    obtain ⟨s2, sv, sframe, sD, sS⟩ :=
      finalizeValueStep_with_default branch cnt c dflt dv hD hdv hS hcD hcS
    rw [finalizeValueFold_cons,
      show finalizeValueStep branch cnt c =
        ((finalizeValueStep branch cnt c).1, (finalizeValueStep branch cnt c).2) from rfl,
      s2]
    obtain ⟨i1, i2, i3, i4, i5⟩ :=
      ih (finalizeValueStep branch cnt c).1 (cnt + 1) dflt dv hDrest hSrest sD hdv sS
    refine ⟨by rw [i1]; simp; omega, i2, i3, ?_, ?_⟩
    · intro d hd
      by_cases hdc : d = c
      · subst hdc
        by_cases hdr : d ∈ rest
        · rw [i4 d hdr, sv]
          simp
        · rw [i5 d hdr, sv]
      · have hdr : d ∈ rest := by
          rcases List.mem_cons.mp hd with h | h
          · exact absurd h hdc
          · exact h
        rw [i4 d hdr, sframe d hdc]
    · intro d hd
      have hdc : d ≠ c := fun h => hd (by rw [h]; exact List.mem_cons_self c rest)
      have hdr : d ∉ rest := fun h => hd (List.mem_cons_of_mem c h)
      rw [i5 d hdr, sframe d hdc]

/-- The value pass never changes any property state, and with no default or
stand-in present it keeps both pseudo-choices absent. -/
theorem finalizeValueFold_frame_prop (all : List String) :
    ∀ (branch : Branch) (cnt : Nat),
    Key.DEFAULT ∉ all → Key.STANDIN ∉ all →
    alookup branch Key.DEFAULT = none → alookup branch Key.STANDIN = none →
    (∀ c p, branchProp (finalizeValueFold all (branch, cnt)).1 c p = branchProp branch c p) ∧
    alookup (finalizeValueFold all (branch, cnt)).1 Key.DEFAULT = none ∧
    alookup (finalizeValueFold all (branch, cnt)).1 Key.STANDIN = none := by
  induction all with
  | nil =>
    intro branch cnt _ _ hD hS
    exact ⟨fun c p => rfl, hD, hS⟩
  | cons c rest ih =>
    intro branch cnt hDc hSc hD hS
    have hcD : c ≠ Key.DEFAULT := fun h => hDc (by rw [← h]; exact List.mem_cons_self c rest)
    have hcS : c ≠ Key.STANDIN := fun h => hSc (by rw [← h]; exact List.mem_cons_self c rest)
    have hDrest : Key.DEFAULT ∉ rest := fun h => hDc (List.mem_cons_of_mem c h)
    have hSrest : Key.STANDIN ∉ rest := fun h => hSc (List.mem_cons_of_mem c h)
    obtain ⟨hbr, _⟩ := finalizeValueStep_no_default branch cnt c hD hS hcD
    rw [finalizeValueFold_cons,
      show finalizeValueStep branch cnt c =
        ((finalizeValueStep branch cnt c).1, (finalizeValueStep branch cnt c).2) from rfl,
      hbr]
    by_cases hcc : (alookup branch c).isNone
    · have hcnone : alookup branch c = none := Option.isNone_iff_eq_none.mp hcc
      rw [if_pos hcc]
      have hD' : alookup (aset branch c (⟨none, []⟩ : ChoiceEntry)) Key.DEFAULT = none := by
        rw [alookup_aset_ne _ _ _ _ hcD]; exact hD
      have hS' : alookup (aset branch c (⟨none, []⟩ : ChoiceEntry)) Key.STANDIN = none := by
        rw [alookup_aset_ne _ _ _ _ hcS]; exact hS
      obtain ⟨f1, f2, f3⟩ := ih (aset branch c ⟨none, []⟩) _ hDrest hSrest hD' hS'
      refine ⟨?_, f2, f3⟩
      intro d p
      rw [f1 d p]
      by_cases hdc : d = c
      · subst hdc
        simp [branchProp, alookup_aset, hcnone, alookup]
      · rw [branchProp, alookup_aset_ne _ _ _ _ (fun h => hdc h.symm)]
        rfl
    · rw [if_neg hcc]
      exact ih branch _ hDrest hSrest hD hS

/-- One step of the backfill loop with an undefined default: the observable
property state of every choice (for the property at hand and all others),
every value, and every other key are unchanged; the defined count grows
exactly on choices whose state is defined. -/
theorem propBackfillStep_none (p : String) (br : Branch) (n : Nat) (choice : String) :
    (∀ c q, branchProp (propBackfillStep p none (br, n) choice).1 c q = branchProp br c q) ∧
    (propBackfillStep p none (br, n) choice).2 =
      (if (branchProp br choice p).isSome then n + 1 else n) := by
  rcases halt : alookup br choice with _ | e
  · constructor
    · intro c q
      simp [propBackfillStep, halt]
    · simp [propBackfillStep, halt, branchProp]
  · by_cases hcond : (alookup e.props p).getD none = none
    · have hset : ∀ q, (alookup (aset e.props p none) q).getD none =
          (alookup e.props q).getD none := by
        intro q
        by_cases hq : q = p
        · subst hq
          rw [alookup_aset, hcond]
          rfl
        · rw [alookup_aset_ne _ _ _ _ (fun h => hq h.symm)]
      have hstep : propBackfillStep p none (br, n) choice =
          (aset br choice { e with props := aset e.props p none },
           if (branchProp (aset br choice { e with props := aset e.props p none })
              choice p).isSome then n + 1 else n) := by
        simp [propBackfillStep, halt, hcond]
      have hprops : ∀ c q,
          branchProp (aset br choice { e with props := aset e.props p none }) c q =
            branchProp br c q := by
        intro c q
        by_cases hdc : c = choice
        · subst hdc
          simp [branchProp, alookup_aset, halt, hset]
        · rw [branchProp, alookup_aset_ne _ _ _ _ (fun h => hdc h.symm)]
          rfl
      rw [hstep]
      exact ⟨hprops, by rw [hprops choice p]⟩
    · have hstep : propBackfillStep p none (br, n) choice =
          (br, if (branchProp br choice p).isSome then n + 1 else n) := by
        simp [propBackfillStep, halt, hcond]
      rw [hstep]
      exact ⟨fun c q => rfl, rfl⟩

/-- One backfill step for property `q` never changes values, the states of
other properties, or other keys. -/
theorem propBackfillStep_frame (q : String) (dpv : Option Bool) (br : Branch) (n : Nat)
    (choice : String) :
    (∀ c, branchValue (propBackfillStep q dpv (br, n) choice).1 c = branchValue br c) ∧
    (∀ c p, p ≠ q → branchProp (propBackfillStep q dpv (br, n) choice).1 c p =
      branchProp br c p) ∧
    (∀ k, k ≠ choice → alookup (propBackfillStep q dpv (br, n) choice).1 k = alookup br k) := by
  rcases halt : alookup br choice with _ | e
  · have hstep : (propBackfillStep q dpv (br, n) choice).1 = br := by
      simp [propBackfillStep, halt]
    rw [hstep]
    exact ⟨fun c => rfl, fun c p _ => rfl, fun k _ => rfl⟩
  · by_cases hcond : (alookup e.props q).getD none = none
    · have hstep : (propBackfillStep q dpv (br, n) choice).1 =
          aset br choice { e with props := aset e.props q dpv } := by
        simp [propBackfillStep, halt, hcond]
      rw [hstep]
      refine ⟨?_, ?_, ?_⟩
      · intro c
        by_cases hdc : c = choice
        · subst hdc
          simp [branchValue, alookup_aset, halt]
        · rw [branchValue, alookup_aset_ne _ _ _ _ (fun h => hdc h.symm)]
          rfl
      · intro c p hp
        by_cases hdc : c = choice
        · subst hdc
          simp [branchProp, alookup_aset, halt,
            alookup_aset_ne _ _ _ _ (fun h : q = p => hp h.symm)]
        · rw [branchProp, alookup_aset_ne _ _ _ _ (fun h => hdc h.symm)]
          rfl
      · intro k hk
        exact alookup_aset_ne _ _ _ _ (fun h => hk h.symm)
    · have hstep : (propBackfillStep q dpv (br, n) choice).1 = br := by
        simp [propBackfillStep, halt, hcond]
      rw [hstep]
      exact ⟨fun c => rfl, fun c p _ => rfl, fun k _ => rfl⟩

/-- Frame property of the whole backfill loop for property `q`. -/
theorem propBackfillFold_frame (q : String) (dpv : Option Bool) :
    ∀ (all : List String) (br : Branch) (n : Nat),
    (∀ c, branchValue (all.foldl (propBackfillStep q dpv) (br, n)).1 c = branchValue br c) ∧
    (∀ c p, p ≠ q → branchProp (all.foldl (propBackfillStep q dpv) (br, n)).1 c p =
      branchProp br c p) ∧
    (∀ k, k ∉ all → alookup (all.foldl (propBackfillStep q dpv) (br, n)).1 k = alookup br k) := by
  intro all
  induction all with
  | nil => exact fun br n => ⟨fun c => rfl, fun c p _ => rfl, fun k _ => rfl⟩
  | cons choice rest ih =>
    intro br n
    obtain ⟨s1, s2, s3⟩ := propBackfillStep_frame q dpv br n choice
    rw [List.foldl_cons,
      show propBackfillStep q dpv (br, n) choice =
        ((propBackfillStep q dpv (br, n) choice).1,
         (propBackfillStep q dpv (br, n) choice).2) from rfl]
    obtain ⟨i1, i2, i3⟩ := ih (propBackfillStep q dpv (br, n) choice).1
      (propBackfillStep q dpv (br, n) choice).2
    refine ⟨?_, ?_, ?_⟩
    · intro c
      rw [i1 c, s1 c]
    · intro c p hp
      rw [i2 c p hp, s2 c p hp]
    · intro k hk
      have hk1 : k ≠ choice := fun h => hk (by rw [h]; exact List.mem_cons_self choice rest)
      have hk2 : k ∉ rest := fun h => hk (List.mem_cons_of_mem choice h)
      rw [i3 k hk2, s3 k hk1]

/-- The backfill loop with an undefined default counts exactly the choices
whose state is already defined, and changes no observable property state. -/
theorem propBackfillFold_count_none (p : String) :
    ∀ (all : List String) (br : Branch) (n : Nat),
    (all.foldl (propBackfillStep p none) (br, n)).2 =
      n + all.countP (fun c => (branchProp br c p).isSome) ∧
    (∀ c q, branchProp (all.foldl (propBackfillStep p none) (br, n)).1 c q =
      branchProp br c q) := by
  intro all
  induction all with
  | nil => exact fun br n => ⟨by simp, fun c q => rfl⟩
  | cons choice rest ih =>
    intro br n
    obtain ⟨s1, s2⟩ := propBackfillStep_none p br n choice
    rw [List.foldl_cons,
      show propBackfillStep p none (br, n) choice =
        ((propBackfillStep p none (br, n) choice).1,
         (propBackfillStep p none (br, n) choice).2) from rfl]
    obtain ⟨i1, i2⟩ := ih (propBackfillStep p none (br, n) choice).1
      (propBackfillStep p none (br, n) choice).2
    constructor
    · have hcong : List.countP
          (fun c => (branchProp (propBackfillStep p none (br, n) choice).1 c p).isSome) rest =
          List.countP (fun c => (branchProp br c p).isSome) rest :=
        List.countP_congr (fun c _ => by rw [s1 c p])
      rw [i1, s2, hcong, List.countP_cons]
      by_cases hv : (branchProp br choice p).isSome
      · rw [if_pos hv, if_pos (show (fun c => (branchProp br c p).isSome) choice = true from hv)]
        omega
      · rw [if_neg hv,
          if_neg (show ¬(fun c => (branchProp br c p).isSome) choice = true from hv)]
        omega
    · intro c q
      rw [i2 c q, s1 c q]

/-- A pass for property `q` changes no value, no other property's state, and
no key outside the aspect's choices; it emits either no error or a single
mixed-property error for `q`. -/
theorem finalizePropStep_frame (q : String) (all : List String) (br : Branch) :
    (∀ c, branchValue (finalizePropStep br all q).1 c = branchValue br c) ∧
    (∀ c p, p ≠ q → branchProp (finalizePropStep br all q).1 c p = branchProp br c p) ∧
    (∀ k, k ∉ all → alookup (finalizePropStep br all q).1 k = alookup br k) ∧
    ((finalizePropStep br all q).2 = [] ∨
      ∃ d u, (finalizePropStep br all q).2 = [FinErr.mixedProp q d u]) := by
  obtain ⟨f1, f2, f3⟩ := propBackfillFold_frame q (propDefaultValue br all q) all br 0
  have h1 : (finalizePropStep br all q).1 =
      (all.foldl (propBackfillStep q (propDefaultValue br all q)) (br, 0)).1 := rfl
  have h2 : (finalizePropStep br all q).2 =
      (if ¬((all.foldl (propBackfillStep q (propDefaultValue br all q)) (br, 0)).2 = 0 ∨
            (all.foldl (propBackfillStep q (propDefaultValue br all q)) (br, 0)).2 = all.length)
        then [FinErr.mixedProp q
          ((all.foldl (propBackfillStep q (propDefaultValue br all q)) (br, 0)).2)
          (all.length -
            (all.foldl (propBackfillStep q (propDefaultValue br all q)) (br, 0)).2)]
        else []) := rfl
  refine ⟨?_, ?_, ?_, ?_⟩
  · intro c
    rw [h1, f1 c]
  · intro c p hp
    rw [h1, f2 c p hp]
  · intro k hk
    rw [h1, f3 k hk]
  · rw [h2]
    by_cases hcond : ((all.foldl (propBackfillStep q (propDefaultValue br all q)) (br, 0)).2 = 0 ∨
        (all.foldl (propBackfillStep q (propDefaultValue br all q)) (br, 0)).2 = all.length)
    · left
      rw [if_neg (not_not_intro hcond)]
    · right
      exact ⟨_, _, by rw [if_pos hcond]⟩

/-- A property with both polarities in use and at least one undefined choice,
with no explicit default, produces exactly one mixed-property error in its
pass. -/
theorem finalizePropStep_mixed (p : String) (all : List String) (br : Branch)
    (hD : alookup br Key.DEFAULT = none)
    (c1 : ∃ c ∈ all, branchProp br c p = some true)
    (c2 : ∃ c ∈ all, branchProp br c p = some false)
    (c3 : ∃ c ∈ all, branchProp br c p = none) :
    ∃ d u, (finalizePropStep br all p).2 = [FinErr.mixedProp p d u] := by
  obtain ⟨a, ha, hat⟩ := c1
  obtain ⟨b, hb, hbf⟩ := c2
  obtain ⟨c0, hc0, hc0n⟩ := c3
  have hdpv : propDefaultValue br all p = none := by
    have ht : (all.filter (fun c => branchProp br c p = some true)).length ≠ 0 := by
      intro h
      rw [List.length_eq_zero] at h
      have hmem : a ∈ all.filter (fun c => branchProp br c p = some true) :=
        List.mem_filter.mpr ⟨ha, by
          show decide (branchProp br a p = some true) = true
          rw [hat]
          rfl⟩
      rw [h] at hmem
      exact absurd hmem (List.not_mem_nil a)
    have hf : (all.filter (fun c => branchProp br c p = some false)).length ≠ 0 := by
      intro h
      rw [List.length_eq_zero] at h
      have hmem : b ∈ all.filter (fun c => branchProp br c p = some false) :=
        List.mem_filter.mpr ⟨hb, by
          show decide (branchProp br b p = some false) = true
          rw [hbf]
          rfl⟩
      rw [h] at hmem
      exact absurd hmem (List.not_mem_nil b)
    simp [propDefaultValue, hD, ht, hf]
  obtain ⟨hcnt, _⟩ := propBackfillFold_count_none p all br 0
  have hpos : 0 < all.countP (fun c => (branchProp br c p).isSome) :=
    List.countP_pos_iff.mpr ⟨a, ha, by
      show (branchProp br a p).isSome = true
      rw [hat]
      rfl⟩
  have hlt : all.countP (fun c => (branchProp br c p).isSome) < all.length := by
    rcases Nat.lt_or_ge (all.countP (fun c => (branchProp br c p).isSome)) all.length with h | h
    · exact h
    · exfalso
      have heq : all.countP (fun c => (branchProp br c p).isSome) = all.length :=
        Nat.le_antisymm (List.countP_le_length _) h
      have h0 := List.countP_eq_length.mp heq c0 hc0
      have h1 : (branchProp br c0 p).isSome = true := h0
      rw [hc0n] at h1
      exact absurd h1 (by simp)
  have h2 : (finalizePropStep br all p).2 =
      (if ¬((all.foldl (propBackfillStep p (propDefaultValue br all p)) (br, 0)).2 = 0 ∨
            (all.foldl (propBackfillStep p (propDefaultValue br all p)) (br, 0)).2 = all.length)
        then [FinErr.mixedProp p
          ((all.foldl (propBackfillStep p (propDefaultValue br all p)) (br, 0)).2)
          (all.length -
            (all.foldl (propBackfillStep p (propDefaultValue br all p)) (br, 0)).2)]
        else []) := rfl
  rw [hdpv] at h2
  rw [hcnt] at h2
  refine ⟨0 + all.countP (fun c => (branchProp br c p).isSome),
    all.length - (0 + all.countP (fun c => (branchProp br c p).isSome)), ?_⟩
  rw [h2, if_pos (by omega)]

theorem propPassFold_cons (all : List String) (q : String) (rest : List String)
    (acc : Branch × List FinErr) :
    propPassFold all acc (q :: rest) =
      propPassFold all ((finalizePropStep acc.1 all q).1,
        acc.2 ++ (finalizePropStep acc.1 all q).2) rest := rfl

/-- The error accumulator of the property pass is a prefix: errors only ever
get appended. -/
theorem propPassFold_acc (all : List String) :
    ∀ (codes : List String) (br : Branch) (errs : List FinErr),
    propPassFold all (br, errs) codes =
      ((propPassFold all (br, []) codes).1, errs ++ (propPassFold all (br, []) codes).2) := by
  intro codes
  induction codes with
  | nil =>
    intro br errs
    simp [propPassFold]
  | cons q rest ih =>
    intro br errs
    rw [propPassFold_cons, propPassFold_cons]
    show propPassFold all ((finalizePropStep br all q).1,
        errs ++ (finalizePropStep br all q).2) rest = _
    rw [ih (finalizePropStep br all q).1 (errs ++ (finalizePropStep br all q).2),
      ih (finalizePropStep br all q).1 ([] ++ (finalizePropStep br all q).2)]
    simp

/-- The property pass never changes any choice's value. -/
theorem propPassFold_value_frame (all : List String) :
    ∀ (codes : List String) (br : Branch) (c : String),
    branchValue (propPassFold all (br, []) codes).1 c = branchValue br c := by
  intro codes
  induction codes with
  | nil => exact fun br c => rfl
  | cons q rest ih =>
    intro br c
    obtain ⟨f1, _, _, _⟩ := finalizePropStep_frame q all br
    rw [propPassFold_cons]
    show branchValue (propPassFold all ((finalizePropStep br all q).1,
        [] ++ (finalizePropStep br all q).2) rest).1 c = _
    rw [propPassFold_acc all rest (finalizePropStep br all q).1
      ([] ++ (finalizePropStep br all q).2)]
    show branchValue (propPassFold all ((finalizePropStep br all q).1, []) rest).1 c = _
    rw [ih (finalizePropStep br all q).1 c, f1 c]

/-- Passes for other properties leave a property's states and the pseudo-keys
untouched. -/
theorem propPassFold_frame (all : List String) (p : String) :
    ∀ (codes : List String) (br : Branch), p ∉ codes →
    (∀ c, branchProp (propPassFold all (br, []) codes).1 c p = branchProp br c p) ∧
    (∀ k, k ∉ all → alookup (propPassFold all (br, []) codes).1 k = alookup br k) := by
  intro codes
  induction codes with
  | nil => exact fun br _ => ⟨fun c => rfl, fun k _ => rfl⟩
  | cons q rest ih =>
    intro br hp
    have hqp : p ≠ q := fun h => hp (by rw [h]; exact List.mem_cons_self q rest)
    have hprest : p ∉ rest := fun h => hp (List.mem_cons_of_mem q h)
    obtain ⟨_, f2, f3, _⟩ := finalizePropStep_frame q all br
    obtain ⟨i1, i2⟩ := ih (finalizePropStep br all q).1 hprest
    constructor
    · intro c
      rw [propPassFold_cons]
      show branchProp (propPassFold all ((finalizePropStep br all q).1,
          [] ++ (finalizePropStep br all q).2) rest).1 c p = _
      rw [propPassFold_acc all rest (finalizePropStep br all q).1
        ([] ++ (finalizePropStep br all q).2)]
      show branchProp (propPassFold all ((finalizePropStep br all q).1, []) rest).1 c p = _
      rw [i1 c, f2 c p hqp]
    · intro k hk
      rw [propPassFold_cons]
      show alookup (propPassFold all ((finalizePropStep br all q).1,
          [] ++ (finalizePropStep br all q).2) rest).1 k = _
      rw [propPassFold_acc all rest (finalizePropStep br all q).1
        ([] ++ (finalizePropStep br all q).2)]
      show alookup (propPassFold all ((finalizePropStep br all q).1, []) rest).1 k = _
      rw [i2 k hk, f3 k hk]

/-- Every error the property pass produces is a mixed-property error. -/
theorem propPassFold_errs_shape (all : List String) :
    ∀ (codes : List String) (br : Branch) (e : FinErr),
    e ∈ (propPassFold all (br, []) codes).2 → ∃ q d u, e = FinErr.mixedProp q d u := by
  intro codes
  induction codes with
  | nil =>
    intro br e he
    exact absurd he (List.not_mem_nil e)
  | cons q rest ih =>
    intro br e he
    rw [propPassFold_cons] at he
    rw [show ((finalizePropStep (br, ([] : List FinErr)).1 all q).1,
        (br, ([] : List FinErr)).2 ++ (finalizePropStep (br, ([] : List FinErr)).1 all q).2) =
        ((finalizePropStep br all q).1, [] ++ (finalizePropStep br all q).2) from rfl,
      propPassFold_acc all rest (finalizePropStep br all q).1
        ([] ++ (finalizePropStep br all q).2)] at he
    rw [show (((propPassFold all ((finalizePropStep br all q).1, []) rest).1,
        ([] ++ (finalizePropStep br all q).2) ++
          (propPassFold all ((finalizePropStep br all q).1, []) rest).2)).2 =
        ([] ++ (finalizePropStep br all q).2) ++
          (propPassFold all ((finalizePropStep br all q).1, []) rest).2 from rfl,
      List.nil_append] at he
    rcases List.mem_append.mp he with h | h
    · obtain ⟨_, _, _, herr⟩ := finalizePropStep_frame q all br
      rcases herr with h0 | ⟨d, u, h0⟩
      · rw [h0] at h
        exact absurd h (List.not_mem_nil e)
      · rw [h0] at h
        rw [List.mem_singleton.mp h]
        exact ⟨q, d, u, rfl⟩
    · exact ih (finalizePropStep br all q).1 e h

theorem propPassFold_append (all : List String) (acc : Branch × List FinErr)
    (xs ys : List String) :
    propPassFold all acc (xs ++ ys) = propPassFold all (propPassFold all acc xs) ys :=
  List.foldl_append _ _ _ _

/-- C2: during model finalization, checked independently for the value and
for each property of a choice set: if some choices define the value (or a
property) and others leave it undefined, and no explicit or implicit default
resolves it, a mixed-definition validation error is produced; an explicit
"default" pseudo-choice with a defined value backfills every choice whose
value is undefined, so all choices resolve and no mixed-value error is
produced. -/
theorem finalize_vardict_branch_spec
    (branch : Branch) (all : List String) (fp_props : Option (List String))
    (hDc : Key.DEFAULT ∉ all) (hSc : Key.STANDIN ∉ all) :
    (alookup branch Key.DEFAULT = none → alookup branch Key.STANDIN = none →
      (∃ c ∈ all, (branchValue branch c).isSome) →
      (∃ c ∈ all, branchValue branch c = none) →
      ∃ d u, FinErr.mixedValue d u ∈ (finalize_vardict_branch branch all fp_props).1) ∧
    (∀ dflt dv, alookup branch Key.DEFAULT = some dflt → dflt.value = some dv →
      alookup branch Key.STANDIN = none →
      (∀ d u, FinErr.mixedValue d u ∉ (finalize_vardict_branch branch all fp_props).1) ∧
      (∀ c ∈ all, branchValue (finalize_vardict_branch branch all fp_props).2 c =
        some ((branchValue branch c).getD dv))) ∧
    (∀ codes l1 p l2, fp_props = some codes → codes = l1 ++ p :: l2 → p ∉ l1 →
      alookup branch Key.DEFAULT = none → alookup branch Key.STANDIN = none →
      (∃ c ∈ all, branchProp branch c p = some true) →
      (∃ c ∈ all, branchProp branch c p = some false) →
      (∃ c ∈ all, branchProp branch c p = none) →
      ∃ d u, FinErr.mixedProp p d u ∈ (finalize_vardict_branch branch all fp_props).1) := by
  have hfin1 : (finalize_vardict_branch branch all fp_props).1 =
      (if ¬((finalizeValueFold all (branch, 0)).2 = 0 ∨
            (finalizeValueFold all (branch, 0)).2 = all.length)
        then [FinErr.mixedValue (finalizeValueFold all (branch, 0)).2
          (all.length - (finalizeValueFold all (branch, 0)).2)]
        else []) ++
      (match fp_props with
        | some codes => propPassFold all ((finalizeValueFold all (branch, 0)).1, []) codes
        | none => ((finalizeValueFold all (branch, 0)).1, [])).2 := rfl
  have hfin2 : (finalize_vardict_branch branch all fp_props).2 =
      adrop (adrop (match fp_props with
        | some codes => propPassFold all ((finalizeValueFold all (branch, 0)).1, []) codes
        | none => ((finalizeValueFold all (branch, 0)).1, [])).1 Key.DEFAULT)
        Key.STANDIN := rfl
  refine ⟨?_, ?_, ?_⟩
  · -- (a) mixed values with no default
    intro hD hS hdef hundef
    have hcnt : (finalizeValueFold all (branch, 0)).2 =
        all.countP (fun c => (branchValue branch c).isSome) := by
      rw [finalizeValueFold_count all branch branch 0 hDc hSc hD hS (fun c _ => rfl)]
      omega
    have hpos : 0 < all.countP (fun c => (branchValue branch c).isSome) := by
      obtain ⟨c, hc, hcs⟩ := hdef
      exact List.countP_pos_iff.mpr ⟨c, hc, hcs⟩
    have hlt : all.countP (fun c => (branchValue branch c).isSome) < all.length := by
      rcases Nat.lt_or_ge (all.countP (fun c => (branchValue branch c).isSome))
        all.length with h | h
      · exact h
      · exfalso
        obtain ⟨c0, hc0, hc0n⟩ := hundef
        have heq : all.countP (fun c => (branchValue branch c).isSome) = all.length :=
          Nat.le_antisymm (List.countP_le_length _) h
        have h0 := List.countP_eq_length.mp heq c0 hc0
        have h1 : (branchValue branch c0).isSome = true := h0
        rw [hc0n] at h1
        exact absurd h1 (by simp)
    refine ⟨all.countP (fun c => (branchValue branch c).isSome),
      all.length - all.countP (fun c => (branchValue branch c).isSome), ?_⟩
    rw [hfin1, hcnt, if_pos (by omega)]
    exact List.mem_append_left _ (List.mem_singleton_self _)
  · -- (b) explicit default with a defined value
    intro dflt dv hD hdv hS
    obtain ⟨i1, i2, i3, i4, i5⟩ :=
      finalizeValueFold_default all branch 0 dflt dv hDc hSc hD hdv hS
    have hcnt : (finalizeValueFold all (branch, 0)).2 = all.length := by
      rw [i1]
      omega
    constructor
    · intro d u hmem
      rw [hfin1, hcnt, if_neg (not_not_intro (Or.inr rfl))] at hmem
      rw [List.nil_append] at hmem
      rcases fp_props with _ | codes
      · exact absurd hmem (List.not_mem_nil _)
      · obtain ⟨q, d', u', habs⟩ :=
          propPassFold_errs_shape all codes (finalizeValueFold all (branch, 0)).1
            (FinErr.mixedValue d u) hmem
        exact FinErr.noConfusion habs
    · intro c hc
      have hcD : c ≠ Key.DEFAULT := fun h => hDc (h ▸ hc)
      have hcS : c ≠ Key.STANDIN := fun h => hSc (h ▸ hc)
      rw [hfin2]
      rw [show ∀ m : Branch, branchValue (adrop (adrop m Key.DEFAULT) Key.STANDIN) c =
          (alookup (adrop (adrop m Key.DEFAULT) Key.STANDIN) c).bind ChoiceEntry.value
          from fun m => rfl]
      rw [alookup_adrop_ne _ _ _ hcS, alookup_adrop_ne _ _ _ hcD]
      rcases fp_props with _ | codes
      · exact i4 c hc
      · have hval := propPassFold_value_frame all codes (finalizeValueFold all (branch, 0)).1 c
        rw [show ((alookup (propPassFold all ((finalizeValueFold all (branch, 0)).1, [])
            codes).1 c).bind ChoiceEntry.value) =
            branchValue (propPassFold all ((finalizeValueFold all (branch, 0)).1, [])
              codes).1 c from rfl]
        rw [hval]
        exact i4 c hc
  · -- (c) mixed property states with no default
    intro codes' l1 p l2 hfp hsplit hpl1 hD hS hc1 hc2 hc3
    rcases fp_props with _ | codes
    · exact Option.noConfusion hfp
    injection hfp with h
    subst h
    subst hsplit
    obtain ⟨vf, vD, vS⟩ := finalizeValueFold_frame_prop all branch 0 hDc hSc hD hS
    obtain ⟨pf, pk⟩ := propPassFold_frame all p l1 (finalizeValueFold all (branch, 0)).1 hpl1
    have hDX : alookup (propPassFold all ((finalizeValueFold all (branch, 0)).1, []) l1).1
        Key.DEFAULT = none := by
      rw [pk Key.DEFAULT hDc]
      exact vD
    have tr : ∀ c, branchProp
        (propPassFold all ((finalizeValueFold all (branch, 0)).1, []) l1).1 c p =
        branchProp branch c p := by
      intro c
      rw [pf c, vf c p]
    have hc1' : ∃ c ∈ all, branchProp
        (propPassFold all ((finalizeValueFold all (branch, 0)).1, []) l1).1 c p =
        some true := by
      obtain ⟨x, hx, hxe⟩ := hc1
      exact ⟨x, hx, by rw [tr x]; exact hxe⟩
    have hc2' : ∃ c ∈ all, branchProp
        (propPassFold all ((finalizeValueFold all (branch, 0)).1, []) l1).1 c p =
        some false := by
      obtain ⟨x, hx, hxe⟩ := hc2
      exact ⟨x, hx, by rw [tr x]; exact hxe⟩
    have hc3' : ∃ c ∈ all, branchProp
        (propPassFold all ((finalizeValueFold all (branch, 0)).1, []) l1).1 c p = none := by
      obtain ⟨x, hx, hxe⟩ := hc3
      exact ⟨x, hx, by rw [tr x]; exact hxe⟩
    obtain ⟨d, u, herr⟩ := finalizePropStep_mixed p all
      (propPassFold all ((finalizeValueFold all (branch, 0)).1, []) l1).1 hDX hc1' hc2' hc3'
    refine ⟨d, u, ?_⟩
    rw [hfin1]
    apply List.mem_append_right
    show FinErr.mixedProp p d u ∈
      (propPassFold all ((finalizeValueFold all (branch, 0)).1, []) (l1 ++ p :: l2)).2
    rw [propPassFold_append, propPassFold_cons,
      propPassFold_acc all l2
        (finalizePropStep
          (propPassFold all ((finalizeValueFold all (branch, 0)).1, []) l1).1 all p).1
        ((propPassFold all ((finalizeValueFold all (branch, 0)).1, []) l1).2 ++
          (finalizePropStep
            (propPassFold all ((finalizeValueFold all (branch, 0)).1, []) l1).1 all p).2)]
    show FinErr.mixedProp p d u ∈
      ((propPassFold all ((finalizeValueFold all (branch, 0)).1, []) l1).2 ++
        (finalizePropStep
          (propPassFold all ((finalizeValueFold all (branch, 0)).1, []) l1).1 all p).2) ++
      (propPassFold all
        ((finalizePropStep
          (propPassFold all ((finalizeValueFold all (branch, 0)).1, []) l1).1 all p).1,
          []) l2).2
    apply List.mem_append_left
    apply List.mem_append_right
    rw [herr]
    exact List.mem_singleton_self _

/-- Witness for C2 at concrete branches: a three-choice aspect with a mixed
value definition and a mixed `F` property (no default), and the same aspect
with an explicit default that backfills every undefined value. -/
theorem finalize_vardict_branch_spec_witness :
    (∃ d u, FinErr.mixedValue d u ∈
      (finalize_vardict_branch
        [("a", ⟨some "1", [("F", some true)]⟩), ("b", ⟨none, [("F", some false)]⟩)]
        ["a", "b", "c"] (some ["G", "F"])).1) ∧
    (∀ d u, FinErr.mixedValue d u ∉
      (finalize_vardict_branch
        [("a", ⟨some "1", []⟩), ("*", ⟨some "D", []⟩)]
        ["a", "b", "c"] (some ["F"])).1) ∧
    (∀ c ∈ ["a", "b", "c"], branchValue
      (finalize_vardict_branch
        [("a", ⟨some "1", []⟩), ("*", ⟨some "D", []⟩)]
        ["a", "b", "c"] (some ["F"])).2 c =
      some ((branchValue [("a", ⟨some "1", []⟩), ("*", ⟨some "D", []⟩)] c).getD "D")) ∧
    (∃ d u, FinErr.mixedProp "F" d u ∈
      (finalize_vardict_branch
        [("a", ⟨some "1", [("F", some true)]⟩), ("b", ⟨none, [("F", some false)]⟩)]
        ["a", "b", "c"] (some ["G", "F"])).1) := by
  refine ⟨?_, ?_, ?_, ?_⟩
  · exact (finalize_vardict_branch_spec _ _ _ (by decide) (by decide)).1 (by decide) (by decide)
      ⟨"a", by decide, by decide⟩ ⟨"b", by decide, by decide⟩
  · exact ((finalize_vardict_branch_spec _ _ _ (by decide) (by decide)).2.1
      ⟨some "D", []⟩ "D" (by decide) rfl (by decide)).1
  · exact ((finalize_vardict_branch_spec _ _ _ (by decide) (by decide)).2.1
      ⟨some "D", []⟩ "D" (by decide) rfl (by decide)).2
  · exact (finalize_vardict_branch_spec _ _ _ (by decide) (by decide)).2.2
      ["G", "F"] ["G"] "F" [] rfl rfl (by decide) (by decide) (by decide)
      ⟨"a", by decide, by decide⟩ ⟨"b", by decide, by decide⟩ ⟨"c", by decide, by decide⟩

/-! ## Variant lookup table: `VariantInfo.read_csv` validation (C5)

File access and content hashing are external collaborators; the embedding
starts from the already-parsed CSV grid and models the validation and state
update of `read_csv`. -/

abbrev ChoiceDict := List (String × List String)

/-- The persistent state of `VariantInfo` (the file path and load-time hash
belong to the external persistence collaborator). -/
structure VariantInfo where
  aspects : List String
  variants : List String
  choices : List (String × List String)
  isLoaded : Bool
deriving DecidableEq

/-- The errors `read_csv` collects. -/
inductive TableErr
  | tooFewRows
  | rowTooNarrow (row : Nat)
  | rowWidthMismatch (row thisWidth prevWidth : Nat)
  | emptyVariantIdents (count : Nat)
  | dupVariantIdents (dups : List String)
  | emptyAspectIdents (count : Nat)
  | dupAspectIdents (dups : List String)
  | invalidAspect (aspect : String)
  | invalidChoice (aspect choice : String)
  | dupChoiceAssignments
deriving DecidableEq

/-- `count_duplicates`: the items already seen once when encountered again,
in encounter order. -/
def countDuplicatesAux (seen dups : List String) : List String → List String
  | [] => dups.reverse
  | item :: rest =>
    if item ∈ seen then countDuplicatesAux seen (item :: dups) rest
    else countDuplicatesAux (item :: seen) dups rest

def count_duplicates (l : List String) : List String := countDuplicatesAux [] [] l

/-- `count_empty`. -/
def count_empty (l : List String) : Nat := l.countP (fun s => s = "")

/-- The row-width loop of `read_csv` (breaks at the first bad row). -/
def rowWidthCheck : Nat → Option Nat → List (List String) → List TableErr
  | _, _, [] => []
  | n, lenPrev, row :: rest =>
    if row.length < 2 then [.rowTooNarrow (n + 1)]
    else
      match lenPrev with
      | none => rowWidthCheck (n + 1) (some row.length) rest
      | some lp =>
        if row.length ≠ lp then [.rowWidthMismatch (n + 1) row.length lp]
        else rowWidthCheck (n + 1) (some lp) rest

/-- The duplicate-assignment scan of `read_csv` (breaks at the first
duplicate vector). -/
def hasDupAssignment (seen : List (List String)) : List (List String) → Bool
  | [] => false
  | cl :: rest => if cl ∈ seen then true else hasDupAssignment (cl :: seen) rest

/-- Stage 5 of `read_csv`: reject identical choice vectors, else load. -/
def readStage5 (vi : VariantInfo) (aspects variants : List String)
    (choices : List (String × List String)) : List TableErr × VariantInfo :=
  let errs5 :=
    if hasDupAssignment [] (choices.map Prod.snd) then [TableErr.dupChoiceAssignments] else []
  if errs5 ≠ [] then (errs5, vi)
  else ([], { aspects := aspects, variants := variants, choices := choices, isLoaded := true })

/-- Stage 4 of `read_csv`: validate every cell against its column's choice
set. -/
def readStage4 (vi : VariantInfo) (choice_dict : ChoiceDict) (aspects variants : List String)
    (choices : List (String × List String)) : List TableErr × VariantInfo :=
  let errs4 := variants.flatMap (fun variant =>
    aspects.enum.filterMap (fun ia =>
      let choice := ((alookup choices variant).getD []).getD ia.1 ""
      if choice ∈ (alookup choice_dict ia.2).getD [] then none
      else some (TableErr.invalidChoice ia.2 choice)))
  if errs4 ≠ [] then (errs4, vi) else readStage5 vi aspects variants choices

/-- Stage 3 of `read_csv`: validate the aspect references. -/
def readStage3 (vi : VariantInfo) (choice_dict : ChoiceDict) (aspects variants : List String)
    (choices : List (String × List String)) : List TableErr × VariantInfo :=
  let errs3 :=
    (if count_empty aspects ≠ 0 then [TableErr.emptyAspectIdents (count_empty aspects)]
     else []) ++
    (if count_duplicates aspects ≠ [] then [TableErr.dupAspectIdents (count_duplicates aspects)]
     else []) ++
    (aspects.filter (fun a => (alookup choice_dict a).isNone)).map TableErr.invalidAspect
  if errs3 ≠ [] then (errs3, vi) else readStage4 vi choice_dict aspects variants choices

/-- Stage 2 of `read_csv`: load the grid data and validate the variant
identifiers. -/
def readStage2 (vi : VariantInfo) (choice_dict : ChoiceDict) (table : List (List String)) :
    List TableErr × VariantInfo :=
  let variants := (table.drop 1).map (fun row => row.headD "")
  let aspects := (table.headD []).drop 1
  let choices := (table.drop 1).map (fun row => (row.headD "", row.drop 1))
  let errs2 :=
    (if count_empty variants ≠ 0 then [TableErr.emptyVariantIdents (count_empty variants)]
     else []) ++
    (if count_duplicates variants ≠ [] then [TableErr.dupVariantIdents (count_duplicates variants)]
     else [])
  if errs2 ≠ [] then (errs2, vi) else readStage3 vi choice_dict aspects variants choices

/-- `VariantInfo.read_csv` from the parsed grid: staged validation with an
early return of each failing stage's errors, loading the data only when all
stages pass. -/
def read_csv_table (vi : VariantInfo) (table : List (List String))
    (choice_dict : ChoiceDict) : List TableErr × VariantInfo :=
  let errs1 :=
    if table.length < 2 then [TableErr.tooFewRows]
    else rowWidthCheck 0 none table
  if errs1 ≠ [] then (errs1, vi) else readStage2 vi choice_dict table

/-! ### C5: the validation stages -/

theorem countDuplicatesAux_nil (l : List String) :
    ∀ (seen dups : List String), countDuplicatesAux seen dups l = [] →
    dups = [] ∧ l.Nodup ∧ ∀ x ∈ l, x ∉ seen := by
  induction l with
  | nil =>
    intro seen dups h
    rw [countDuplicatesAux] at h
    rw [List.reverse_eq_nil_iff] at h
    exact ⟨h, List.nodup_nil, by simp⟩
  | cons x rest ih =>
    intro seen dups h
    by_cases hx : x ∈ seen
    · rw [countDuplicatesAux, if_pos hx] at h
      obtain ⟨hd, _, _⟩ := ih seen (x :: dups) h
      exact absurd hd (List.cons_ne_nil x dups)
    · rw [countDuplicatesAux, if_neg hx] at h
      obtain ⟨hd, hnd, hnotin⟩ := ih (x :: seen) dups h
      refine ⟨hd, List.nodup_cons.mpr ⟨?_, hnd⟩, ?_⟩
      · intro hxr
        exact hnotin x hxr (List.mem_cons_self x seen)
      · intro y hy
        rcases List.mem_cons.mp hy with rfl | hyr
        · exact hx
        · intro hys
          exact hnotin y hyr (List.mem_cons_of_mem x hys)

theorem count_duplicates_nil (l : List String) (h : count_duplicates l = []) : l.Nodup :=
  (countDuplicatesAux_nil l [] [] h).2.1

theorem hasDupAssignment_false (l : List (List String)) :
    ∀ seen, hasDupAssignment seen l = false → l.Nodup ∧ ∀ x ∈ l, x ∉ seen := by
  induction l with
  | nil =>
    intro seen _
    exact ⟨List.nodup_nil, by simp⟩
  | cons x rest ih =>
    intro seen h
    by_cases hx : x ∈ seen
    · rw [hasDupAssignment, if_pos hx] at h
      exact absurd h (by simp)
    · rw [hasDupAssignment, if_neg hx] at h
      obtain ⟨hnd, hnotin⟩ := ih (x :: seen) h
      refine ⟨List.nodup_cons.mpr ⟨?_, hnd⟩, ?_⟩
      · intro hxr
        exact hnotin x hxr (List.mem_cons_self x seen)
      · intro y hy
        rcases List.mem_cons.mp hy with rfl | hyr
        · exact hx
        · intro hys
          exact hnotin y hyr (List.mem_cons_of_mem x hys)

theorem rowWidthCheck_nil_some (rows : List (List String)) :
    ∀ (n lp : Nat), rowWidthCheck n (some lp) rows = [] →
    ∀ row ∈ rows, 2 ≤ row.length ∧ row.length = lp := by
  induction rows with
  | nil =>
    intro n lp _ row h
    exact absurd h (List.not_mem_nil row)
  | cons r rest ih =>
    intro n lp h row hrow
    by_cases h2 : r.length < 2
    · rw [rowWidthCheck, if_pos h2] at h
      exact absurd h (by simp)
    · rw [rowWidthCheck, if_neg h2] at h
      by_cases h3 : r.length ≠ lp
      · rw [if_pos h3] at h
        exact absurd h (by simp)
      · rw [if_neg h3] at h
        rcases List.mem_cons.mp hrow with rfl | hr
        · exact ⟨by omega, not_not.mp h3⟩
        · exact ih (n + 1) lp h row hr

theorem rowWidthCheck_nil_none (rows : List (List String)) (n : Nat)
    (h : rowWidthCheck n none rows = []) :
    ∀ row ∈ rows, 2 ≤ row.length ∧ row.length = (rows.headD []).length := by
  cases rows with
  | nil =>
    intro row hr
    exact absurd hr (List.not_mem_nil row)
  | cons r rest =>
    by_cases h2 : r.length < 2
    · rw [rowWidthCheck, if_pos h2] at h
      exact absurd h (by simp)
    · rw [rowWidthCheck, if_neg h2] at h
      intro row hrow
      rcases List.mem_cons.mp hrow with rfl | hr
      · exact ⟨by omega, rfl⟩
      · exact rowWidthCheck_nil_some rest (n + 1) r.length h row hr

theorem alookup_map_head (rows : List (List String))
    (hnd : (rows.map (fun r => r.headD "")).Nodup) :
    ∀ row ∈ rows, alookup (rows.map (fun r => (r.headD "", r.drop 1))) (row.headD "") =
      some (row.drop 1) := by
  induction rows with
  | nil =>
    intro row h
    exact absurd h (List.not_mem_nil row)
  | cons r0 rest ih =>
    intro row hrow
    rw [List.map_cons] at hnd ⊢
    rcases List.mem_cons.mp hrow with heq | hr
    · subst heq
      show (if row.headD "" = row.headD "" then some (row.drop 1)
        else alookup (rest.map (fun r => (r.headD "", r.drop 1))) (row.headD "")) = _
      rw [if_pos rfl]
    · have hne : r0.headD "" ≠ row.headD "" := by
        intro he
        have h1 : row.headD "" ∈ rest.map (fun r => r.headD "") :=
          List.mem_map.mpr ⟨row, hr, rfl⟩
        have h2 := (List.nodup_cons.mp hnd).1
        rw [he] at h2
        exact h2 h1
      show (if r0.headD "" = row.headD "" then some (r0.drop 1)
        else alookup (rest.map (fun r => (r.headD "", r.drop 1))) (row.headD "")) = _
      rw [if_neg hne]
      exact ih (List.nodup_cons.mp hnd).2 row hr

theorem readStage5_spec (vi : VariantInfo) (aspects variants : List String)
    (choices : List (String × List String)) :
    ((readStage5 vi aspects variants choices).1 ≠ [] →
      (readStage5 vi aspects variants choices).2 = vi) ∧
    ((readStage5 vi aspects variants choices).1 = [] →
      (choices.map Prod.snd).Nodup ∧
      (readStage5 vi aspects variants choices).2 =
        { aspects := aspects, variants := variants, choices := choices,
          isLoaded := true }) := by
  by_cases hdup : hasDupAssignment [] (choices.map Prod.snd)
  · have hred : readStage5 vi aspects variants choices =
        ([TableErr.dupChoiceAssignments], vi) := by
      simp [readStage5, hdup]
    rw [hred]
    exact ⟨fun _ => rfl, fun h => absurd h (by simp)⟩
  · have hred : readStage5 vi aspects variants choices =
        ([], { aspects := aspects, variants := variants, choices := choices,
               isLoaded := true }) := by
      simp [readStage5, hdup]
    rw [hred]
    exact ⟨fun h => absurd rfl h,
      fun _ => ⟨(hasDupAssignment_false _ [] (by simpa using hdup)).1, rfl⟩⟩

theorem readStage4_spec (vi : VariantInfo) (cd : ChoiceDict) (aspects variants : List String)
    (choices : List (String × List String)) :
    ((readStage4 vi cd aspects variants choices).1 ≠ [] →
      (readStage4 vi cd aspects variants choices).2 = vi) ∧
    ((readStage4 vi cd aspects variants choices).1 = [] →
      (∀ variant ∈ variants, ∀ ia ∈ aspects.enum,
        ((alookup choices variant).getD []).getD ia.1 "" ∈ (alookup cd ia.2).getD []) ∧
      readStage4 vi cd aspects variants choices = readStage5 vi aspects variants choices) := by
  by_cases h4 : (variants.flatMap (fun variant =>
      aspects.enum.filterMap (fun ia =>
        if ((alookup choices variant).getD []).getD ia.1 "" ∈ (alookup cd ia.2).getD []
        then none
        else some (TableErr.invalidChoice ia.2
          (((alookup choices variant).getD []).getD ia.1 ""))))) = []
  · have hred : readStage4 vi cd aspects variants choices =
        readStage5 vi aspects variants choices := by
      simp only [readStage4]
      rw [if_neg (not_not_intro h4)]
    rw [hred]
    obtain ⟨s1, s2⟩ := readStage5_spec vi aspects variants choices
    refine ⟨s1, fun h => ⟨?_, rfl⟩⟩
    intro variant hvar ia hia
    have hinner := List.flatMap_eq_nil_iff.mp h4 variant hvar
    have hcell := List.filterMap_eq_nil_iff.mp hinner ia hia
    by_cases hc : ((alookup choices variant).getD []).getD ia.1 "" ∈
        (alookup cd ia.2).getD []
    · exact hc
    · rw [if_neg hc] at hcell
      exact absurd hcell (by simp)
  · have hred : readStage4 vi cd aspects variants choices =
        (variants.flatMap (fun variant =>
          aspects.enum.filterMap (fun ia =>
            if ((alookup choices variant).getD []).getD ia.1 "" ∈ (alookup cd ia.2).getD []
            then none
            else some (TableErr.invalidChoice ia.2
              (((alookup choices variant).getD []).getD ia.1 "")))), vi) := by
      simp only [readStage4]
      rw [if_pos h4]
    rw [hred]
    exact ⟨fun _ => rfl, fun h => absurd h h4⟩

theorem readStage3_spec (vi : VariantInfo) (cd : ChoiceDict) (aspects variants : List String)
    (choices : List (String × List String)) :
    ((readStage3 vi cd aspects variants choices).1 ≠ [] →
      (readStage3 vi cd aspects variants choices).2 = vi) ∧
    ((readStage3 vi cd aspects variants choices).1 = [] →
      (∀ a ∈ aspects, a ≠ "") ∧ aspects.Nodup ∧ (∀ a ∈ aspects, (alookup cd a).isSome) ∧
      readStage3 vi cd aspects variants choices =
        readStage4 vi cd aspects variants choices) := by
  by_cases h3 : ((if count_empty aspects ≠ 0 then
        [TableErr.emptyAspectIdents (count_empty aspects)] else []) ++
      (if count_duplicates aspects ≠ [] then
        [TableErr.dupAspectIdents (count_duplicates aspects)] else []) ++
      (aspects.filter (fun a => (alookup cd a).isNone)).map TableErr.invalidAspect) = []
  · obtain ⟨he, hd, hf⟩ : (if count_empty aspects ≠ 0 then
        [TableErr.emptyAspectIdents (count_empty aspects)] else []) = [] ∧
        (if count_duplicates aspects ≠ [] then
          [TableErr.dupAspectIdents (count_duplicates aspects)] else []) = [] ∧
        (aspects.filter (fun a => (alookup cd a).isNone)).map TableErr.invalidAspect = [] := by
      rcases List.append_eq_nil.mp h3 with ⟨h12, hmap⟩
      rcases List.append_eq_nil.mp h12 with ⟨ha, hb⟩
      exact ⟨ha, hb, hmap⟩
    have hred : readStage3 vi cd aspects variants choices =
        readStage4 vi cd aspects variants choices := by
      simp only [readStage3]
      rw [if_neg (not_not_intro h3)]
    rw [hred]
    obtain ⟨s1, _⟩ := readStage4_spec vi cd aspects variants choices
    refine ⟨s1, fun _ => ⟨?_, ?_, ?_, rfl⟩⟩
    · intro a ha hae
      have hz : count_empty aspects = 0 := by
        by_contra hc
        rw [if_pos hc] at he
        exact absurd he (by simp)
      have := List.countP_eq_zero.mp hz a ha
      rw [hae] at this
      simp at this
    · apply count_duplicates_nil
      by_contra hc
      rw [if_pos hc] at hd
      exact absurd hd (by simp)
    · intro a ha
      rw [List.map_eq_nil_iff] at hf
      have : a ∉ aspects.filter (fun a => (alookup cd a).isNone) := by
        rw [hf]
        exact List.not_mem_nil a
      by_cases hs : (alookup cd a).isSome
      · exact hs
      · exfalso
        apply this
        refine List.mem_filter.mpr ⟨ha, ?_⟩
        simp only [Option.isNone_iff_eq_none]
        rcases halt : alookup cd a with _ | v
        · simp
        · rw [halt] at hs
          exact absurd rfl hs
  · constructor
    · intro _
      show (readStage3 vi cd aspects variants choices).2 = vi
      simp only [readStage3]
      rw [if_pos h3]
    · intro h
      simp only [readStage3] at h
      rw [if_pos h3] at h
      exact absurd h h3

theorem readStage2_spec (vi : VariantInfo) (cd : ChoiceDict) (table : List (List String)) :
    ((readStage2 vi cd table).1 ≠ [] → (readStage2 vi cd table).2 = vi) ∧
    ((readStage2 vi cd table).1 = [] →
      (∀ v ∈ (table.drop 1).map (fun row => row.headD ""), v ≠ "") ∧
      ((table.drop 1).map (fun row => row.headD "")).Nodup ∧
      readStage2 vi cd table =
        readStage3 vi cd ((table.headD []).drop 1)
          ((table.drop 1).map (fun row => row.headD ""))
          ((table.drop 1).map (fun row => (row.headD "", row.drop 1)))) := by
  by_cases h2 : ((if count_empty ((table.drop 1).map (fun row => row.headD "")) ≠ 0 then
        [TableErr.emptyVariantIdents (count_empty ((table.drop 1).map (fun row => row.headD "")))]
      else []) ++
      (if count_duplicates ((table.drop 1).map (fun row => row.headD "")) ≠ [] then
        [TableErr.dupVariantIdents (count_duplicates ((table.drop 1).map (fun row => row.headD "")))]
      else [])) = []
  · obtain ⟨he, hd⟩ := List.append_eq_nil.mp h2
    have hred : readStage2 vi cd table =
        readStage3 vi cd ((table.headD []).drop 1)
          ((table.drop 1).map (fun row => row.headD ""))
          ((table.drop 1).map (fun row => (row.headD "", row.drop 1))) := by
      simp only [readStage2]
      rw [if_neg (not_not_intro h2)]
    rw [hred]
    obtain ⟨s1, _⟩ := readStage3_spec vi cd ((table.headD []).drop 1)
      ((table.drop 1).map (fun row => row.headD ""))
      ((table.drop 1).map (fun row => (row.headD "", row.drop 1)))
    refine ⟨s1, fun _ => ⟨?_, ?_, rfl⟩⟩
    · intro v hv hve
      have hz : count_empty ((table.drop 1).map (fun row => row.headD "")) = 0 := by
        by_contra hc
        rw [if_pos hc] at he
        exact absurd he (by simp)
      have := List.countP_eq_zero.mp hz v hv
      rw [hve] at this
      simp at this
    · apply count_duplicates_nil
      by_contra hc
      rw [if_pos hc] at hd
      exact absurd hd (by simp)
  · constructor
    · intro _
      show (readStage2 vi cd table).2 = vi
      simp only [readStage2]
      rw [if_pos h2]
    · intro h
      simp only [readStage2] at h
      rw [if_pos h2] at h
      exact absurd h h2

/-- C5 counterexample: a grid with a duplicate variant identifier *and* an
aspect unknown to the model reports only the duplicate-variant error — the
unknown-aspect violation is absent from the returned list, so loading does
not return the complete list of all violations. -/
theorem read_csv_not_all_violations :
    (read_csv_table ⟨[], [], [], false⟩ [["", "A"], ["V", "x"], ["V", "y"]] []).1 =
      [TableErr.dupVariantIdents ["V"]] ∧
    alookup ([] : ChoiceDict) "A" = none ∧
    TableErr.invalidAspect "A" ∉
      (read_csv_table ⟨[], [], [], false⟩ [["", "A"], ["V", "x"], ["V", "y"]] []).1 := by
  refine ⟨rfl, rfl, ?_⟩
  intro h
  rw [show (read_csv_table ⟨[], [], [], false⟩ [["", "A"], ["V", "x"], ["V", "y"]] []).1 =
    [TableErr.dupVariantIdents ["V"]] from rfl] at h
  simp at h

/-- C5 (amended): variant-table loading validates the grid; on any violation
it returns the non-empty error list of the first failing validation stage
(later stages are left unchecked) and leaves the table object unchanged
(the loaded flag keeps its old value); when no error is returned, the grid
satisfies every structural condition (≥ 2 rows, equal widths ≥ 2, no
empty/duplicate variant or aspect names, every aspect known, every cell a
valid choice for its column, no two identical choice vectors) and the data
is loaded. -/
theorem read_csv_table_spec (vi : VariantInfo) (table : List (List String)) (cd : ChoiceDict) :
    ((read_csv_table vi table cd).1 ≠ [] → (read_csv_table vi table cd).2 = vi) ∧
    ((read_csv_table vi table cd).1 = [] →
      2 ≤ table.length ∧
      (∀ row ∈ table, 2 ≤ row.length ∧ row.length = (table.headD []).length) ∧
      (∀ v ∈ (table.drop 1).map (fun row => row.headD ""), v ≠ "") ∧
      ((table.drop 1).map (fun row => row.headD "")).Nodup ∧
      (∀ a ∈ (table.headD []).drop 1, a ≠ "") ∧
      ((table.headD []).drop 1).Nodup ∧
      (∀ a ∈ (table.headD []).drop 1, (alookup cd a).isSome) ∧
      (∀ row ∈ table.drop 1, ∀ ia ∈ ((table.headD []).drop 1).enum,
        (row.drop 1).getD ia.1 "" ∈ (alookup cd ia.2).getD []) ∧
      ((table.drop 1).map (fun row => row.drop 1)).Nodup ∧
      (read_csv_table vi table cd).2 =
        { aspects := (table.headD []).drop 1,
          variants := (table.drop 1).map (fun row => row.headD ""),
          choices := (table.drop 1).map (fun row => (row.headD "", row.drop 1)),
          isLoaded := true }) := by
  by_cases h1 : (if table.length < 2 then [TableErr.tooFewRows]
      else rowWidthCheck 0 none table) = []
  · have hred : read_csv_table vi table cd = readStage2 vi cd table := by
      simp only [read_csv_table]
      rw [if_neg (not_not_intro h1)]
    have hlen : ¬(table.length < 2) := by
      intro hl
      rw [if_pos hl] at h1
      exact absurd h1 (by simp)
    have hwidth : rowWidthCheck 0 none table = [] := by rwa [if_neg hlen] at h1
    rw [hred]
    set A := (table.headD []).drop 1 with hA
    set V := (table.drop 1).map (fun row => row.headD "") with hV
    set C := (table.drop 1).map (fun row => (row.headD "", row.drop 1)) with hC
    obtain ⟨s21, s22⟩ := readStage2_spec vi cd table
    constructor
    · intro hne
      by_cases e2 : (readStage2 vi cd table).1 = []
      · obtain ⟨_, _, heq2⟩ := s22 e2
        rw [heq2] at hne ⊢
        obtain ⟨s31, s32⟩ := readStage3_spec vi cd A V C
        by_cases e3 : (readStage3 vi cd A V C).1 = []
        · obtain ⟨_, _, _, heq3⟩ := s32 e3
          rw [heq3] at hne ⊢
          obtain ⟨s41, s42⟩ := readStage4_spec vi cd A V C
          by_cases e4 : (readStage4 vi cd A V C).1 = []
          · obtain ⟨_, heq4⟩ := s42 e4
            rw [heq4] at hne ⊢
            exact (readStage5_spec vi A V C).1 hne
          · exact s41 e4
        · exact s31 e3
      · exact s21 e2
    · intro hz
      obtain ⟨hv1, hv2, heq2⟩ := s22 hz
      rw [heq2] at hz ⊢
      obtain ⟨s31, s32⟩ := readStage3_spec vi cd A V C
      obtain ⟨ha1, ha2, ha3, heq3⟩ := s32 hz
      rw [heq3] at hz ⊢
      obtain ⟨s41, s42⟩ := readStage4_spec vi cd A V C
      obtain ⟨hcell, heq4⟩ := s42 hz
      rw [heq4] at hz ⊢
      obtain ⟨s51, s52⟩ := readStage5_spec vi A V C
      obtain ⟨hdup, hfinal⟩ := s52 hz
      refine ⟨by omega, rowWidthCheck_nil_none table 0 hwidth, hv1, hv2, ha1, ha2, ha3,
        ?_, ?_, hfinal⟩
      · intro row hrow ia hia
        have hvmem : row.headD "" ∈ V := List.mem_map.mpr ⟨row, hrow, rfl⟩
        have hc := hcell (row.headD "") hvmem ia hia
        rw [hC, alookup_map_head (table.drop 1) hv2 row hrow] at hc
        simpa using hc
      · have hcomp : C.map Prod.snd = (table.drop 1).map (fun row => row.drop 1) := by
          rw [hC, List.map_map]
          rfl
        rw [← hcomp]
        exact hdup
  · constructor
    · intro _
      show (read_csv_table vi table cd).2 = vi
      simp only [read_csv_table]
      rw [if_pos h1]
    · intro h
      simp only [read_csv_table] at h
      rw [if_pos h1] at h
      exact absurd h h1

/-- Witness for C5 at concrete grids: a failing load leaves the object
unchanged, a clean load satisfies the conditions and loads the data. -/
theorem read_csv_table_spec_witness :
    (read_csv_table ⟨[], [], [], false⟩ [["", "A"], ["V", "x"], ["V", "y"]] []).2 =
      ⟨[], [], [], false⟩ ∧
    (read_csv_table ⟨[], [], [], false⟩ [["", "A"], ["V1", "x"], ["V2", "y"]]
        [("A", ["x", "y"])]).2 =
      { aspects := ["A"], variants := ["V1", "V2"],
        choices := [("V1", ["x"]), ("V2", ["y"])], isLoaded := true } := by
  constructor
  · exact (read_csv_table_spec ⟨[], [], [], false⟩ [["", "A"], ["V", "x"], ["V", "y"]] []).1
      (by decide)
  · exact ((read_csv_table_spec ⟨[], [], [], false⟩ [["", "A"], ["V1", "x"], ["V2", "y"]]
      [("A", ["x", "y"])]).2 (by decide)).2.2.2.2.2.2.2.2.2

/-! ## `detect_current_choices` (C3) -/

/-- A record in the list returned by `mismatches_fp_choice`: the component
value or one property state differs between snapshot and choice. -/
inductive Mismatch
  | value
  | prop (propId : String)
deriving DecidableEq

/-- `mismatches_fp_choice`: a value mismatch when the choice's value is
specified and the live value differs, then one mismatch per snapshot property
id whose state is specified on both sides with different polarity. -/
def mismatches_fp_choice (fp : FpState) (entry : ChoiceEntry) : List Mismatch :=
  (match entry.value with
    | some v => if fp.value ≠ v then [Mismatch.value] else []
    | none => []) ++
  (fp.props.map Prod.fst).filterMap (fun prop_id =>
    match prop_state entry.props prop_id, prop_state fp.props prop_id with
    | some cp, some fpp =>
      if cp ≠ fpp then some (Mismatch.prop prop_id) else none
    | _, _ => none)

/-- `mismatches_fp_choice_fld`: one mismatch (the field name) per field whose
expectation for `choice` is specified and differs from the live field text.
The Python code indexes `branch[choice]` and `fp_fields[field]` directly;
both are total in the validated flow, so missing entries default to an
unspecified entry resp. empty text here. -/
def mismatches_fp_choice_fld (fp_fields : List (String × String))
    (fld : List (String × Branch)) (choice : String) : List String :=
  fld.filterMap (fun fb =>
    match ((alookup fb.2 choice).getD ⟨none, []⟩).value with
    | some cfv =>
      if cfv ≠ (alookup fp_fields fb.1).getD "" then some fb.1 else none
    | none => none)

/-- The choice-collection step of `get_choice_dict`: append `c` unless it is a
pseudo-choice or already present. -/
def addUniqueChoice (l : List String) (c : String) : List String :=
  if c ≠ Key.DEFAULT ∧ c ≠ Key.STANDIN ∧ c ∉ l then l ++ [c] else l

/-- One component's contribution to `get_choice_dict`: register the aspect,
then collect the choice names of both scopes in first-seen order. -/
def choiceDictStep (chs : List (String × List String)) (u : String × VarComp) :
    List (String × List String) :=
  let chs := if (alookup chs u.2.aspect).isNone then aset chs u.2.aspect [] else chs
  let cur := (alookup chs u.2.aspect).getD []
  let cur := u.2.cmp.foldl (fun cur p => addUniqueChoice cur p.1) cur
  let cur := u.2.fld.foldl
    (fun cur fb => fb.2.foldl (fun cur p => addUniqueChoice cur p.1) cur) cur
  aset chs u.2.aspect cur

/-- `get_choice_dict`: every aspect of the model with its full choice list. -/
def get_choice_dict (vardict : Vardict) : List (String × List String) :=
  vardict.foldl choiceDictStep []

/-- Stand-in snapshot entry: `detect_current_choices` indexes `fpdict[uuid]`
directly, which is total in the flow (the vardict is built from the
snapshot), so a missing component defaults to this entry here. -/
def fpMissing : FpState := ⟨"", "", [], [], none⟩

/-- The per-candidate elimination test of `detect_current_choices`: some
component-scope or some field-scope mismatch list is nonempty. The Python
code indexes `CMP[choice]` directly; the finalized vardict has every choice
of the aspect in `CMP`, so a missing choice defaults to unspecified here. -/
def eliminateChoice (fp : FpState) (vc : VarComp) (choice : String) : Bool :=
  !(mismatches_fp_choice fp ((alookup vc.cmp choice).getD ⟨none, []⟩)).isEmpty ||
  !(mismatches_fp_choice_fld fp.fields vc.fld choice).isEmpty

/-- One component's elimination pass over its aspect's candidate list:
collect the eliminated choices first, then remove them one by one. -/
def detectStep (fpdict : Fpdict) (chs : List (String × List String))
    (u : String × VarComp) : List (String × List String) :=
  match alookup chs u.2.aspect with
  | none => chs
  | some cur =>
    let fp := (alookup fpdict u.1).getD fpMissing
    let elim := cur.filter (fun choice => eliminateChoice fp u.2 choice)
    aset chs u.2.aspect (elim.foldl (fun l c => l.erase c) cur)

/-- `detect_current_choices`: start from the full per-aspect choice sets,
eliminate per component, then report an aspect's selection iff exactly one
candidate survives. -/
def detect_current_choices (fpdict : Fpdict) (vardict : Vardict) :
    List (String × Option String) :=
  let choices := vardict.foldl (detectStep fpdict) (get_choice_dict vardict)
  choices.map (fun p => (p.1, match p.2 with | [c] => some c | _ => none))

/-- Spec-side survival test: candidate `c` of aspect `a` survives component
`u` when `u` owns a different aspect or eliminates nothing about `c`. -/
def survivesB (fpdict : Fpdict) (a c : String) (u : String × VarComp) : Bool :=
  if u.2.aspect = a then
    !(eliminateChoice ((alookup fpdict u.1).getD fpMissing) u.2 c)
  else true

/-- Spec-side survivor list of an aspect: the full candidate set filtered to
the choices no component of the model eliminates. -/
def specSurvivors (fpdict : Fpdict) (vardict : Vardict) (a : String) :
    List String :=
  ((alookup (get_choice_dict vardict) a).getD []).filter
    (fun c => vardict.all (survivesB fpdict a c))

theorem alookup_mem {α : Type} :
    ∀ (m : List (String × α)) (k : String) (v : α),
      alookup m k = some v → (k, v) ∈ m := by
  intro m
  induction m with
  | nil => intro k v h; exact absurd h (by simp [alookup])
  | cons q rest ih =>
    intro k v h
    obtain ⟨k', w⟩ := q
    by_cases hk : k' = k
    · subst hk
      rw [alookup, if_pos rfl] at h
      injection h with h
      subst h
      exact List.mem_cons_self _ _
    · rw [alookup, if_neg hk] at h
      exact List.mem_cons_of_mem _ (ih k v h)

theorem mem_map_fst {α : Type} (m : List (String × α)) (p : String × α)
    (h : p ∈ m) : p.1 ∈ m.map Prod.fst :=
  List.mem_map.mpr ⟨p, h, rfl⟩

theorem alookup_eq_none {α : Type} :
    ∀ (m : List (String × α)) (k : String),
      alookup m k = none ↔ k ∉ m.map Prod.fst := by
  intro m
  induction m with
  | nil => intro k; simp [alookup]
  | cons q rest ih =>
    intro k
    obtain ⟨k', w⟩ := q
    by_cases hk : k' = k
    · subst hk
      simp [alookup]
    · rw [alookup, if_neg hk]
      simp only [List.map_cons, List.mem_cons]
      rw [ih k]
      constructor
      · intro h hc
        rcases hc with hc | hc
        · exact hk hc.symm
        · exact h hc
      · intro h hc
        exact h (Or.inr hc)

theorem alookup_self_of_nodup {α : Type} :
    ∀ (m : List (String × α)), (m.map Prod.fst).Nodup →
      ∀ p ∈ m, alookup m p.1 = some p.2 := by
  intro m
  induction m with
  | nil => intro _ p hp; exact absurd hp (List.not_mem_nil p)
  | cons q rest ih =>
    intro hnd p hp
    obtain ⟨k', w⟩ := q
    rw [List.map_cons, List.nodup_cons] at hnd
    rcases List.mem_cons.mp hp with heq | hmem
    · subst heq
      rw [alookup, if_pos rfl]
    · by_cases hk : k' = p.1
      · exact absurd (hk ▸ mem_map_fst rest p hmem) hnd.1
      · rw [alookup, if_neg hk]
        exact ih hnd.2 p hmem

theorem map_upd_id {α : Type} (k : String) (v : α) :
    ∀ (m : List (String × α)), (∀ p ∈ m, p.1 ≠ k) →
      m.map (fun p => if p.1 = k then (k, v) else p) = m := by
  intro m
  induction m with
  | nil => intro _; rfl
  | cons q rest ih =>
    intro h
    rw [List.map_cons, if_neg (h q (List.mem_cons_self q rest)),
      ih (fun p hp => h p (List.mem_cons_of_mem q hp))]

theorem aset_existing_eq_map {α : Type} (k : String) (v : α) :
    ∀ (m : List (String × α)), (m.map Prod.fst).Nodup →
      (∃ v0, alookup m k = some v0) →
      aset m k v = m.map (fun p => if p.1 = k then (k, v) else p) := by
  intro m
  induction m with
  | nil => intro _ h; exact absurd h (by simp [alookup])
  | cons q rest ih =>
    intro hnd h
    obtain ⟨k', w⟩ := q
    rw [List.map_cons, List.nodup_cons] at hnd
    by_cases hk : k' = k
    · subst hk
      have h1 : aset ((k', w) :: rest) k' v = (k', v) :: rest := by
        rw [aset, if_pos rfl]
      rw [h1, List.map_cons,
        if_pos (show ((k', w) : String × α).1 = k' from rfl),
        map_upd_id k' v rest
          (fun p hp hpk => hnd.1 (hpk ▸ mem_map_fst rest p hp))]
    · obtain ⟨v0, h0⟩ := h
      rw [alookup, if_neg hk] at h0
      rw [aset, if_neg hk, List.map_cons]
      show _ :: aset rest k v = (if k' = k then (k, v) else (k', w)) :: _
      rw [if_neg hk, ih hnd.2 ⟨v0, h0⟩]

theorem akeys_aset_mem {α : Type} (k : String) (v : α) :
    ∀ (m : List (String × α)), k ∈ m.map Prod.fst →
      (aset m k v).map Prod.fst = m.map Prod.fst := by
  intro m
  induction m with
  | nil => intro h; exact absurd h (by simp)
  | cons q rest ih =>
    intro h
    obtain ⟨k', w⟩ := q
    by_cases hk : k' = k
    · subst hk
      rw [aset, if_pos rfl]
      rfl
    · rw [aset, if_neg hk, List.map_cons, List.map_cons, ih]
      rcases List.mem_cons.mp h with hc | hc
      · exact absurd hc.symm hk
      · exact hc

theorem akeys_aset_not_mem {α : Type} (k : String) (v : α) :
    ∀ (m : List (String × α)), k ∉ m.map Prod.fst →
      (aset m k v).map Prod.fst = m.map Prod.fst ++ [k] := by
  intro m
  induction m with
  | nil => intro _; rfl
  | cons q rest ih =>
    intro h
    obtain ⟨k', w⟩ := q
    simp only [List.map_cons, List.mem_cons] at h
    push_neg at h
    rw [aset, if_neg (fun he => h.1 he.symm), List.map_cons, List.map_cons,
      ih h.2]
    rfl

theorem mem_aset {α : Type} (k : String) (v : α) :
    ∀ (m : List (String × α)) (p : String × α),
      p ∈ aset m k v → p = (k, v) ∨ p ∈ m := by
  intro m
  induction m with
  | nil =>
    intro p hp
    rcases List.mem_singleton.mp hp with h
    exact Or.inl h
  | cons q rest ih =>
    intro p hp
    obtain ⟨k', w⟩ := q
    by_cases hk : k' = k
    · subst hk
      rw [aset, if_pos rfl] at hp
      rcases List.mem_cons.mp hp with h | h
      · exact Or.inl h
      · exact Or.inr (List.mem_cons_of_mem _ h)
    · rw [aset, if_neg hk] at hp
      rcases List.mem_cons.mp hp with h | h
      · exact Or.inr (h ▸ List.mem_cons_self _ _)
      · rcases ih p h with h' | h'
        · exact Or.inl h'
        · exact Or.inr (List.mem_cons_of_mem _ h')

theorem foldl_erase_cons_ne :
    ∀ (ds : List String) (a : String) (t : List String),
      (∀ c ∈ ds, c ≠ a) →
      ds.foldl (fun l c => l.erase c) (a :: t) =
        a :: ds.foldl (fun l c => l.erase c) t := by
  intro ds
  induction ds with
  | nil => intro a t _; rfl
  | cons d ds ih =>
    intro a t h
    have hd : d ≠ a := h d (List.mem_cons_self d ds)
    have had : (a == d) = false := beq_eq_false_iff_ne.mpr (Ne.symm hd)
    rw [List.foldl_cons, List.foldl_cons, List.erase_cons, had]
    show ds.foldl _ (a :: t.erase d) = _
    exact ih a (t.erase d) (fun c hc => h c (List.mem_cons_of_mem d hc))

theorem foldl_erase_filter (p : String → Bool) :
    ∀ (l : List String), l.Nodup →
      (l.filter p).foldl (fun acc c => acc.erase c) l =
        l.filter (fun c => !(p c)) := by
  intro l
  induction l with
  | nil => intro _; rfl
  | cons a t ih =>
    intro hnd
    rw [List.nodup_cons] at hnd
    by_cases hp : p a = true
    · rw [List.filter_cons_of_pos hp, List.foldl_cons, List.erase_cons_head,
        List.filter_cons_of_neg (by simp [hp]), ih hnd.2]
    · have hpa : p a = false := Bool.eq_false_iff.mpr hp
      rw [List.filter_cons_of_neg (by simp [hpa]),
        foldl_erase_cons_ne (t.filter p) a t
          (fun c hc hca => hnd.1 (hca ▸ (List.mem_filter.mp hc).1)),
        List.filter_cons_of_pos (by simp [hpa]), ih hnd.2]

theorem addUniqueChoice_nodup (l : List String) (c : String) (h : l.Nodup) :
    (addUniqueChoice l c).Nodup := by
  rw [addUniqueChoice]
  by_cases hc : c ≠ Key.DEFAULT ∧ c ≠ Key.STANDIN ∧ c ∉ l
  · rw [if_pos hc]
    exact List.Nodup.append h (List.nodup_singleton c)
      (fun x hx hxc => hc.2.2 ((List.mem_singleton.mp hxc) ▸ hx))
  · rw [if_neg hc]
    exact h

theorem foldl_nodup_preserve {β : Type} (f : List String → β → List String)
    (hf : ∀ l b, l.Nodup → (f l b).Nodup) (bs : List β) :
    ∀ (l : List String), l.Nodup → (bs.foldl f l).Nodup := by
  induction bs with
  | nil => intro l h; exact h
  | cons b bs ih => intro l h; exact ih (f l b) (hf l b h)

theorem aset_inv (m : List (String × List String)) (k : String)
    (v : List String) (hk : (m.map Prod.fst).Nodup)
    (hv : ∀ p ∈ m, p.2.Nodup) (hvn : v.Nodup) :
    ((aset m k v).map Prod.fst).Nodup ∧ ∀ p ∈ aset m k v, p.2.Nodup := by
  constructor
  · by_cases hm : k ∈ m.map Prod.fst
    · rw [akeys_aset_mem k v m hm]
      exact hk
    · rw [akeys_aset_not_mem k v m hm]
      exact List.Nodup.append hk (List.nodup_singleton k)
        (fun x hx hxc => hm ((List.mem_singleton.mp hxc) ▸ hx))
  · intro p hp
    rcases mem_aset k v m p hp with h | h
    · rw [h]
      exact hvn
    · exact hv p h

theorem choiceDictStep_inv (chs : List (String × List String))
    (u : String × VarComp) (hk : (chs.map Prod.fst).Nodup)
    (hv : ∀ p ∈ chs, p.2.Nodup) :
    ((choiceDictStep chs u).map Prod.fst).Nodup ∧
      ∀ p ∈ choiceDictStep chs u, p.2.Nodup := by
  have hreg : (((if (alookup chs u.2.aspect).isNone then aset chs u.2.aspect []
          else chs)).map Prod.fst).Nodup ∧
      ∀ p ∈ (if (alookup chs u.2.aspect).isNone then aset chs u.2.aspect []
          else chs), p.2.Nodup := by
    by_cases h0 : (alookup chs u.2.aspect).isNone
    · rw [if_pos h0]
      exact aset_inv chs u.2.aspect [] hk hv List.nodup_nil
    · rw [if_neg h0]
      exact ⟨hk, hv⟩
  simp only [choiceDictStep]
  refine aset_inv _ _ _ hreg.1 hreg.2 ?_
  refine foldl_nodup_preserve _ ?_ u.2.fld _ ?_
  · intro l fb hb
    exact foldl_nodup_preserve _
      (fun l' b hb' => addUniqueChoice_nodup l' b.1 hb') fb.2 l hb
  · refine foldl_nodup_preserve _
      (fun l b hb => addUniqueChoice_nodup l b.1 hb) u.2.cmp _ ?_
    cases h0 : alookup (if (alookup chs u.2.aspect).isNone
        then aset chs u.2.aspect [] else chs) u.2.aspect with
    | none => exact List.nodup_nil
    | some x => exact hreg.2 (u.2.aspect, x) (alookup_mem _ u.2.aspect x h0)

theorem get_choice_dict_inv (vardict : Vardict) :
    ((get_choice_dict vardict).map Prod.fst).Nodup ∧
      ∀ p ∈ get_choice_dict vardict, p.2.Nodup := by
  have h : ∀ (vd : Vardict) (chs : List (String × List String)),
      (chs.map Prod.fst).Nodup → (∀ p ∈ chs, p.2.Nodup) →
      ((vd.foldl choiceDictStep chs).map Prod.fst).Nodup ∧
        ∀ p ∈ vd.foldl choiceDictStep chs, p.2.Nodup := by
    intro vd
    induction vd with
    | nil => intro chs h1 h2; exact ⟨h1, h2⟩
    | cons u vd ih =>
      intro chs h1 h2
      have hstep := choiceDictStep_inv chs u h1 h2
      exact ih (choiceDictStep chs u) hstep.1 hstep.2
  exact h vardict [] List.nodup_nil (fun p hp => absurd hp (List.not_mem_nil p))

theorem upd_keys {α : Type} (k : String) (v : α) (m : List (String × α)) :
    (m.map (fun p => if p.1 = k then (k, v) else p)).map Prod.fst =
      m.map Prod.fst := by
  rw [List.map_map]
  refine List.map_congr_left ?_
  intro p _
  show (if p.1 = k then (k, v) else p).1 = p.1
  by_cases hpa : p.1 = k
  · rw [if_pos hpa]
    exact hpa.symm
  · rw [if_neg hpa]

theorem upd_values {α : Type} (k : String) (v : α) (m : List (String × α)) :
    ∀ q ∈ m.map (fun p => if p.1 = k then (k, v) else p),
      q = (k, v) ∨ q ∈ m := by
  intro q hq
  rcases List.mem_map.mp hq with ⟨p, hp, hqe⟩
  by_cases hpa : p.1 = k
  · rw [← hqe, if_pos hpa]
    exact Or.inl rfl
  · rw [← hqe, if_neg hpa]
    exact Or.inr hp

theorem detectStep_none_eq (fpdict : Fpdict) (chs : List (String × List String))
    (u : String × VarComp) (halook : alookup chs u.2.aspect = none) :
    detectStep fpdict chs u = chs := by
  simp only [detectStep, halook]

theorem detectStep_some_eq (fpdict : Fpdict) (chs : List (String × List String))
    (u : String × VarComp) (cur : List String)
    (hk : (chs.map Prod.fst).Nodup) (hcurnd : cur.Nodup)
    (halook : alookup chs u.2.aspect = some cur) :
    detectStep fpdict chs u = chs.map (fun p =>
      if p.1 = u.2.aspect
      then (u.2.aspect, cur.filter (fun c =>
        !(eliminateChoice ((alookup fpdict u.1).getD fpMissing) u.2 c)))
      else p) := by
  simp only [detectStep, halook]
  rw [foldl_erase_filter _ cur hcurnd]
  exact aset_existing_eq_map u.2.aspect _ chs hk ⟨cur, halook⟩

theorem detectFold_eq (fpdict : Fpdict) :
    ∀ (vd : Vardict) (chs : List (String × List String)),
      (chs.map Prod.fst).Nodup → (∀ p ∈ chs, p.2.Nodup) →
      vd.foldl (detectStep fpdict) chs =
        chs.map (fun p =>
          (p.1, p.2.filter (fun c => vd.all (survivesB fpdict p.1 c)))) := by
  intro vd
  induction vd with
  | nil =>
    intro chs _ _
    rw [List.foldl_nil]
    symm
    refine (List.map_congr_left ?_).trans (List.map_id chs)
    intro p _
    show (p.1, p.2.filter (fun c => List.all [] (survivesB fpdict p.1 c)))
      = id p
    simp
  | cons u vd ih =>
    intro chs hk hv
    rw [List.foldl_cons]
    cases halook : alookup chs u.2.aspect with
    | none =>
      rw [detectStep_none_eq fpdict chs u halook, ih chs hk hv]
      refine List.map_congr_left ?_
      intro p hp
      have hpa : ¬(u.2.aspect = p.1) := fun he =>
        (alookup_eq_none chs u.2.aspect).mp halook
          (by rw [he]; exact mem_map_fst chs p hp)
      refine congrArg (fun l => (p.1, l)) ?_
      refine List.filter_congr ?_
      intro c _
      rw [List.all_cons]
      have hsurv : survivesB fpdict p.1 c u = true := by
        simp only [survivesB]
        rw [if_neg hpa]
      rw [hsurv, Bool.true_and]
    | some cur =>
      have hcurnd : cur.Nodup := hv (u.2.aspect, cur)
        (alookup_mem chs u.2.aspect cur halook)
      rw [detectStep_some_eq fpdict chs u cur hk hcurnd halook]
      have hk' : ((chs.map (fun p => if p.1 = u.2.aspect
          then (u.2.aspect, cur.filter (fun c =>
            !(eliminateChoice ((alookup fpdict u.1).getD fpMissing) u.2 c)))
          else p)).map Prod.fst).Nodup := by
        rw [upd_keys]
        exact hk
      have hv' : ∀ p ∈ chs.map (fun p => if p.1 = u.2.aspect
          then (u.2.aspect, cur.filter (fun c =>
            !(eliminateChoice ((alookup fpdict u.1).getD fpMissing) u.2 c)))
          else p), p.2.Nodup := by
        intro p hp
        rcases upd_values _ _ chs p hp with h | h
        · rw [h]
          exact List.Nodup.filter _ hcurnd
        · exact hv p h
      rw [ih _ hk' hv', List.map_map]
      refine List.map_congr_left ?_
      intro p hp
      show (fun q : String × List String =>
          (q.1, q.2.filter (fun c => vd.all (survivesB fpdict q.1 c))))
        (if p.1 = u.2.aspect
          then (u.2.aspect, cur.filter (fun c =>
            !(eliminateChoice ((alookup fpdict u.1).getD fpMissing) u.2 c)))
          else p) = _
      by_cases hpa : p.1 = u.2.aspect
      · have hp2 : p.2 = cur := by
          have h1 := alookup_self_of_nodup chs hk p hp
          rw [hpa, halook] at h1
          injection h1 with h1
          exact h1.symm
        rw [if_pos hpa]
        show (u.2.aspect, (cur.filter _).filter _) = (p.1, p.2.filter _)
        rw [hp2, List.filter_filter, ← hpa]
        refine congrArg (fun l => (p.1, l)) ?_
        refine List.filter_congr ?_
        intro c _
        rw [List.all_cons]
        have hsurv : survivesB fpdict p.1 c u =
            !(eliminateChoice ((alookup fpdict u.1).getD fpMissing) u.2 c) := by
          simp only [survivesB]
          rw [if_pos hpa.symm]
        rw [hsurv, Bool.and_comm]
      · rw [if_neg hpa]
        show (p.1, p.2.filter _) = (p.1, p.2.filter _)
        refine congrArg (fun l => (p.1, l)) ?_
        refine List.filter_congr ?_
        intro c _
        rw [List.all_cons]
        have hsurv : survivesB fpdict p.1 c u = true := by
          simp only [survivesB]
          rw [if_neg (fun he => hpa he.symm)]
        rw [hsurv, Bool.true_and]

theorem mismatches_fp_choice_eq_nil_iff (fp : FpState) (e : ChoiceEntry) :
    mismatches_fp_choice fp e = [] ↔
      (∀ v, e.value = some v → fp.value = v) ∧
      (∀ pid ∈ fp.props.map Prod.fst, ∀ cp fpp,
        prop_state e.props pid = some cp →
        prop_state fp.props pid = some fpp → cp = fpp) := by
  have part1 : ∀ (ev : Option String),
      ((match ev with
        | some v => if fp.value ≠ v then [Mismatch.value] else []
        | none => ([] : List Mismatch)) = []) ↔
      (∀ v, ev = some v → fp.value = v) := by
    intro ev
    cases ev with
    | none => simp
    | some v =>
      constructor
      · intro h v' hv'
        injection hv' with hv'
        subst hv'
        have h2 : (if fp.value ≠ v then [Mismatch.value] else []) = [] := h
        by_contra hne
        rw [if_pos hne] at h2
        exact List.cons_ne_nil _ _ h2
      · intro h
        show (if fp.value ≠ v then [Mismatch.value] else []) = []
        rw [if_neg (not_not_intro (h v rfl))]
  have part2 : ∀ (eprops : PropMap),
      (((fp.props.map Prod.fst).filterMap (fun prop_id =>
        match prop_state eprops prop_id, prop_state fp.props prop_id with
        | some cp, some fpp =>
          if cp ≠ fpp then some (Mismatch.prop prop_id) else none
        | _, _ => none)) = []) ↔
      (∀ pid ∈ fp.props.map Prod.fst, ∀ cp fpp,
        prop_state eprops pid = some cp →
        prop_state fp.props pid = some fpp → cp = fpp) := by
    intro eprops
    rw [List.filterMap_eq_nil_iff]
    constructor
    · intro h pid hpid cp fpp hcp hfpp
      have hmem : (match prop_state eprops pid, prop_state fp.props pid with
          | some cp, some fpp =>
            if cp ≠ fpp then some (Mismatch.prop pid) else none
          | _, _ => none) = none := h pid hpid
      rw [hcp, hfpp] at hmem
      have hmem2 : (if cp ≠ fpp then some (Mismatch.prop pid) else none)
          = none := hmem
      by_contra hne
      rw [if_pos hne] at hmem2
      exact Option.some_ne_none _ hmem2
    · intro h pid hpid
      show (match prop_state eprops pid, prop_state fp.props pid with
        | some cp, some fpp =>
          if cp ≠ fpp then some (Mismatch.prop pid) else none
        | _, _ => none) = none
      cases hcp : prop_state eprops pid with
      | none => rfl
      | some cp =>
        cases hfpp : prop_state fp.props pid with
        | none => rfl
        | some fpp =>
          show (if cp ≠ fpp then some (Mismatch.prop pid) else none) = none
          rw [if_neg (not_not_intro (h pid hpid cp fpp hcp hfpp))]
  exact List.append_eq_nil.trans (and_congr (part1 e.value) (part2 e.props))

theorem mismatches_fp_choice_fld_eq_nil_iff (fpf : List (String × String))
    (fld : List (String × Branch)) (choice : String) :
    mismatches_fp_choice_fld fpf fld choice = [] ↔
      ∀ fb ∈ fld, ∀ v,
        ((alookup fb.2 choice).getD ⟨none, []⟩).value = some v →
        v = (alookup fpf fb.1).getD "" := by
  simp only [mismatches_fp_choice_fld]
  rw [List.filterMap_eq_nil_iff]
  constructor
  · intro h fb hfb v hv
    have hmem : (match ((alookup fb.2 choice).getD ⟨none, []⟩).value with
        | some cfv =>
          if cfv ≠ (alookup fpf fb.1).getD "" then some fb.1 else none
        | none => none) = none := h fb hfb
    rw [hv] at hmem
    have hmem2 : (if v ≠ (alookup fpf fb.1).getD "" then some fb.1 else none)
        = none := hmem
    by_contra hne
    rw [if_pos hne] at hmem2
    exact Option.some_ne_none _ hmem2
  · intro h fb hfb
    show (match ((alookup fb.2 choice).getD ⟨none, []⟩).value with
      | some cfv =>
        if cfv ≠ (alookup fpf fb.1).getD "" then some fb.1 else none
      | none => none) = none
    cases hv : ((alookup fb.2 choice).getD ⟨none, []⟩).value with
    | none => rfl
    | some v =>
      show (if v ≠ (alookup fpf fb.1).getD "" then some fb.1 else none) = none
      rw [if_neg (not_not_intro (h fb hfb v hv))]

theorem eliminateChoice_eq_false_iff (fp : FpState) (vc : VarComp)
    (c : String) :
    eliminateChoice fp vc c = false ↔
      mismatches_fp_choice fp ((alookup vc.cmp c).getD ⟨none, []⟩) = [] ∧
      mismatches_fp_choice_fld fp.fields vc.fld c = [] := by
  simp [eliminateChoice, List.isEmpty_iff]

/-- **C3.** The selection resolver starts, per aspect, from the full choice
set of `get_choice_dict` and keeps exactly the candidates no component of
the model eliminates; it reports the aspect's current selection iff exactly
one candidate survives, otherwise unresolved (`none`). A component keeps a
candidate precisely when every explicit (non-unspecified) component-scope
value and property expectation equals the live snapshot state and every
specified field-scope expectation equals the live field text — so choices
whose compared attributes are all unspecified are never eliminated. -/
theorem detect_current_choices_spec (fpdict : Fpdict) (vardict : Vardict) :
    (detect_current_choices fpdict vardict =
      (get_choice_dict vardict).map (fun p =>
        (p.1, match specSurvivors fpdict vardict p.1 with
          | [c] => some c
          | _ => none))) ∧
    (∀ fp vc c, eliminateChoice fp vc c = false ↔
      ((∀ v, ((alookup vc.cmp c).getD ⟨none, []⟩).value = some v →
          fp.value = v) ∧
       (∀ pid ∈ fp.props.map Prod.fst, ∀ cp fpp,
          prop_state ((alookup vc.cmp c).getD ⟨none, []⟩).props pid = some cp →
          prop_state fp.props pid = some fpp → cp = fpp) ∧
       (∀ fb ∈ vc.fld, ∀ v,
          ((alookup fb.2 c).getD ⟨none, []⟩).value = some v →
          v = (alookup fp.fields fb.1).getD ""))) := by
  constructor
  · obtain ⟨hk, hv⟩ := get_choice_dict_inv vardict
    simp only [detect_current_choices]
    rw [detectFold_eq fpdict vardict (get_choice_dict vardict) hk hv,
      List.map_map]
    refine List.map_congr_left ?_
    intro p hp
    have hspec : specSurvivors fpdict vardict p.1 =
        p.2.filter (fun c => vardict.all (survivesB fpdict p.1 c)) := by
      rw [specSurvivors,
        alookup_self_of_nodup (get_choice_dict vardict) hk p hp]
      rfl
    show (p.1, match p.2.filter (fun c => vardict.all (survivesB fpdict p.1 c))
        with
      | [c] => some c
      | _ => none) =
      (p.1, match specSurvivors fpdict vardict p.1 with
      | [c] => some c
      | _ => none)
    rw [hspec]
  · intro fp vc c
    rw [eliminateChoice_eq_false_iff, mismatches_fp_choice_eq_nil_iff,
      mismatches_fp_choice_fld_eq_nil_iff, and_assoc]

/-- Witness for C3 at a concrete snapshot and model: with three value-only
choices of which exactly one matches the live value, the resolver reports
that one; with two all-unspecified choices both survive and the aspect is
unresolved. -/
theorem detect_current_choices_spec_witness :
    detect_current_choices
      [("u1", ⟨"R1", "10k", [], [], none⟩), ("u2", ⟨"R2", "1k", [], [], none⟩)]
      [("u1", ⟨"A", [("c1", ⟨some "10k", []⟩), ("c2", ⟨some "22k", []⟩),
          ("c3", ⟨some "47k", []⟩)], []⟩),
       ("u2", ⟨"B", [("x", ⟨none, []⟩), ("y", ⟨none, []⟩)], []⟩)] =
      [("A", some "c1"), ("B", none)] := by
  rw [(detect_current_choices_spec
    [("u1", ⟨"R1", "10k", [], [], none⟩), ("u2", ⟨"R2", "1k", [], [], none⟩)]
    [("u1", ⟨"A", [("c1", ⟨some "10k", []⟩), ("c2", ⟨some "22k", []⟩),
        ("c3", ⟨some "47k", []⟩)], []⟩),
     ("u2", ⟨"B", [("x", ⟨none, []⟩), ("y", ⟨none, []⟩)], []⟩)]).1]
  decide

/-! ## `apply_selection` (C1, C10) -/

/-- The solder-paste property as a property-dict key
(`prop_id == PropCode.SOLDER`). -/
def solderId : String := ⟨[PropCode.SOLDER]⟩

/-- `convert_attrib_prop_state`: invert the reported state for the
attribute-inverted codes; the Python test `prop_id in 'FBP'` is substring
containment. -/
def convert_attrib_prop_state (prop_id : String) (state : Bool) : Bool :=
  if List.IsInfix prop_id.data inverted_prop_codes then !state else state

/-- The data a change-record message's state text interpolates:
`paste_ratio_text` of a raw ratio, or the quoted `bool_as_text` words. -/
inductive StateText
  | pasteText (pratio : Option ℚ)
  | boolText (b : Bool)
deriving DecidableEq

/-- The data of one change record's message. -/
inductive ChangeDescr
  | value (oldV newV : String)
  | prop (propId : String) (oldT newT : StateText)
  | fld (field oldV newV : String)
deriving DecidableEq

/-- One change record `[uuid, ref, message]`; the message interpolates the
descriptor and the `aspect=choice` text. -/
structure Change where
  uuid : String
  ref : String
  descr : ChangeDescr
  aspect : String
  choice : String
deriving DecidableEq

/-- The uncaught `ValueError`s of `apply_selection`: an unexpected old paste
band in a solder-paste transition. -/
inductive PasteErr
  | offToOn (oldMode : PasteMode)
  | onToOff (oldMode : PasteMode)
deriving DecidableEq

/-! The Python ratio values are IEEE-754 binary64 floats, so the
`± PasteRatio.OFFSET` arithmetic of the solder-paste transition rounds its
exact rational result to 53 significand bits (round to nearest, ties to
even). The following model computes that rounding exactly over integer
pairs. Magnitudes in this program stay far below the overflow threshold, so
no infinity handling is needed; the exponent clamp at `-1074` covers the
subnormal range. -/

/-- Fuel-based `⌊log₂ n⌋` for positive `n` (`0` for `n ∈ {0, 1}`). -/
def log2Aux : Nat → Nat → Nat
  | 0, _ => 0
  | fuel + 1, n => if 2 ≤ n then log2Aux fuel (n / 2) + 1 else 0

/-- `⌊log₂ n⌋` for positive `n`; the value itself is always enough fuel. -/
def natLog2 (n : Nat) : Nat := log2Aux n n

/-- Decide `2 ^ k ≤ a / b` over integers (for positive `a`, `b`). -/
def pow2le (k : Int) (a b : Nat) : Bool :=
  if 0 ≤ k then b * 2 ^ k.toNat ≤ a else b ≤ a * 2 ^ (-k).toNat

/-- `⌊log₂ (a / b)⌋` for positive naturals `a`, `b`: start from the
difference of the integer logs and adjust by at most one step. -/
def ratLog2Floor (a b : Nat) : Int :=
  let k0 : Int := (natLog2 a : Int) - (natLog2 b : Int)
  if pow2le (k0 + 1) a b then k0 + 1
  else if pow2le k0 a b then k0
  else k0 - 1

/-- Round the exact rational `n / d` (`d > 0`) to the nearest IEEE-754
binary64 value (ties to even): scale to an integer significand at the
binade's unit in the last place (clamped at `2 ^ -1074` for subnormals),
round the scaled quotient, and rebuild the dyadic result. -/
def froundPair (n : Int) (d : Nat) : ℚ :=
  if n = 0 then 0 else
  let a := n.natAbs
  let e : Int := max (ratLog2Floor a d - 52) (-1074)
  let N : Nat := if 0 ≤ e then a else a * 2 ^ (-e).toNat
  let D : Nat := if 0 ≤ e then d * 2 ^ e.toNat else d
  let fl := N / D
  let rem := N % D
  let m : Nat :=
    if 2 * rem < D then fl
    else if D < 2 * rem then fl + 1
    else if fl % 2 = 0 then fl else fl + 1
  let mag : ℚ := if 0 ≤ e then ((m * 2 ^ e.toNat : Nat) : ℚ)
    else mkRat m (2 ^ (-e).toNat)
  if n < 0 then -mag else mag

/-- IEEE-754 binary64 addition on (already representable) rationals:
the exact sum, rounded. -/
def fadd (x y : ℚ) : ℚ :=
  froundPair (x.num * (y.den : Int) + y.num * (x.den : Int)) (x.den * y.den)

/-- IEEE-754 binary64 subtraction on (already representable) rationals:
the exact difference, rounded. -/
def fsub (x y : ℚ) : ℚ :=
  froundPair (x.num * (y.den : Int) - y.num * (x.den : Int)) (x.den * y.den)

/-- The new raw ratio of a solder-paste state transition: OFF→ON restores
the inherited marker or subtracts the fixed offset, ON→OFF sets the
inherited-off marker or adds it; any other old band raises the uncaught
`ValueError`. In the two ratio bands the old ratio is always a number, and
the offset arithmetic is the rounding binary64 addition of the source. -/
def paste_transition (new_state : Bool) (old_pratio : Option ℚ) :
    Except PasteErr (Option ℚ) :=
  if new_state then
    match paste_mode_from_ratio old_pratio with
    | .offWasInherit => .ok none
    | .offWasRatio => .ok (old_pratio.map (fun q => fsub q PasteRatio.OFFSET))
    | m => .error (PasteErr.offToOn m)
  else
    match paste_mode_from_ratio old_pratio with
    | .onIsInherit => .ok (some PasteRatio.INHERIT)
    | .onWithRatio => .ok (old_pratio.map (fun q => fadd q PasteRatio.OFFSET))
    | m => .error (PasteErr.onToOff m)

/-- One iteration of the property loop of `apply_selection` for the key
`prop_id`: compare the choice's state with the live state, compute the new
paste ratio for the solder property (raising on an unexpected band), record
the change and, unless a dry run, commit the new state. The direct Python
index into the choice's property dict is total after finalization and is
modelled with the unspecified default. -/
def applyPropStep (dry_run : Bool) (uuid ref aspect choice : String)
    (centry : ChoiceEntry) (acc : List Change × FpState) (prop_id : String) :
    Except PasteErr (List Change × FpState) :=
  let changes := acc.1
  let fp := acc.2
  match prop_state centry.props prop_id with
  | none => .ok (changes, fp)
  | some new_state =>
    match prop_state fp.props prop_id with
    | none => .ok (changes, fp)
    | some old_state =>
      if new_state ≠ old_state then
        if prop_id = solderId then
          let old_pratio := fp.pratio
          match paste_transition new_state old_pratio with
          | .error e => .error e
          | .ok new_pratio =>
            -- both state texts are always set on this path
            .ok (changes ++ [⟨uuid, ref,
                .prop prop_id (.pasteText old_pratio) (.pasteText new_pratio),
                aspect, choice⟩],
              if dry_run then fp
              else { fp with props := aset fp.props prop_id (some new_state),
                             pratio := new_pratio })
        else
          .ok (changes ++ [⟨uuid, ref,
              .prop prop_id
                (.boolText (convert_attrib_prop_state prop_id old_state))
                (.boolText (convert_attrib_prop_state prop_id new_state)),
              aspect, choice⟩],
            if dry_run then fp
            else { fp with props := aset fp.props prop_id (some new_state) })
      else .ok (changes, fp)

/-- The property loop of `apply_selection` over the snapshot's property
keys; an uncaught `ValueError` aborts it. -/
def applyPropsLoop (dry_run : Bool) (uuid ref aspect choice : String)
    (centry : ChoiceEntry) : List String → (List Change × FpState) →
    Except PasteErr (List Change × FpState)
  | [], acc => .ok acc
  | k :: ks, acc =>
    match applyPropStep dry_run uuid ref aspect choice centry acc k with
    | .error e => .error e
    | .ok acc' => applyPropsLoop dry_run uuid ref aspect choice centry ks acc'

/-- One iteration of the field loop of `apply_selection`: compare the
choice's field expectation with the live field text and record/commit. -/
def applyFieldStep (dry_run : Bool) (uuid ref aspect choice : String)
    (acc : List Change × FpState) (fb : String × Branch) :
    List Change × FpState :=
  match ((alookup fb.2 choice).getD ⟨none, []⟩).value with
  | none => acc
  | some new_field_value =>
    let old_field_value := (alookup acc.2.fields fb.1).getD ""
    if old_field_value ≠ new_field_value then
      (acc.1 ++ [⟨uuid, ref, .fld fb.1 old_field_value new_field_value,
          aspect, choice⟩],
        if dry_run then acc.2
        else { acc.2 with fields := aset acc.2.fields fb.1 new_field_value })
    else acc

/-- The value comparison of one component of `apply_selection`: when the
choice specifies a value different from the live one, record the change
and, unless a dry run, commit it. -/
def applyValueStep (dry_run : Bool) (uuid : String) (vc : VarComp)
    (choice : String) (centry : ChoiceEntry) (fp : FpState) :
    List Change × FpState :=
  match centry.value with
  | none => ([], fp)
  | some new_value =>
    if fp.value ≠ new_value then
      ([⟨uuid, fp.ref, .value fp.value new_value, vc.aspect, choice⟩],
        if dry_run then fp else { fp with value := new_value })
    else ([], fp)

/-- Processing of one component of `apply_selection` under a selected
choice: the value comparison, then the property loop over the snapshot's
property keys, then the field loop. -/
def applyComp (dry_run : Bool) (uuid : String) (vc : VarComp)
    (choice : String) (fp : FpState) :
    Except PasteErr (List Change × FpState) :=
  let ref := fp.ref
  let centry := (alookup vc.cmp choice).getD ⟨none, []⟩
  let acc := applyValueStep dry_run uuid vc choice centry fp
  match applyPropsLoop dry_run uuid ref vc.aspect choice centry
      (acc.2.props.map Prod.fst) acc with
  | .error e => .error e
  | .ok acc' => .ok (vc.fld.foldl
      (applyFieldStep dry_run uuid ref vc.aspect choice) acc')

/-- The component walk of `apply_selection`: skip components whose aspect is
absent from or unresolved in the selection; otherwise process the component
and, unless a dry run, write the mutated snapshot entry back. -/
def applyLoop (selection : List (String × Option String)) (dry_run : Bool) :
    Vardict → (List Change × Fpdict) → Except PasteErr (List Change × Fpdict)
  | [], acc => .ok acc
  | u :: vd, acc =>
    match alookup selection u.2.aspect with
    | none => applyLoop selection dry_run vd acc
    | some none => applyLoop selection dry_run vd acc
    | some (some selected_choice) =>
      match applyComp dry_run u.1 u.2 selected_choice
          ((alookup acc.2 u.1).getD fpMissing) with
      | .error e => .error e
      | .ok (nc, fp) =>
        applyLoop selection dry_run vd
          (acc.1 ++ nc, if dry_run then acc.2 else aset acc.2 u.1 fp)

/-- `apply_selection`: walk the model's components, applying each aspect's
selected choice to the snapshot, and return the accumulated change records;
in a dry run nothing is written back. -/
def apply_selection (fpdict : Fpdict) (vardict : Vardict)
    (selection : List (String × Option String)) (dry_run : Bool) :
    Except PasteErr (List Change × Fpdict) :=
  applyLoop selection dry_run vardict ([], fpdict)

instance exceptDecEq {ε α : Type} [DecidableEq ε] [DecidableEq α] :
    DecidableEq (Except ε α) := fun x y =>
  match x, y with
  | .error a, .error b =>
    if h : a = b then .isTrue (h ▸ rfl)
    else .isFalse (fun hc => h (Except.error.inj hc))
  | .error _, .ok _ => .isFalse (fun hc => Except.noConfusion hc)
  | .ok _, .error _ => .isFalse (fun hc => Except.noConfusion hc)
  | .ok a, .ok b =>
    if h : a = b then .isTrue (h ▸ rfl)
    else .isFalse (fun hc => h (Except.ok.inj hc))

theorem paste_mode_on_band (q : ℚ)
    (h1 : -PasteRatio.TOLERANCE ≤ q) (h2 : q ≤ PasteRatio.TOLERANCE) :
    paste_mode_from_ratio (some q) = PasteMode.onWithRatio := by
  simp only [paste_mode_from_ratio]
  rw [if_pos ⟨h2, h1⟩]

theorem paste_mode_inherit_band (q : ℚ)
    (h1 : PasteRatio.INHERIT - PasteRatio.INHERIT_EPS ≤ q)
    (h2 : q ≤ PasteRatio.INHERIT + PasteRatio.INHERIT_EPS) :
    paste_mode_from_ratio (some q) = PasteMode.offWasInherit := by
  simp only [paste_mode_from_ratio, PasteRatio.TOLERANCE, PasteRatio.INHERIT,
    PasteRatio.INHERIT_EPS] at h1 h2 ⊢
  have hn1 : ¬(q ≤ (100:ℚ) ∧ -(100:ℚ) ≤ q) := fun hc => by
    have := hc.2
    linarith
  rw [if_neg hn1, if_pos ⟨h2, h1⟩]

theorem paste_mode_offset_band (q : ℚ)
    (h1 : PasteRatio.OFFSET - PasteRatio.TOLERANCE ≤ q)
    (h2 : q ≤ PasteRatio.OFFSET + PasteRatio.TOLERANCE) :
    paste_mode_from_ratio (some q) = PasteMode.offWasRatio := by
  simp only [paste_mode_from_ratio, PasteRatio.TOLERANCE, PasteRatio.INHERIT,
    PasteRatio.INHERIT_EPS, PasteRatio.OFFSET] at h1 h2 ⊢
  have hn1 : ¬(q ≤ (100:ℚ) ∧ -(100:ℚ) ≤ q) := fun hc => by
    have := hc.2
    linarith
  have hn2 : ¬(q ≤ (-42420:ℚ) + 1/10 ∧ (-42420:ℚ) - 1/10 ≤ q) := fun hc => by
    have := hc.1
    linarith
  rw [if_neg hn1, if_neg hn2, if_pos ⟨h2, h1⟩]

/-- **C1 (amended).** Solder-paste toggling inverts the band classification
up to binary64 rounding: for a one-component model whose raw ratio `p` lies
in the inherited-OFF band, applying the ON choice sets the raw ratio to
`none` with exactly one change record, and immediately re-applying the same
selection yields zero changes; for a component whose ON state stores ratio
`r` (within the ±`TOLERANCE` band around 0), applying the OFF choice adds
the fixed offset with rounding binary64 addition, and applying the ON
choice afterwards subtracts it the same way — recovering `r` exactly when
(and only when) the rounded round trip `fsub (fadd r OFFSET) OFFSET`
happens to give back `r`, which the hypotheses `hmid` and `hrt` record.
The companion counterexample shows the round trip failing for the binary64
value of `0.1`, refuting the unconditional claim. -/
theorem apply_selection_paste_roundtrip (p r : ℚ)
    (hp : PasteRatio.INHERIT - PasteRatio.INHERIT_EPS ≤ p ∧
      p ≤ PasteRatio.INHERIT + PasteRatio.INHERIT_EPS)
    (hr : -PasteRatio.TOLERANCE ≤ r ∧ r ≤ PasteRatio.TOLERANCE)
    (hmid : PasteRatio.OFFSET - PasteRatio.TOLERANCE ≤ fadd r PasteRatio.OFFSET ∧
      fadd r PasteRatio.OFFSET ≤ PasteRatio.OFFSET + PasteRatio.TOLERANCE)
    (hrt : fsub (fadd r PasteRatio.OFFSET) PasteRatio.OFFSET = r) :
    (apply_selection
        [("u", ⟨"R1", "V", [], [(solderId, some false)], some p⟩)]
        [("u", ⟨"A", [("on", ⟨none, [(solderId, some true)]⟩)], []⟩)]
        [("A", some "on")] false =
      .ok ([⟨"u", "R1", .prop solderId (.pasteText (some p)) (.pasteText none),
          "A", "on"⟩],
        [("u", ⟨"R1", "V", [], [(solderId, some true)], none⟩)]) ∧
     apply_selection
        [("u", ⟨"R1", "V", [], [(solderId, some true)], none⟩)]
        [("u", ⟨"A", [("on", ⟨none, [(solderId, some true)]⟩)], []⟩)]
        [("A", some "on")] false =
      .ok ([], [("u", ⟨"R1", "V", [], [(solderId, some true)], none⟩)])) ∧
    (apply_selection
        [("u", ⟨"R1", "V", [], [(solderId, some true)], some r⟩)]
        [("u", ⟨"A", [("on", ⟨none, [(solderId, some true)]⟩),
            ("off", ⟨none, [(solderId, some false)]⟩)], []⟩)]
        [("A", some "off")] false =
      .ok ([⟨"u", "R1", .prop solderId (.pasteText (some r))
            (.pasteText (some (fadd r PasteRatio.OFFSET))), "A", "off"⟩],
        [("u", ⟨"R1", "V", [], [(solderId, some false)],
          some (fadd r PasteRatio.OFFSET)⟩)]) ∧
     apply_selection
        [("u", ⟨"R1", "V", [], [(solderId, some false)],
          some (fadd r PasteRatio.OFFSET)⟩)]
        [("u", ⟨"A", [("on", ⟨none, [(solderId, some true)]⟩),
            ("off", ⟨none, [(solderId, some false)]⟩)], []⟩)]
        [("A", some "on")] false =
      .ok ([⟨"u", "R1", .prop solderId
            (.pasteText (some (fadd r PasteRatio.OFFSET))) (.pasteText (some r)),
            "A", "on"⟩],
        [("u", ⟨"R1", "V", [], [(solderId, some true)], some r⟩)])) := by
  have hmp := paste_mode_inherit_band p hp.1 hp.2
  have hmr := paste_mode_on_band r hr.1 hr.2
  have hmo := paste_mode_offset_band (fadd r PasteRatio.OFFSET) hmid.1 hmid.2
  refine ⟨⟨?_, ?_⟩, ?_, ?_⟩
  · simp only [apply_selection, applyLoop, applyComp, applyPropsLoop,
      applyValueStep, applyPropStep, paste_transition, applyFieldStep,
      alookup, aset, prop_state, solderId,
      fpMissing, hmp, String.reduceEq, Char.reduceEq, reduceCtorEq, reduceIte,
      Option.getD_some, Option.getD_none, Option.map_some', Option.map_none',
      List.map_cons, List.map_nil, List.foldl_cons, List.foldl_nil, if_true,
      if_false, ne_eq, Bool.false_eq_true, Bool.true_eq_false, not_false_iff,
      not_true, decide_True, decide_False, List.nil_append, List.append_nil,
      hrt]
  · rfl
  · simp only [apply_selection, applyLoop, applyComp, applyPropsLoop,
      applyValueStep, applyPropStep, paste_transition, applyFieldStep,
      alookup, aset, prop_state, solderId,
      fpMissing, hmr, String.reduceEq, Char.reduceEq, reduceCtorEq, reduceIte,
      Option.getD_some, Option.getD_none, Option.map_some', Option.map_none',
      List.map_cons, List.map_nil, List.foldl_cons, List.foldl_nil, if_true,
      if_false, ne_eq, Bool.false_eq_true, Bool.true_eq_false, not_false_iff,
      not_true, decide_True, decide_False, List.nil_append, List.append_nil,
      hrt]
  · simp only [apply_selection, applyLoop, applyComp, applyPropsLoop,
      applyValueStep, applyPropStep, paste_transition, applyFieldStep,
      alookup, aset, prop_state, solderId,
      fpMissing, hmo, String.reduceEq, Char.reduceEq, reduceCtorEq, reduceIte,
      Option.getD_some, Option.getD_none, Option.map_some', Option.map_none',
      List.map_cons, List.map_nil, List.foldl_cons, List.foldl_nil, if_true,
      if_false, ne_eq, Bool.false_eq_true, Bool.true_eq_false, not_false_iff,
      not_true, decide_True, decide_False, List.nil_append, List.append_nil,
      hrt]

/-- Witness for C1 at `p = INHERIT` and `r = 1/2`: the band hypotheses
hold, the dyadic `1/2` survives the rounded round trip exactly, and the
round-trip conclusion follows. -/
theorem apply_selection_paste_roundtrip_witness :
    (PasteRatio.INHERIT - PasteRatio.INHERIT_EPS ≤ PasteRatio.INHERIT ∧
      PasteRatio.INHERIT ≤ PasteRatio.INHERIT + PasteRatio.INHERIT_EPS) ∧
    (-PasteRatio.TOLERANCE ≤ mkRat 1 2 ∧ mkRat 1 2 ≤ PasteRatio.TOLERANCE) ∧
    (PasteRatio.OFFSET - PasteRatio.TOLERANCE ≤
        fadd (mkRat 1 2) PasteRatio.OFFSET ∧
      fadd (mkRat 1 2) PasteRatio.OFFSET ≤
        PasteRatio.OFFSET + PasteRatio.TOLERANCE) ∧
    fsub (fadd (mkRat 1 2) PasteRatio.OFFSET) PasteRatio.OFFSET = mkRat 1 2 ∧
    (apply_selection
        [("u", ⟨"R1", "V", [], [(solderId, some false)],
          some PasteRatio.INHERIT⟩)]
        [("u", ⟨"A", [("on", ⟨none, [(solderId, some true)]⟩)], []⟩)]
        [("A", some "on")] false =
      .ok ([⟨"u", "R1", .prop solderId
          (.pasteText (some PasteRatio.INHERIT)) (.pasteText none),
          "A", "on"⟩],
        [("u", ⟨"R1", "V", [], [(solderId, some true)], none⟩)])) ∧
    (apply_selection
        [("u", ⟨"R1", "V", [], [(solderId, some false)],
          some (fadd (mkRat 1 2) PasteRatio.OFFSET)⟩)]
        [("u", ⟨"A", [("on", ⟨none, [(solderId, some true)]⟩),
            ("off", ⟨none, [(solderId, some false)]⟩)], []⟩)]
        [("A", some "on")] false =
      .ok ([⟨"u", "R1", .prop solderId
            (.pasteText (some (fadd (mkRat 1 2) PasteRatio.OFFSET)))
            (.pasteText (some (mkRat 1 2))), "A", "on"⟩],
        [("u", ⟨"R1", "V", [], [(solderId, some true)],
          some (mkRat 1 2)⟩)])) := by
  have h1 : PasteRatio.INHERIT - PasteRatio.INHERIT_EPS ≤ PasteRatio.INHERIT ∧
      PasteRatio.INHERIT ≤ PasteRatio.INHERIT + PasteRatio.INHERIT_EPS := by
    constructor <;> · simp only [PasteRatio.INHERIT, PasteRatio.INHERIT_EPS]; linarith
  have h2 : -PasteRatio.TOLERANCE ≤ mkRat 1 2 ∧
      mkRat 1 2 ≤ PasteRatio.TOLERANCE := by
    constructor <;> decide
  have hm : fadd (mkRat 1 2) PasteRatio.OFFSET = mkRat (-83999) 2 := by decide
  have h3 : PasteRatio.OFFSET - PasteRatio.TOLERANCE ≤
      fadd (mkRat 1 2) PasteRatio.OFFSET ∧
      fadd (mkRat 1 2) PasteRatio.OFFSET ≤
      PasteRatio.OFFSET + PasteRatio.TOLERANCE := by
    rw [hm, Rat.mkRat_eq_div]
    constructor <;> · simp only [PasteRatio.OFFSET, PasteRatio.TOLERANCE]; norm_num
  have h4 : fsub (fadd (mkRat 1 2) PasteRatio.OFFSET) PasteRatio.OFFSET =
      mkRat 1 2 := by decide
  have h := apply_selection_paste_roundtrip PasteRatio.INHERIT (mkRat 1 2) h1 h2 h3 h4
  exact ⟨h1, h2, h3, h4, h.1.1, h.2.2⟩

/-- C1 counterexample to the unamended claim: for the binary64 value of
`0.1` (exactly `3602879701896397 / 2^55`) toggling OFF stores
`0.1 - 42000.0 = -5772422301928653 / 2^37`, and toggling back ON yields
`13743895347 / 2^37 = 0.09999999999854481…`, which is **not** the original
ratio — the rounding of the two binary64 additions loses the low bits, so
exact round-trip recovery fails in the program. -/
theorem apply_selection_paste_drift :
    apply_selection
        [("u", ⟨"R1", "V", [], [(solderId, some true)],
          some (mkRat 3602879701896397 36028797018963968)⟩)]
        [("u", ⟨"A", [("on", ⟨none, [(solderId, some true)]⟩),
            ("off", ⟨none, [(solderId, some false)]⟩)], []⟩)]
        [("A", some "off")] false =
      .ok ([⟨"u", "R1", .prop solderId
            (.pasteText (some (mkRat 3602879701896397 36028797018963968)))
            (.pasteText (some (mkRat (-5772422301928653) 137438953472))),
            "A", "off"⟩],
        [("u", ⟨"R1", "V", [], [(solderId, some false)],
          some (mkRat (-5772422301928653) 137438953472)⟩)]) ∧
    apply_selection
        [("u", ⟨"R1", "V", [], [(solderId, some false)],
          some (mkRat (-5772422301928653) 137438953472)⟩)]
        [("u", ⟨"A", [("on", ⟨none, [(solderId, some true)]⟩),
            ("off", ⟨none, [(solderId, some false)]⟩)], []⟩)]
        [("A", some "on")] false =
      .ok ([⟨"u", "R1", .prop solderId
            (.pasteText (some (mkRat (-5772422301928653) 137438953472)))
            (.pasteText (some (mkRat 13743895347 137438953472))),
            "A", "on"⟩],
        [("u", ⟨"R1", "V", [], [(solderId, some true)],
          some (mkRat 13743895347 137438953472)⟩)]) ∧
    mkRat 13743895347 137438953472 ≠ mkRat 3602879701896397 36028797018963968 := by
  refine ⟨by decide, ?_, by decide⟩
  have hb1 : PasteRatio.OFFSET - PasteRatio.TOLERANCE ≤
      mkRat (-5772422301928653) 137438953472 := by
    rw [Rat.mkRat_eq_div]
    simp only [PasteRatio.OFFSET, PasteRatio.TOLERANCE]
    norm_num
  have hb2 : mkRat (-5772422301928653) 137438953472 ≤
      PasteRatio.OFFSET + PasteRatio.TOLERANCE := by
    rw [Rat.mkRat_eq_div]
    simp only [PasteRatio.OFFSET, PasteRatio.TOLERANCE]
    norm_num
  have hmo := paste_mode_offset_band (mkRat (-5772422301928653) 137438953472) hb1 hb2
  have hfs : fsub (mkRat (-5772422301928653) 137438953472) PasteRatio.OFFSET =
      mkRat 13743895347 137438953472 := by decide
  simp only [apply_selection, applyLoop, applyComp, applyPropsLoop,
    applyValueStep, applyPropStep, paste_transition, applyFieldStep,
    alookup, aset, prop_state, solderId,
    fpMissing, hmo, String.reduceEq, Char.reduceEq, reduceCtorEq, reduceIte,
    Option.getD_some, Option.getD_none, Option.map_some', Option.map_none',
    List.map_cons, List.map_nil, List.foldl_cons, List.foldl_nil, if_true,
    if_false, ne_eq, Bool.false_eq_true, Bool.true_eq_false, not_false_iff,
    not_true, decide_True, decide_False, List.nil_append, List.append_nil,
    hfs]

theorem prop_state_aset_ne (ps : PropMap) (k k' : String) (v : Option Bool)
    (h : k ≠ k') : prop_state (aset ps k v) k' = prop_state ps k' := by
  simp only [prop_state]
  rw [alookup_aset_ne ps k k' v h]

theorem applyPropStep_skip_new (dr : Bool) (u r a c : String)
    (centry : ChoiceEntry) (cs : List Change) (fp : FpState) (k : String)
    (h : prop_state centry.props k = none) :
    applyPropStep dr u r a c centry (cs, fp) k = .ok (cs, fp) := by
  simp only [applyPropStep, h, Prod.mk.eta]

theorem applyPropStep_skip_old (dr : Bool) (u r a c : String)
    (centry : ChoiceEntry) (cs : List Change) (fp : FpState) (k : String)
    (ns : Bool) (h1 : prop_state centry.props k = some ns)
    (h2 : prop_state fp.props k = none) :
    applyPropStep dr u r a c centry (cs, fp) k = .ok (cs, fp) := by
  simp only [applyPropStep, h1, h2, Prod.mk.eta]

theorem applyPropStep_skip_eq (dr : Bool) (u r a c : String)
    (centry : ChoiceEntry) (cs : List Change) (fp : FpState) (k : String)
    (ns : Bool) (h1 : prop_state centry.props k = some ns)
    (h2 : prop_state fp.props k = some ns) :
    applyPropStep dr u r a c centry (cs, fp) k = .ok (cs, fp) := by
  simp only [applyPropStep, h1, h2, Prod.mk.eta]
  rw [if_neg (not_not_intro rfl)]

theorem applyPropStep_attrib (dr : Bool) (u r a c : String)
    (centry : ChoiceEntry) (cs : List Change) (fp : FpState) (k : String)
    (ns os : Bool) (h1 : prop_state centry.props k = some ns)
    (h2 : prop_state fp.props k = some os)
    (h3 : ns ≠ os) (h4 : k ≠ solderId) :
    applyPropStep dr u r a c centry (cs, fp) k =
      .ok (cs ++ [⟨u, r, .prop k
          (.boolText (convert_attrib_prop_state k os))
          (.boolText (convert_attrib_prop_state k ns)), a, c⟩],
        if dr then fp
        else { fp with props := aset fp.props k (some ns) }) := by
  simp only [applyPropStep, h1, h2]
  rw [if_pos h3, if_neg h4]

theorem applyPropStep_solder_err (dr : Bool) (u r a c : String)
    (centry : ChoiceEntry) (cs : List Change) (fp : FpState)
    (ns os : Bool) (e : PasteErr)
    (h1 : prop_state centry.props solderId = some ns)
    (h2 : prop_state fp.props solderId = some os)
    (h3 : ns ≠ os) (h4 : paste_transition ns fp.pratio = .error e) :
    applyPropStep dr u r a c centry (cs, fp) solderId = .error e := by
  simp only [applyPropStep, h1, h2]
  rw [if_pos h3, if_pos True.intro, h4]

theorem applyPropStep_solder_ok (dr : Bool) (u r a c : String)
    (centry : ChoiceEntry) (cs : List Change) (fp : FpState)
    (ns os : Bool) (np : Option ℚ)
    (h1 : prop_state centry.props solderId = some ns)
    (h2 : prop_state fp.props solderId = some os)
    (h3 : ns ≠ os) (h4 : paste_transition ns fp.pratio = .ok np) :
    applyPropStep dr u r a c centry (cs, fp) solderId =
      .ok (cs ++ [⟨u, r, .prop solderId (.pasteText fp.pratio)
          (.pasteText np), a, c⟩],
        if dr then fp
        else { fp with
               props := aset fp.props solderId (some ns),
               pratio := np }) := by
  simp only [applyPropStep, h1, h2]
  rw [if_pos h3, if_pos True.intro, h4]

theorem applyPropStep_fields (dr : Bool) (u r a c : String)
    (centry : ChoiceEntry) (acc : List Change × FpState) (k : String)
    (acc' : List Change × FpState)
    (h : applyPropStep dr u r a c centry acc k = .ok acc') :
    acc'.2.fields = acc.2.fields := by
  obtain ⟨cs0, fp0⟩ := acc
  cases hn : prop_state centry.props k with
  | none =>
    rw [applyPropStep_skip_new dr u r a c centry cs0 fp0 k hn] at h
    cases h
    rfl
  | some ns =>
    cases ho : prop_state fp0.props k with
    | none =>
      rw [applyPropStep_skip_old dr u r a c centry cs0 fp0 k ns hn ho] at h
      cases h
      rfl
    | some os =>
      by_cases heq : ns = os
      · subst heq
        rw [applyPropStep_skip_eq dr u r a c centry cs0 fp0 k ns hn ho] at h
        cases h
        rfl
      · by_cases hk : k = solderId
        · subst hk
          cases hpt : paste_transition ns fp0.pratio with
          | error e =>
            rw [applyPropStep_solder_err dr u r a c centry cs0 fp0 ns os e
              hn ho heq hpt] at h
            cases h
          | ok np =>
            rw [applyPropStep_solder_ok dr u r a c centry cs0 fp0 ns os np
              hn ho heq hpt] at h
            cases h
            cases dr
            · rfl
            · rfl
        · rw [applyPropStep_attrib dr u r a c centry cs0 fp0 k ns os
            hn ho heq hk] at h
          cases h
          cases dr
          · rfl
          · rfl

theorem applyPropsLoop_ok_fields (dr : Bool) (u r a c : String)
    (centry : ChoiceEntry) :
    ∀ (ks : List String) (acc accW : List Change × FpState),
      applyPropsLoop dr u r a c centry ks acc = .ok accW →
      accW.2.fields = acc.2.fields := by
  intro ks
  induction ks with
  | nil =>
    intro acc accW h
    cases h
    rfl
  | cons k ks ih =>
    intro acc accW h
    simp only [applyPropsLoop] at h
    cases hstep : applyPropStep dr u r a c centry acc k with
    | error e =>
      rw [hstep] at h
      have h' : (Except.error e : Except PasteErr (List Change × FpState)) =
          .ok accW := h
      cases h'
    | ok acc1 =>
      rw [hstep] at h
      have h' : applyPropsLoop dr u r a c centry ks acc1 = .ok accW := h
      exact (ih acc1 accW h').trans
        (applyPropStep_fields dr u r a c centry acc k acc1 hstep)

theorem applyFieldStep_none (dr : Bool) (u r a c : String)
    (cs : List Change) (fp : FpState) (fb : String × Branch)
    (h : ((alookup fb.2 c).getD ⟨none, []⟩).value = none) :
    applyFieldStep dr u r a c (cs, fp) fb = (cs, fp) := by
  simp only [applyFieldStep, h]

theorem applyFieldStep_some_ne (dr : Bool) (u r a c : String)
    (cs : List Change) (fp : FpState) (fb : String × Branch) (nv : String)
    (h : ((alookup fb.2 c).getD ⟨none, []⟩).value = some nv)
    (hne : (alookup fp.fields fb.1).getD "" ≠ nv) :
    applyFieldStep dr u r a c (cs, fp) fb =
      (cs ++ [⟨u, r, .fld fb.1 ((alookup fp.fields fb.1).getD "") nv, a, c⟩],
        if dr then fp
        else { fp with fields := aset fp.fields fb.1 nv }) := by
  simp only [applyFieldStep, h]
  rw [if_pos hne]

theorem applyFieldStep_some_eq (dr : Bool) (u r a c : String)
    (cs : List Change) (fp : FpState) (fb : String × Branch) (nv : String)
    (h : ((alookup fb.2 c).getD ⟨none, []⟩).value = some nv)
    (hne : ¬(alookup fp.fields fb.1).getD "" ≠ nv) :
    applyFieldStep dr u r a c (cs, fp) fb = (cs, fp) := by
  simp only [applyFieldStep, h]
  rw [if_neg hne]

theorem fieldsFold_dry (u r a c : String) :
    ∀ (flds : List (String × Branch)), (flds.map Prod.fst).Nodup →
    ∀ (cs : List Change) (fpW fpD : FpState),
      (∀ fb ∈ flds, alookup fpW.fields fb.1 = alookup fpD.fields fb.1) →
      flds.foldl (applyFieldStep true u r a c) (cs, fpD) =
        ((flds.foldl (applyFieldStep false u r a c) (cs, fpW)).1, fpD) := by
  intro flds
  induction flds with
  | nil => intro _ cs fpW fpD _; rfl
  | cons fb flds ih =>
    intro hnd cs fpW fpD hag
    rw [List.map_cons, List.nodup_cons] at hnd
    have hagf : alookup fpW.fields fb.1 = alookup fpD.fields fb.1 :=
      hag fb (List.mem_cons_self fb flds)
    have htail : ∀ fb' ∈ flds,
        alookup fpW.fields fb'.1 = alookup fpD.fields fb'.1 :=
      fun fb' hfb' => hag fb' (List.mem_cons_of_mem fb hfb')
    rw [List.foldl_cons, List.foldl_cons]
    cases hv : ((alookup fb.2 c).getD ⟨none, []⟩).value with
    | none =>
      rw [applyFieldStep_none true u r a c cs fpD fb hv,
        applyFieldStep_none false u r a c cs fpW fb hv]
      exact ih hnd.2 cs fpW fpD htail
    | some nv =>
      by_cases hne : (alookup fpD.fields fb.1).getD "" ≠ nv
      · rw [applyFieldStep_some_ne true u r a c cs fpD fb nv hv hne,
          applyFieldStep_some_ne false u r a c cs fpW fb nv hv
            (show (alookup fpW.fields fb.1).getD "" ≠ nv by
              rw [hagf]; exact hne),
          hagf]
        refine ih hnd.2 _ _ fpD ?_
        intro fb' hfb'
        have hne' : fb.1 ≠ fb'.1 := fun he =>
          hnd.1 (by rw [he]; exact mem_map_fst flds fb' hfb')
        exact (alookup_aset_ne fpW.fields fb.1 fb'.1 nv hne').trans
          (htail fb' hfb')
      · rw [applyFieldStep_some_eq true u r a c cs fpD fb nv hv hne,
          applyFieldStep_some_eq false u r a c cs fpW fb nv hv
            (show ¬(alookup fpW.fields fb.1).getD "" ≠ nv by
              rw [hagf]; exact hne)]
        exact ih hnd.2 cs fpW fpD htail

theorem applyPropsLoop_dry (u r a c : String) (centry : ChoiceEntry) :
    ∀ (ks : List String), ks.Nodup →
    ∀ (cs : List Change) (fpW fpD : FpState),
      (∀ k ∈ ks, prop_state fpW.props k = prop_state fpD.props k) →
      (solderId ∈ ks → fpW.pratio = fpD.pratio) →
      applyPropsLoop true u r a c centry ks (cs, fpD) =
        (applyPropsLoop false u r a c centry ks (cs, fpW)).map
          (fun x => (x.1, fpD)) := by
  intro ks
  induction ks with
  | nil => intro _ cs fpW fpD _ _; rfl
  | cons k ks ih =>
    intro hnd cs fpW fpD hps hpra
    rw [List.nodup_cons] at hnd
    have hpsk : prop_state fpW.props k = prop_state fpD.props k :=
      hps k (List.mem_cons_self k ks)
    have htail : ∀ k' ∈ ks,
        prop_state fpW.props k' = prop_state fpD.props k' :=
      fun k' hk' => hps k' (List.mem_cons_of_mem k hk')
    have hptail : solderId ∈ ks → fpW.pratio = fpD.pratio :=
      fun hs => hpra (List.mem_cons_of_mem k hs)
    simp only [applyPropsLoop]
    cases hn : prop_state centry.props k with
    | none =>
      rw [applyPropStep_skip_new true u r a c centry cs fpD k hn,
        applyPropStep_skip_new false u r a c centry cs fpW k hn]
      exact ih hnd.2 cs fpW fpD htail hptail
    | some ns =>
      cases ho : prop_state fpD.props k with
      | none =>
        rw [applyPropStep_skip_old true u r a c centry cs fpD k ns hn ho,
          applyPropStep_skip_old false u r a c centry cs fpW k ns hn
            (hpsk.trans ho)]
        exact ih hnd.2 cs fpW fpD htail hptail
      | some os =>
        by_cases heq : ns = os
        · subst heq
          rw [applyPropStep_skip_eq true u r a c centry cs fpD k ns hn ho,
            applyPropStep_skip_eq false u r a c centry cs fpW k ns hn
              (hpsk.trans ho)]
          exact ih hnd.2 cs fpW fpD htail hptail
        · by_cases hk : k = solderId
          · subst hk
            have hpq : fpW.pratio = fpD.pratio :=
              hpra (List.mem_cons_self solderId ks)
            cases hpt : paste_transition ns fpD.pratio with
            | error e =>
              rw [applyPropStep_solder_err true u r a c centry cs fpD
                  ns os e hn ho heq hpt,
                applyPropStep_solder_err false u r a c centry cs fpW
                  ns os e hn (hpsk.trans ho) heq
                  (show paste_transition ns fpW.pratio = .error e by
                    rw [hpq]; exact hpt)]
              rfl
            | ok np =>
              rw [applyPropStep_solder_ok true u r a c centry cs fpD
                  ns os np hn ho heq hpt,
                applyPropStep_solder_ok false u r a c centry cs fpW
                  ns os np hn (hpsk.trans ho) heq
                  (show paste_transition ns fpW.pratio = .ok np by
                    rw [hpq]; exact hpt)]
              rw [hpq]
              refine ih hnd.2 _ _ fpD ?_ ?_
              · intro k' hk'
                have hne' : solderId ≠ k' := fun he =>
                  hnd.1 (by rw [he]; exact hk')
                exact (prop_state_aset_ne fpW.props solderId k' (some ns)
                  hne').trans (htail k' hk')
              · intro hs
                exact absurd hs hnd.1
          · rw [applyPropStep_attrib true u r a c centry cs fpD k ns os
                hn ho heq hk,
              applyPropStep_attrib false u r a c centry cs fpW k ns os
                hn (hpsk.trans ho) heq hk]
            refine ih hnd.2 _ _ fpD ?_ ?_
            · intro k' hk'
              have hne' : k ≠ k' := fun he =>
                hnd.1 (by rw [he]; exact hk')
              exact (prop_state_aset_ne fpW.props k k' (some ns)
                hne').trans (htail k' hk')
            · intro hs
              exact hptail hs

theorem applyValueStep_none (dr : Bool) (u : String) (vc : VarComp)
    (c : String) (centry : ChoiceEntry) (fp : FpState)
    (h : centry.value = none) :
    applyValueStep dr u vc c centry fp = ([], fp) := by
  simp only [applyValueStep, h]

theorem applyValueStep_ne (dr : Bool) (u : String) (vc : VarComp)
    (c : String) (centry : ChoiceEntry) (fp : FpState) (nv : String)
    (h : centry.value = some nv) (hne : fp.value ≠ nv) :
    applyValueStep dr u vc c centry fp =
      ([⟨u, fp.ref, .value fp.value nv, vc.aspect, c⟩],
        if dr then fp else { fp with value := nv }) := by
  simp only [applyValueStep, h]
  rw [if_pos hne]

theorem applyValueStep_eq (dr : Bool) (u : String) (vc : VarComp)
    (c : String) (centry : ChoiceEntry) (fp : FpState) (nv : String)
    (h : centry.value = some nv) (hne : ¬fp.value ≠ nv) :
    applyValueStep dr u vc c centry fp = ([], fp) := by
  simp only [applyValueStep, h]
  rw [if_neg hne]

theorem applyComp_dry (uuid : String) (vc : VarComp) (choice : String)
    (fp : FpState) (hpr : (fp.props.map Prod.fst).Nodup)
    (hfl : (vc.fld.map Prod.fst).Nodup) :
    applyComp true uuid vc choice fp =
      (applyComp false uuid vc choice fp).map (fun x => (x.1, fp)) := by
  have core : ∀ (cs₀ : List Change) (fpW₀ : FpState),
      fpW₀.props = fp.props → fpW₀.pratio = fp.pratio →
      fpW₀.fields = fp.fields →
      (match applyPropsLoop true uuid fp.ref vc.aspect choice
          ((alookup vc.cmp choice).getD ⟨none, []⟩)
          (fp.props.map Prod.fst) (cs₀, fp) with
        | .error e => .error e
        | .ok acc' => .ok (vc.fld.foldl
            (applyFieldStep true uuid fp.ref vc.aspect choice) acc')) =
      Except.map (fun x => (x.1, fp))
        (match applyPropsLoop false uuid fp.ref vc.aspect choice
            ((alookup vc.cmp choice).getD ⟨none, []⟩)
            (fpW₀.props.map Prod.fst) (cs₀, fpW₀) with
          | .error e => .error e
          | .ok acc' => .ok (vc.fld.foldl
              (applyFieldStep false uuid fp.ref vc.aspect choice) acc')) := by
    intro cs₀ fpW₀ hprops hpra hflds
    rw [hprops]
    rw [applyPropsLoop_dry uuid fp.ref vc.aspect choice
      ((alookup vc.cmp choice).getD ⟨none, []⟩) (fp.props.map Prod.fst)
      hpr cs₀ fpW₀ fp
      (fun k _ => by rw [prop_state, prop_state, hprops])
      (fun _ => hpra)]
    cases hw : applyPropsLoop false uuid fp.ref vc.aspect choice
        ((alookup vc.cmp choice).getD ⟨none, []⟩)
        (fp.props.map Prod.fst) (cs₀, fpW₀) with
    | error e => rfl
    | ok accW =>
      obtain ⟨csW, fpW1⟩ := accW
      have hfe : fpW1.fields = fp.fields :=
        (applyPropsLoop_ok_fields false uuid fp.ref vc.aspect choice
          ((alookup vc.cmp choice).getD ⟨none, []⟩)
          (fp.props.map Prod.fst) (cs₀, fpW₀) (csW, fpW1) hw).trans hflds
      show Except.ok (vc.fld.foldl
          (applyFieldStep true uuid fp.ref vc.aspect choice) (csW, fp)) =
        Except.ok ((vc.fld.foldl
          (applyFieldStep false uuid fp.ref vc.aspect choice)
          (csW, fpW1)).1, fp)
      rw [fieldsFold_dry uuid fp.ref vc.aspect choice vc.fld hfl csW fpW1 fp
        (fun fb _ => by rw [hfe])]
  simp only [applyComp]
  cases hcv : ((alookup vc.cmp choice).getD ⟨none, []⟩).value with
  | none =>
    rw [applyValueStep_none true uuid vc choice _ fp hcv,
      applyValueStep_none false uuid vc choice _ fp hcv]
    exact core [] fp rfl rfl rfl
  | some nv =>
    by_cases hne : fp.value ≠ nv
    · rw [applyValueStep_ne true uuid vc choice _ fp nv hcv hne,
        applyValueStep_ne false uuid vc choice _ fp nv hcv hne]
      exact core [⟨uuid, fp.ref, .value fp.value nv, vc.aspect, choice⟩]
        { fp with value := nv } rfl rfl rfl
    · rw [applyValueStep_eq true uuid vc choice _ fp nv hcv hne,
        applyValueStep_eq false uuid vc choice _ fp nv hcv hne]
      exact core [] fp rfl rfl rfl

theorem applyLoop_dry (selection : List (String × Option String))
    (fpdict0 : Fpdict)
    (hpr : ∀ p ∈ fpdict0, (p.2.props.map Prod.fst).Nodup) :
    ∀ (vd : Vardict), (vd.map Prod.fst).Nodup →
      (∀ u ∈ vd, (u.2.fld.map Prod.fst).Nodup) →
      ∀ (cs : List Change) (fpdW : Fpdict),
        (∀ u ∈ vd, alookup fpdW u.1 = alookup fpdict0 u.1) →
        applyLoop selection true vd (cs, fpdict0) =
          (applyLoop selection false vd (cs, fpdW)).map
            (fun x => (x.1, fpdict0)) := by
  intro vd
  induction vd with
  | nil => intro _ _ cs fpdW _; rfl
  | cons u vd ih =>
    intro hnd hfl cs fpdW hag
    rw [List.map_cons, List.nodup_cons] at hnd
    have hagu : alookup fpdW u.1 = alookup fpdict0 u.1 :=
      hag u (List.mem_cons_self u vd)
    have htail : ∀ u' ∈ vd, alookup fpdW u'.1 = alookup fpdict0 u'.1 :=
      fun u' h => hag u' (List.mem_cons_of_mem u h)
    have hfltail : ∀ u' ∈ vd, (u'.2.fld.map Prod.fst).Nodup :=
      fun u' h => hfl u' (List.mem_cons_of_mem u h)
    simp only [applyLoop]
    cases hsel : alookup selection u.2.aspect with
    | none => exact ih hnd.2 hfltail cs fpdW htail
    | some o =>
      cases o with
      | none => exact ih hnd.2 hfltail cs fpdW htail
      | some ch =>
        rw [hagu]
        dsimp only
        have hprfp : (((alookup fpdict0 u.1).getD fpMissing).props.map
            Prod.fst).Nodup := by
          cases h0 : alookup fpdict0 u.1 with
          | none => exact List.nodup_nil
          | some x => exact hpr (u.1, x) (alookup_mem fpdict0 u.1 x h0)
        rw [applyComp_dry u.1 u.2 ch ((alookup fpdict0 u.1).getD fpMissing)
          hprfp (hfl u (List.mem_cons_self u vd))]
        cases hw : applyComp false u.1 u.2 ch
            ((alookup fpdict0 u.1).getD fpMissing) with
        | error e => rfl
        | ok accW =>
          obtain ⟨nc, fpW1⟩ := accW
          exact ih hnd.2 hfltail (cs ++ nc) (aset fpdW u.1 fpW1)
            (fun u' h => (alookup_aset_ne fpdW u.1 u'.1 fpW1
              (fun he => hnd.1 (by rw [he]; exact mem_map_fst vd u' h))).trans
              (htail u' h))

/-- **C10.** For every snapshot, model and selection (with the dict-shaped
key uniqueness every Python dict guarantees), running `apply_selection`
with `dry_run` returns exactly the change list (or the uncaught paste
error) of the real run while leaving the snapshot object untouched. -/
theorem apply_selection_dry_run (fpdict : Fpdict) (vardict : Vardict)
    (selection : List (String × Option String))
    (h1 : (vardict.map Prod.fst).Nodup)
    (h2 : ∀ p ∈ fpdict, (p.2.props.map Prod.fst).Nodup)
    (h3 : ∀ u ∈ vardict, (u.2.fld.map Prod.fst).Nodup) :
    apply_selection fpdict vardict selection true =
      (apply_selection fpdict vardict selection false).map
        (fun r => (r.1, fpdict)) :=
  applyLoop_dry selection fpdict h2 vardict h1 h3 [] fpdict (fun _ _ => rfl)

/-- Witness for C10 at a concrete snapshot, model and selection that
produce value, property and field changes: hypotheses hold and the dry run
equals the real run's change list with the snapshot preserved. -/
theorem apply_selection_dry_run_witness :
    (([("u", (⟨"A", [("c1", ⟨some "22k", [("B", some true)]⟩)],
        [("F1", [("c1", ⟨some "y", []⟩)])]⟩ : VarComp))] :
        Vardict).map Prod.fst).Nodup ∧
    (∀ p ∈ ([("u", (⟨"R1", "10k", [("F1", "x")], [("B", some false)],
        none⟩ : FpState))] : Fpdict), (p.2.props.map Prod.fst).Nodup) ∧
    (∀ u ∈ ([("u", (⟨"A", [("c1", ⟨some "22k", [("B", some true)]⟩)],
        [("F1", [("c1", ⟨some "y", []⟩)])]⟩ : VarComp))] : Vardict),
      (u.2.fld.map Prod.fst).Nodup) ∧
    apply_selection
        [("u", ⟨"R1", "10k", [("F1", "x")], [("B", some false)], none⟩)]
        [("u", ⟨"A", [("c1", ⟨some "22k", [("B", some true)]⟩)],
          [("F1", [("c1", ⟨some "y", []⟩)])]⟩)]
        [("A", some "c1")] true =
      (apply_selection
        [("u", ⟨"R1", "10k", [("F1", "x")], [("B", some false)], none⟩)]
        [("u", ⟨"A", [("c1", ⟨some "22k", [("B", some true)]⟩)],
          [("F1", [("c1", ⟨some "y", []⟩)])]⟩)]
        [("A", some "c1")] false).map (fun r =>
          (r.1, [("u", ⟨"R1", "10k", [("F1", "x")], [("B", some false)],
            none⟩)])) := by
  refine ⟨by decide, fun p hp => ?_, fun u hu => ?_,
    apply_selection_dry_run
      [("u", ⟨"R1", "10k", [("F1", "x")], [("B", some false)], none⟩)]
      [("u", ⟨"A", [("c1", ⟨some "22k", [("B", some true)]⟩)],
        [("F1", [("c1", ⟨some "y", []⟩)])]⟩)]
      [("A", some "c1")] (by decide) (fun p hp => ?_) (fun u hu => ?_)⟩
  · rcases List.mem_singleton.mp hp with rfl
    decide
  · rcases List.mem_singleton.mp hu with rfl
    decide
  · rcases List.mem_singleton.mp hp with rfl
    decide
  · rcases List.mem_singleton.mp hu with rfl
    decide

/-! ## The ambiguity check of `build_vardict` (C4) -/

/-- Order-insensitive Python dict equality over an association list, given
an equality test for the values: both key sets agree and the value under
each key tests equal. The flow only compares dicts, whose keys are unique. -/
def dictBeqBy {α : Type} (eqv : α → α → Bool) (m1 m2 : List (String × α)) :
    Bool :=
  m1.all (fun p => match alookup m2 p.1 with
    | some v => eqv p.2 v
    | none => false) &&
  m2.all (fun p => (alookup m1 p.1).isSome)

/-- Python `==` on a choice entry `{value, props}`. -/
def entryBeq (e1 e2 : ChoiceEntry) : Bool :=
  (e1.value == e2.value) && dictBeqBy (fun a b => a == b) e1.props e2.props

/-- The signature `check_dict[aspect][choice][uuid]`: the component-scope
entry and one entry per field-scope target field. -/
structure CheckComp where
  cmp : ChoiceEntry
  fld : List (String × ChoiceEntry)
deriving DecidableEq

/-- Python `==` on one component's signature. -/
def checkCompBeq (x y : CheckComp) : Bool :=
  entryBeq x.cmp y.cmp && dictBeqBy entryBeq x.fld y.fld

/-- `check_dict[aspect][choice]`: the signature of every component owning
`aspect`, in model order; the direct Python indexes are total after
finalization and default to the unspecified entry here. -/
def checkDictFor (vardict : Vardict) (aspect choice : String) :
    List (String × CheckComp) :=
  (vardict.filter (fun u => u.2.aspect = aspect)).map (fun u =>
    (u.1, ⟨(alookup u.2.cmp choice).getD ⟨none, []⟩,
      u.2.fld.map (fun fb => (fb.1, (alookup fb.2 choice).getD ⟨none, []⟩))⟩))

/-- Python `check_dict[aspect][choice_a] == check_dict[aspect][choice_b]`. -/
def choiceEqv (vardict : Vardict) (aspect a b : String) : Bool :=
  dictBeqBy checkCompBeq (checkDictFor vardict aspect a)
    (checkDictFor vardict aspect b)

/-- `natural_sort_key`, over the remaining characters and the pending digit
run: a digit run becomes `(0, value, '')`, any other character becomes
`(1, 0, lowered)`. -/
def natKeyAux : List Char → List Char → List (Nat × Nat × String)
  | [], part =>
    if part ≠ [] then [(0, digitsVal 0 part, "")] else []
  | c :: rest, part =>
    if c.isDigit then natKeyAux rest (part ++ [c])
    else
      (if part ≠ [] then [(0, digitsVal 0 part, "")] else []) ++
        (1, 0, (⟨[c.toLower]⟩ : String)) :: natKeyAux rest []

def natural_sort_key (s : String) : List (Nat × Nat × String) :=
  natKeyAux s.data []

/-- Lexicographic (code-point) string comparison, Python `<`. -/
def strLtB : List Char → List Char → Bool
  | [], [] => false
  | [], _ :: _ => true
  | _ :: _, [] => false
  | c :: cs, d :: ds =>
    if c < d then true else if d < c then false else strLtB cs ds

/-- Strict lexicographic order on one key part (Python tuple `<`). -/
def partLt (x y : Nat × Nat × String) : Bool :=
  x.1 < y.1 ∨ (x.1 = y.1 ∧
    (x.2.1 < y.2.1 ∨ (x.2.1 = y.2.1 ∧ strLtB x.2.2.data y.2.2.data)))

/-- Python list comparison of two sort keys (`≤`, shorter prefix first). -/
def sortKeyLe : List (Nat × Nat × String) → List (Nat × Nat × String) → Bool
  | [], _ => true
  | _ :: _, [] => false
  | x :: xs, y :: ys =>
    if partLt x y then true
    else if partLt y x then false
    else sortKeyLe xs ys

/-- Stable insertion of `x` into an already sorted list: `x` goes after
every element it is not strictly before. -/
def insertOrdered (le : String → String → Bool) (x : String) :
    List String → List String
  | [] => [x]
  | y :: ys => if le y x then y :: insertOrdered le x ys else x :: y :: ys

/-- Python `sorted(l, key=natural_sort_key)`: the stable sort by the
natural keys (a structural insertion sort computes it, `sortKeyLe` being a
total preorder). -/
def natural_sorted (l : List String) : List String :=
  l.foldl (fun acc x => insertOrdered
    (fun a b => sortKeyLe (natural_sort_key a) (natural_sort_key b)) x acc) []

theorem insertOrdered_perm (le : String → String → Bool) (x : String) :
    ∀ (l : List String), (insertOrdered le x l).Perm (x :: l) := by
  intro l
  induction l with
  | nil => exact List.Perm.refl _
  | cons y ys ih =>
    show (if le y x then y :: insertOrdered le x ys else x :: y :: ys).Perm _
    by_cases h : le y x = true
    · rw [if_pos h]
      exact (List.Perm.cons y ih).trans (List.Perm.swap x y ys)
    · rw [if_neg h]

theorem natural_sorted_perm (l : List String) :
    (natural_sorted l).Perm l := by
  have h : ∀ (t acc : List String),
      (t.foldl (fun acc x => insertOrdered
        (fun a b => sortKeyLe (natural_sort_key a) (natural_sort_key b))
        x acc) acc).Perm (acc ++ t) := by
    intro t
    induction t with
    | nil =>
      intro acc
      rw [List.append_nil]
      exact List.Perm.refl _
    | cons x ts ih =>
      intro acc
      rw [List.foldl_cons]
      refine (ih _).trans ?_
      have h1 : (insertOrdered
          (fun a b => sortKeyLe (natural_sort_key a) (natural_sort_key b))
          x acc).Perm (acc ++ [x]) :=
        (insertOrdered_perm _ x acc).trans
          (List.perm_append_singleton x acc).symm
      refine (h1.append_right ts).trans ?_
      rw [List.append_assoc, List.singleton_append]
  exact h l []

/-- The triangle scan of the ambiguity check: for each row choice not yet
reported, collect the unreported equivalent choices above the diagonal
(scanning the columns in reverse), and on a hit record the group and mark
all of its members reported. -/
def ambiguityRowsAux (eqv : String → String → Bool) (choices : List String) :
    List String → List String → List (List String)
  | [], _ => []
  | a :: rest, reported =>
    if a ∈ reported then ambiguityRowsAux eqv choices rest reported
    else
      let amb := (choices.reverse.takeWhile (fun b => b ≠ a)).filter
        (fun b => b ∉ reported ∧ eqv a b = true)
      if amb ≠ [] then
        (amb ++ [a]) :: ambiguityRowsAux eqv choices rest
          (reported ++ (amb ++ [a]))
      else ambiguityRowsAux eqv choices rest reported

/-- One ambiguity error: the aspect and its group of equivalent choices in
message order (the row choice first, then its equivalents ascending). -/
structure AmbErr where
  aspect : String
  group : List String
deriving DecidableEq

/-- The ambiguity errors of `build_vardict`: aspects in natural-sort order,
each aspect's choices in natural-sort order, one error per reported group. -/
def ambiguity_errors (vardict : Vardict) : List AmbErr :=
  (natural_sorted ((get_choice_dict vardict).map Prod.fst)).flatMap
    (fun aspect =>
      let choices := natural_sorted
        ((alookup (get_choice_dict vardict) aspect).getD [])
      (ambiguityRowsAux (choiceEqv vardict aspect) choices choices []).map
        (fun g => ⟨aspect, g.reverse⟩))

/-- Specification-side clustering, fuelled: partition a list into its
maximal clusters of pairwise-equivalent elements, first-seen order. -/
def specClustersAux (eqv : String → String → Bool) :
    Nat → List String → List (List String)
  | 0, _ => []
  | _, [] => []
  | fuel + 1, x :: rest =>
    (x :: rest.filter (fun y => eqv x y)) ::
      specClustersAux eqv fuel (rest.filter (fun y => !(eqv x y)))

/-- Specification-side clustering of a list (the length is enough fuel). -/
def specClusters (eqv : String → String → Bool) (l : List String) :
    List (List String) :=
  specClustersAux eqv l.length l

theorem specClustersAux_nil (eqv : String → String → Bool) (f : Nat) :
    specClustersAux eqv f [] = [] := by
  cases f with
  | zero => rfl
  | succ f => rfl

theorem specClustersAux_congr (eqv : String → String → Bool) :
    ∀ (f1 f2 : Nat) (l : List String), l.length ≤ f1 → l.length ≤ f2 →
      specClustersAux eqv f1 l = specClustersAux eqv f2 l := by
  intro f1
  induction f1 with
  | zero =>
    intro f2 l h1 _
    rw [List.length_eq_zero.mp (Nat.le_zero.mp h1)]
    rw [specClustersAux_nil, specClustersAux_nil]
  | succ f1 ih =>
    intro f2 l h1 h2
    cases l with
    | nil => rw [specClustersAux_nil, specClustersAux_nil]
    | cons x rest =>
      cases f2 with
      | zero =>
        rw [List.length_cons] at h2
        exact absurd h2 (Nat.not_succ_le_zero _)
      | succ f2 =>
        rw [List.length_cons] at h1 h2
        show _ :: specClustersAux eqv f1 _ = _ :: specClustersAux eqv f2 _
        refine congrArg _ (ih f2 _ ?_ ?_)
        · exact Nat.le_trans (List.length_filter_le _ rest)
            (Nat.le_of_succ_le_succ h1)
        · exact Nat.le_trans (List.length_filter_le _ rest)
            (Nat.le_of_succ_le_succ h2)

theorem specClusters_cons (eqv : String → String → Bool) (x : String)
    (rest : List String) :
    specClusters eqv (x :: rest) =
      (x :: rest.filter (fun y => eqv x y)) ::
        specClusters eqv (rest.filter (fun y => !(eqv x y))) := by
  show specClustersAux eqv (x :: rest).length (x :: rest) = _
  rw [List.length_cons]
  show _ :: specClustersAux eqv rest.length _ = _
  refine congrArg _ (specClustersAux_congr eqv rest.length _ _
    (List.length_filter_le _ rest) (Nat.le_refl _))

theorem takeWhile_ne_append (x : String) :
    ∀ (l1 l2 : List String), (∀ y ∈ l1, y ≠ x) →
      (l1 ++ x :: l2).takeWhile (fun b => b ≠ x) = l1 := by
  intro l1
  induction l1 with
  | nil =>
    intro l2 _
    rw [List.nil_append, List.takeWhile_cons]
    simp
  | cons y l1 ih =>
    intro l2 h
    rw [List.cons_append, List.takeWhile_cons,
      if_pos (decide_eq_true (h y (List.mem_cons_self y l1))),
      ih l2 (fun z hz => h z (List.mem_cons_of_mem y hz))]

theorem ambiguityRows_spec (eqv : String → String → Bool)
    (cs : List String) (hnd : cs.Nodup)
    (hsym : ∀ x ∈ cs, ∀ y ∈ cs, eqv x y = eqv y x)
    (htr : ∀ x ∈ cs, ∀ y ∈ cs, ∀ z ∈ cs,
      eqv x y = true → eqv y z = true → eqv x z = true) :
    ∀ (rows reported pre : List String),
      cs = pre ++ rows →
      (∀ b ∈ reported, b ∈ cs) →
      (∀ b ∈ reported, ∀ z ∈ cs, eqv b z = true → z ∈ reported) →
      (∀ a ∈ rows, a ∉ reported → ∀ y ∈ pre, eqv y a = false) →
      (ambiguityRowsAux eqv cs rows reported).map List.reverse =
        (specClusters eqv (rows.filter (fun a => a ∉ reported))).filter
          (fun g => 2 ≤ g.length) := by
  intro rows
  induction rows with
  | nil =>
    intro reported pre _ _ _ _
    simp [ambiguityRowsAux, specClusters, specClustersAux_nil]
  | cons a rest ih =>
    intro reported pre hcs hrep hclosed hlead
    have hcs' : cs = (pre ++ [a]) ++ rest := by
      rw [hcs, List.append_assoc, List.singleton_append]
    have hacs : a ∈ cs := by
      rw [hcs]
      exact List.mem_append_right pre (List.mem_cons_self a rest)
    have hrestcs : ∀ b ∈ rest, b ∈ cs := fun b hb => by
      rw [hcs]
      exact List.mem_append_right pre (List.mem_cons_of_mem a hb)
    have hanr : a ∉ rest := by
      have h2 : (a :: rest).Nodup := ((List.nodup_append.mp
        (hcs ▸ hnd)).2.1)
      exact (List.nodup_cons.mp h2).1
    by_cases hmem : a ∈ reported
    · have hm : ambiguityRowsAux eqv cs (a :: rest) reported =
          ambiguityRowsAux eqv cs rest reported := by
        simp only [ambiguityRowsAux]
        rw [if_pos hmem]
      have hf : (a :: rest).filter (fun a => a ∉ reported) =
          rest.filter (fun a => a ∉ reported) := by
        rw [List.filter_cons, if_neg (by simp [hmem])]
      rw [hm, hf]
      refine ih reported (pre ++ [a]) hcs' hrep hclosed ?_
      intro a' ha' hna' y hy
      rcases List.mem_append.mp hy with hy | hy
      · exact hlead a' (List.mem_cons_of_mem a ha') hna' y hy
      · rw [List.mem_singleton.mp hy]
        have ha'cs : a' ∈ cs := hrestcs a' ha'
        by_cases he : eqv a a' = true
        · exact absurd (hclosed a hmem a' ha'cs he) hna'
        · exact Bool.eq_false_iff.mpr he
    · have hsplit : cs.reverse.takeWhile (fun b => b ≠ a) = rest.reverse := by
        rw [hcs, List.reverse_append, List.reverse_cons, List.append_assoc,
          List.singleton_append]
        exact takeWhile_ne_append a rest.reverse pre.reverse
          (fun y hy hya => hanr (hya ▸ List.mem_reverse.mp hy))
      have hamb : (cs.reverse.takeWhile (fun b => b ≠ a)).filter
          (fun b => b ∉ reported ∧ eqv a b = true) =
          (rest.filter (fun y => eqv a y)).reverse := by
        rw [hsplit, ← List.filter_reverse]
        refine List.filter_congr ?_
        intro b hb
        have hbcs : b ∈ cs := hrestcs b (List.mem_reverse.mp hb)
        by_cases he : eqv a b = true
        · have hbnr : b ∉ reported := fun hbrep =>
            hmem (hclosed b hbrep a hacs
              (by rw [hsym b hbcs a hacs]; exact he))
          simp [he, hbnr]
        · have hf : eqv a b = false := Bool.eq_false_iff.mpr he
          simp [hf]
      simp only [ambiguityRowsAux]
      rw [if_neg hmem, hamb]
      by_cases hae : rest.filter (fun y => eqv a y) = []
      · have hall : ∀ b ∈ rest, ¬(eqv a b = true) :=
          fun b hb => by
            intro he
            have : b ∈ rest.filter (fun y => eqv a y) :=
              List.mem_filter.mpr ⟨hb, he⟩
            rw [hae] at this
            exact absurd this (List.not_mem_nil b)
        rw [hae, List.reverse_nil]
        rw [if_neg (not_not_intro rfl)]
        have hres : (a :: rest).filter (fun a => a ∉ reported) =
            a :: rest.filter (fun a => a ∉ reported) := by
          rw [List.filter_cons, if_pos (by simp [hmem])]
        rw [hres]
        rw [specClusters_cons]
        have hc1 : (rest.filter (fun a => a ∉ reported)).filter
            (fun y => eqv a y) = [] := by
          refine List.filter_eq_nil_iff.mpr ?_
          intro b hb
          exact hall b (List.mem_filter.mp hb).1
        have hc2 : (rest.filter (fun a => a ∉ reported)).filter
            (fun y => !(eqv a y)) = rest.filter (fun a => a ∉ reported) := by
          refine List.filter_eq_self.mpr ?_
          intro b hb
          have hf : eqv a b = false :=
            Bool.eq_false_iff.mpr (hall b (List.mem_filter.mp hb).1)
          rw [hf]
          rfl
        rw [hc1, hc2, List.filter_cons, if_neg (by simp)]
        refine ih reported (pre ++ [a]) hcs' hrep hclosed ?_
        intro a' ha' hna' y hy
        rcases List.mem_append.mp hy with hy | hy
        · exact hlead a' (List.mem_cons_of_mem a ha') hna' y hy
        · rw [List.mem_singleton.mp hy]
          exact Bool.eq_false_iff.mpr (hall a' ha')
      · rw [if_pos (by
          intro hrev
          exact hae (by
            have := congrArg List.reverse hrev
            rwa [List.reverse_reverse] at this))]
        have hres : (a :: rest).filter (fun a => a ∉ reported) =
            a :: rest.filter (fun a => a ∉ reported) := by
          rw [List.filter_cons, if_pos (by simp [hmem])]
        rw [hres, specClusters_cons]
        have hnotrep : ∀ b ∈ rest, eqv a b = true → b ∉ reported :=
          fun b hb he hbrep =>
            hmem (hclosed b hbrep a hacs
              (by rw [hsym b (hrestcs b hb) a hacs]; exact he))
        have hc1 : (rest.filter (fun a => a ∉ reported)).filter
            (fun y => eqv a y) = rest.filter (fun y => eqv a y) := by
          rw [List.filter_filter]
          refine List.filter_congr ?_
          intro b hb
          by_cases he : eqv a b = true
          · simp [he, hnotrep b hb he]
          · simp [Bool.eq_false_iff.mpr he]
        have hc2 : (rest.filter (fun a => a ∉ reported)).filter
            (fun y => !(eqv a y)) =
            rest.filter (fun b =>
              b ∉ (reported ++ ((rest.filter (fun y => eqv a y)).reverse
                ++ [a]))) := by
          rw [List.filter_filter]
          refine List.filter_congr ?_
          intro b hb
          by_cases he : eqv a b = true
          · have hbin : b ∈ (rest.filter (fun y => eqv a y)).reverse ++ [a] :=
              List.mem_append_left _ (List.mem_reverse.mpr
                (List.mem_filter.mpr ⟨hb, he⟩))
            simp [he, List.mem_append.mpr (Or.inr hbin)]
          · have hf : eqv a b = false := Bool.eq_false_iff.mpr he
            have hbna : b ∉ (rest.filter (fun y => eqv a y)).reverse ++ [a] := by
              intro hbin
              rcases List.mem_append.mp hbin with h | h
              · have := (List.mem_filter.mp (List.mem_reverse.mp h)).2
                rw [hf] at this
                exact Bool.false_ne_true this
              · exact absurd ((List.mem_singleton.mp h) ▸ hb) hanr
            by_cases hbr : b ∈ reported
            · simp [hf, hbr]
            · simp [hf, hbr, hbna, List.mem_append]
        have hlen : ¬(2 ≤ (a :: (rest.filter (fun y => eqv a y))).length) →
            False := by
          intro hlt
          rcases hl : rest.filter (fun y => eqv a y) with _ | ⟨c, t⟩
          · exact hae hl
          · rw [hl] at hlt
            simp [List.length_cons] at hlt
        rw [hc1, hc2]
        rw [List.filter_cons, if_pos (by
          simp only [decide_eq_true_eq]
          by_contra hn
          exact hlen hn)]
        rw [List.map_cons]
        have hgrp : ((rest.filter (fun y => eqv a y)).reverse ++ [a]).reverse =
            a :: rest.filter (fun y => eqv a y) := by
          rw [List.reverse_append, List.reverse_reverse]
          rfl
        rw [hgrp]
        refine congrArg _ ?_
        refine ih (reported ++ ((rest.filter (fun y => eqv a y)).reverse
            ++ [a])) (pre ++ [a]) hcs' ?_ ?_ ?_
        · intro b hb
          rcases List.mem_append.mp hb with h | h
          · exact hrep b h
          · rcases List.mem_append.mp h with h | h
            · exact hrestcs b ((List.mem_filter.mp (List.mem_reverse.mp h)).1)
            · rw [List.mem_singleton.mp h]
              exact hacs
        · intro b hb z hz he
          rcases List.mem_append.mp hb with h | h
          · exact List.mem_append_left _ (hclosed b h z hz he)
          · have heaz : eqv a z = true := by
              rcases List.mem_append.mp h with h1 | h1
              · have hbmem := List.mem_filter.mp (List.mem_reverse.mp h1)
                exact htr a hacs b (hrestcs b hbmem.1) z hz hbmem.2 he
              · rw [← List.mem_singleton.mp h1]
                exact he
            have hzcases : z ∈ pre ∨ z = a ∨ z ∈ rest := by
              rw [hcs] at hz
              rcases List.mem_append.mp hz with h2 | h2
              · exact Or.inl h2
              · rcases List.mem_cons.mp h2 with h2 | h2
                · exact Or.inr (Or.inl h2)
                · exact Or.inr (Or.inr h2)
            rcases hzcases with h2 | h2 | h2
            · have hzafalse : eqv z a = false :=
                hlead a (List.mem_cons_self a rest) hmem z h2
              have hzatrue : eqv z a = true := by
                rw [hsym z (by rw [hcs]; exact List.mem_append_left _ h2)
                  a hacs]
                exact heaz
              rw [hzafalse] at hzatrue
              exact absurd hzatrue Bool.false_ne_true
            · subst h2
              exact List.mem_append_right _ (List.mem_append_right _
                (List.mem_singleton.mpr rfl))
            · exact List.mem_append_right _ (List.mem_append_left _
                (List.mem_reverse.mpr (List.mem_filter.mpr ⟨h2, heaz⟩)))
        · intro a' ha' hna' y hy
          have hna'rep : a' ∉ reported := fun hr =>
            hna' (List.mem_append_left _ hr)
          rcases List.mem_append.mp hy with hy | hy
          · exact hlead a' (List.mem_cons_of_mem a ha') hna'rep y hy
          · rw [List.mem_singleton.mp hy]
            by_cases he : eqv a a' = true
            · exact absurd (List.mem_append_right _ (List.mem_append_left _
                (List.mem_reverse.mpr (List.mem_filter.mpr ⟨ha', he⟩)))) hna'
            · exact Bool.eq_false_iff.mpr he

theorem flatMapCongr {α β : Type} (l : List α) (f g : α → List β)
    (h : ∀ a ∈ l, f a = g a) : l.flatMap f = l.flatMap g := by
  induction l with
  | nil => rfl
  | cons x t ih =>
    rw [List.flatMap_cons, List.flatMap_cons, h x (List.mem_cons_self x t),
      ih (fun a ha => h a (List.mem_cons_of_mem x ha))]

/-- **C4.** The ambiguity checker of `build_vardict` reports, per aspect,
exactly one error per maximal cluster of at least two choices whose full
signatures (component-scope entry plus every field-scope entry, across all
components owning the aspect) are pairwise equal under Python dict
equality, visiting aspects and choices in natural-sort order; each error
names the cluster in order (its first choice, then its other members
ascending). The hypothesis states that the signature comparison is
symmetric and transitive on the aspect's choices, which Python's `==` on
dicts always is. -/
theorem ambiguity_errors_spec (vardict : Vardict)
    (hequiv : ∀ aspect ∈ (get_choice_dict vardict).map Prod.fst,
      (∀ x ∈ (alookup (get_choice_dict vardict) aspect).getD [],
       ∀ y ∈ (alookup (get_choice_dict vardict) aspect).getD [],
        choiceEqv vardict aspect x y = choiceEqv vardict aspect y x) ∧
      (∀ x ∈ (alookup (get_choice_dict vardict) aspect).getD [],
       ∀ y ∈ (alookup (get_choice_dict vardict) aspect).getD [],
       ∀ z ∈ (alookup (get_choice_dict vardict) aspect).getD [],
        choiceEqv vardict aspect x y = true →
        choiceEqv vardict aspect y z = true →
        choiceEqv vardict aspect x z = true)) :
    ambiguity_errors vardict =
      (natural_sorted ((get_choice_dict vardict).map Prod.fst)).flatMap
        (fun aspect =>
          ((specClusters (choiceEqv vardict aspect)
              (natural_sorted
                ((alookup (get_choice_dict vardict) aspect).getD []))).filter
            (fun g => 2 ≤ g.length)).map
            (fun g => (⟨aspect, g⟩ : AmbErr))) := by
  simp only [ambiguity_errors]
  refine flatMapCongr _ _ _ ?_
  intro aspect haspS
  have hasp : aspect ∈ (get_choice_dict vardict).map Prod.fst :=
    (natural_sorted_perm _).mem_iff.mp haspS
  obtain ⟨hsym0, htr0⟩ := hequiv aspect hasp
  have hperm := natural_sorted_perm
    ((alookup (get_choice_dict vardict) aspect).getD [])
  have hnd0 : ((alookup (get_choice_dict vardict) aspect).getD []).Nodup := by
    cases h0 : alookup (get_choice_dict vardict) aspect with
    | none => exact List.nodup_nil
    | some x =>
      exact (get_choice_dict_inv vardict).2 (aspect, x)
        (alookup_mem _ aspect x h0)
  have hnd : (natural_sorted
      ((alookup (get_choice_dict vardict) aspect).getD [])).Nodup :=
    hperm.symm.nodup hnd0
  have hmain := ambiguityRows_spec (choiceEqv vardict aspect)
    (natural_sorted ((alookup (get_choice_dict vardict) aspect).getD []))
    hnd
    (fun x hx y hy => hsym0 x (hperm.mem_iff.mp hx) y (hperm.mem_iff.mp hy))
    (fun x hx y hy z hz => htr0 x (hperm.mem_iff.mp hx)
      y (hperm.mem_iff.mp hy) z (hperm.mem_iff.mp hz))
    (natural_sorted ((alookup (get_choice_dict vardict) aspect).getD []))
    [] [] (List.nil_append _).symm
    (fun b hb => absurd hb (List.not_mem_nil b))
    (fun b hb => absurd hb (List.not_mem_nil b))
    (fun a _ _ y hy => absurd hy (List.not_mem_nil y))
  have hfilt : (natural_sorted
      ((alookup (get_choice_dict vardict) aspect).getD [])).filter
      (fun a => a ∉ ([] : List String)) =
      natural_sorted ((alookup (get_choice_dict vardict) aspect).getD []) :=
    List.filter_eq_self.mpr (fun b _ => by simp)
  rw [hfilt] at hmain
  calc (ambiguityRowsAux (choiceEqv vardict aspect)
        (natural_sorted ((alookup (get_choice_dict vardict) aspect).getD []))
        (natural_sorted ((alookup (get_choice_dict vardict) aspect).getD []))
        []).map (fun g => (⟨aspect, g.reverse⟩ : AmbErr))
      = ((ambiguityRowsAux (choiceEqv vardict aspect)
        (natural_sorted ((alookup (get_choice_dict vardict) aspect).getD []))
        (natural_sorted ((alookup (get_choice_dict vardict) aspect).getD []))
        []).map List.reverse).map (fun g => (⟨aspect, g⟩ : AmbErr)) := by
        rw [List.map_map]
        rfl
    _ = ((specClusters (choiceEqv vardict aspect)
          (natural_sorted
            ((alookup (get_choice_dict vardict) aspect).getD []))).filter
        (fun g => 2 ≤ g.length)).map (fun g => (⟨aspect, g⟩ : AmbErr)) := by
        rw [hmain]

/-- Witness for C4 at a concrete model: aspect `A` has choices `x, y, z`
with `x` and `z` equivalent and `y` different, aspect `B` has two
equivalent choices; the checker reports exactly one group per cluster. -/
theorem ambiguity_errors_spec_witness :
    ambiguity_errors
      [("u1", ⟨"A", [("x", ⟨some "1", []⟩), ("y", ⟨some "2", []⟩),
        ("z", ⟨some "1", []⟩)], []⟩),
       ("u2", ⟨"B", [("m", ⟨none, [("F", some true)]⟩),
        ("n", ⟨none, [("F", some true)]⟩)], []⟩)] =
      [⟨"A", ["x", "z"]⟩, ⟨"B", ["m", "n"]⟩] := by
  rw [ambiguity_errors_spec
    [("u1", ⟨"A", [("x", ⟨some "1", []⟩), ("y", ⟨some "2", []⟩),
      ("z", ⟨some "1", []⟩)], []⟩),
     ("u2", ⟨"B", [("m", ⟨none, [("F", some true)]⟩),
      ("n", ⟨none, [("F", some true)]⟩)], []⟩)]
    (by decide)]
  decide

end KiVar
